import Mathlib

/-!
# Verification of the hilbertviz curve engines and render pipeline

Shallow embedding of `src/hilbert.c` and `src/render.c` from the
hilbertviz repository.  Machine integers are modelled as `Nat` / `Int`;
every checked-arithmetic helper of the source keeps its explicit overflow
guard (returning `Option`), so the embedded functions fail exactly where
the C code returns 0.  Unsigned 64-bit counters that the C code lets wrap
are reduced `% 2^64` at each update.
-/

namespace Hilbertviz

/-- `INT64_MAX`. -/
def I64max : Int := 2 ^ 63 - 1

/-- `INT64_MIN`. -/
def I64min : Int := -(2 ^ 63)

/-- `UINT64_MAX`. -/
def U64max : Nat := 2 ^ 64 - 1

/-- Embeds `hv_i64_add` (hilbert.c): checked signed 64-bit addition.  The C
guard `(b > 0 && a > INT64_MAX - b) || (b < 0 && a < INT64_MIN - b)` is kept
verbatim. -/
def hv_i64_add (a b : Int) : Option Int :=
  if (b > 0 ∧ a > I64max - b) ∨ (b < 0 ∧ a < I64min - b) then none else some (a + b)

/-- Embeds `hv_i64_sub` (hilbert.c): checked signed 64-bit subtraction via
`__builtin_sub_overflow`, which fails iff the exact difference is not
representable in 64 bits. -/
def hv_i64_sub (a b : Int) : Option Int :=
  if a - b < I64min ∨ a - b > I64max then none else some (a - b)

/-- Embeds `hv_i64_neg` (hilbert.c): negation fails only on `INT64_MIN`. -/
def hv_i64_neg (value : Int) : Option Int :=
  if value = I64min then none else some (-value)

/-- Embeds `hv_i64_mul` (hilbert.c): checked signed 64-bit multiplication via
`__builtin_mul_overflow`, which fails iff the exact product is not
representable in 64 bits. -/
def hv_i64_mul (a b : Int) : Option Int :=
  if a * b < I64min ∨ a * b > I64max then none else some (a * b)

/-- Embeds `hv_u64_to_i64` (hilbert.c). -/
def hv_u64_to_i64 (value : Nat) : Option Int :=
  if (value : Int) > I64max then none else some (value : Int)

/-- Embeds `hv_i64_abs_to_u64` (hilbert.c). -/
def hv_i64_abs_to_u64 (value : Int) : Option Nat :=
  if value ≥ 0 then some value.toNat
  else if value = I64min then none
  else some (-value).toNat

/-- Embeds `hv_u64_add` (hilbert.c): checked unsigned 64-bit addition. -/
def hv_u64_add (a b : Nat) : Option Nat :=
  if b > U64max - a then none else some (a + b)

/-- Embeds `hv_u64_mul` (hilbert.c): checked unsigned 64-bit multiplication. -/
def hv_u64_mul (a b : Nat) : Option Nat :=
  if a ≠ 0 ∧ b > U64max / a then none else some (a * b)

/-- Embeds `hv_floor_div2_i64` (hilbert.c): halving that rounds toward
negative infinity; the C code computes `value / 2` for nonnegative values and
`-(((-value) + 1) / 2)` otherwise, both with truncating division on
nonnegative operands, rendered here through `Nat` division. -/
def hv_floor_div2_i64 (value : Int) : Int :=
  if value ≥ 0 then ((value.toNat / 2 : Nat) : Int)
  else -((((-value).toNat + 1) / 2 : Nat) : Int)

/-- Embeds `hv_sign_i64` (hilbert.c). -/
def hv_sign_i64 (value : Int) : Int :=
  if value > 0 then 1 else if value < 0 then -1 else 0

/-- Embeds `hv_gilbert_dims` (hilbert.c): the current rectangle's width and
height as `|ax+ay|` and `|bx+by|`, failing on overflow or if either is 0. -/
def hv_gilbert_dims (ax ay bx by_ : Int) : Option (Nat × Nat) := do
  let w_signed ← hv_i64_add ax ay
  let h_signed ← hv_i64_add bx by_
  let w ← hv_i64_abs_to_u64 w_signed
  let h ← hv_i64_abs_to_u64 h_signed
  if w > 0 ∧ h > 0 then some (w, h) else none

/-- Embeds `hv_gilbert_cell_count` (hilbert.c). -/
def hv_gilbert_cell_count (ax ay bx by_ : Int) : Option Nat := do
  let (w, h) ← hv_gilbert_dims ax ay bx by_
  hv_u64_mul w h

/-- The two base-case blocks of `hv_gilbert_d2xy_recursive` (hilbert.c,
`h == 1` and `w == 1`): walk `d` steps from `(x, y)` along the unit
direction `(dirx, diry)` using the checked-arithmetic helpers.  The C code
contains this block twice verbatim, once with `(dax, day)` and once with
`(dbx, dby)`. -/
def hv_gilbert_walk (x y dirx diry : Int) (d : Nat) : Option (Int × Int) := do
  let d_i64 ← hv_u64_to_i64 d
  let x_delta ← hv_i64_mul dirx d_i64
  let y_delta ← hv_i64_mul diry d_i64
  let xr ← hv_i64_add x x_delta
  let yr ← hv_i64_add y y_delta
  some (xr, yr)

/-- The parity correction of `hv_gilbert_d2xy_recursive` (hilbert.c): nudge a
halved basis vector `(vx, vy)` one unit along `(dvx, dvy)` when its extent
`len2` is odd and the full extent `full` exceeds 2.  The C code contains this
block twice, once for `a2` (wide split) and once for `b2` (tall split). -/
def hv_gilbert_adjust (vx vy dvx dvy : Int) (len2 full : Nat) :
    Option (Int × Int) :=
  if len2 % 2 ≠ 0 ∧ full > 2 then do
    let vx' ← hv_i64_add vx dvx
    let vy' ← hv_i64_add vy dvy
    some (vx', vy')
  else some (vx, vy)

/-- The second sub-rectangle state of the wide split of
`hv_gilbert_d2xy_recursive` (hilbert.c): origin `(x+ax2, y+ay2)` with the
remaining basis `a - a2`, as `(x2, y2, axr, ayr)`. -/
def hv_gilbert_wide_second (x y ax ay ax2 ay2 : Int) :
    Option (Int × Int × Int × Int) := do
  let x2 ← hv_i64_add x ax2
  let y2 ← hv_i64_add y ay2
  let axr ← hv_i64_sub ax ax2
  let ayr ← hv_i64_sub ay ay2
  some (x2, y2, axr, ayr)

/-- The middle sub-rectangle state of the tall split of
`hv_gilbert_d2xy_recursive` (hilbert.c): origin `(x+bx2, y+by2)` with
remaining second basis `b - b2`, as `(x2, y2, bx_rem, by_rem)`. -/
def hv_gilbert_tall_second (x y bx by_ bx2 by2 : Int) :
    Option (Int × Int × Int × Int) := do
  let x2 ← hv_i64_add x bx2
  let y2 ← hv_i64_add y by2
  let bx_rem ← hv_i64_sub bx bx2
  let by_rem ← hv_i64_sub by_ by2
  some (x2, y2, bx_rem, by_rem)

/-- The final sub-rectangle state of the tall split of
`hv_gilbert_d2xy_recursive` (hilbert.c): origin
`(x + (ax - dax) + (bx2 - dbx), y + (ay - day) + (by2 - dby))` with reflected
basis vectors `-b2` and `-(a - a2)`, computed exactly as the chain of checked
negations, additions and subtractions of the source, returned as
`(x3, y3, bx2_neg, by2_neg, ax_rem_neg, ay_rem_neg)`. -/
def hv_gilbert_tall_third (x y ax ay ax2 ay2 bx2 by2 dax day dbx dby : Int) :
    Option (Int × Int × Int × Int × Int × Int) :=
  match hv_i64_neg dax, hv_i64_neg day, hv_i64_neg dbx, hv_i64_neg dby with
  | some neg_dax, some neg_day, some neg_dbx, some neg_dby =>
    (match hv_i64_add ax neg_dax, hv_i64_add ay neg_day,
           hv_i64_add bx2 neg_dbx, hv_i64_add by2 neg_dby with
     | some x3_part1, some y3_part1, some x3_part2, some y3_part2 =>
       (match hv_i64_add x x3_part1, hv_i64_add y y3_part1 with
        | some x3a, some y3a =>
          (match hv_i64_add x3a x3_part2, hv_i64_add y3a y3_part2 with
           | some x3, some y3 =>
             (match hv_i64_neg bx2, hv_i64_neg by2,
                    hv_i64_sub ax ax2, hv_i64_sub ay ay2 with
              | some bx2_neg, some by2_neg, some ax_rem, some ay_rem =>
                (match hv_i64_neg ax_rem, hv_i64_neg ay_rem with
                 | some ax_rem_neg, some ay_rem_neg =>
                   some (x3, y3, bx2_neg, by2_neg, ax_rem_neg, ay_rem_neg)
                 | _, _ => none)
              | _, _, _, _ => none)
           | _, _ => none)
        | _, _ => none)
     | _, _, _, _ => none)
  | _, _, _, _ => none

/-- The cumulative cell counts of the tall split of
`hv_gilbert_d2xy_recursive` (hilbert.c): `first_count` for the corner block
`(b2, a2)` and `first_two = first_count + second_count` where `second_count`
counts the middle block `(a, b - b2)`. -/
def hv_gilbert_tall_counts (ax ay bx by_ ax2 ay2 bx2 by2 : Int) :
    Option (Nat × Nat) := do
  let bx_rem_for_count ← hv_i64_sub bx bx2
  let by_rem_for_count ← hv_i64_sub by_ by2
  let first_count ← hv_gilbert_cell_count bx2 by2 ax2 ay2
  let second_count ← hv_gilbert_cell_count ax ay bx_rem_for_count by_rem_for_count
  let first_two ← hv_u64_add first_count second_count
  some (first_count, first_two)

/-- The lengthwise ("wide") split of `hv_gilbert_d2xy_recursive`
(hilbert.c, branch `2*w > 3*h`): parity-correct `a2`, recurse into the first
sub-rectangle when `d < first_count`, otherwise into the second with origin
and basis advanced by `a2`.  `rec` is the recursive occurrence. -/
def hv_gilbert_split_wide
    (rec : Int → Int → Int → Int → Int → Int → Nat → Nat → Nat → Option (Int × Int))
    (x y ax ay bx by_ ax2 ay2 dax day : Int) (w2 w : Nat)
    (d depth max_depth : Nat) : Option (Int × Int) :=
  match hv_gilbert_adjust ax2 ay2 dax day w2 w with
  | none => none
  | some (ax2, ay2) =>
    match hv_gilbert_cell_count ax2 ay2 bx by_ with
    | none => none
    | some first_count =>
      if d < first_count then
        rec x y ax2 ay2 bx by_ d (depth + 1) max_depth
      else
        match hv_gilbert_wide_second x y ax ay ax2 ay2 with
        | none => none
        | some (x2, y2, axr, ayr) =>
          rec x2 y2 axr ayr bx by_ (d - first_count) (depth + 1) max_depth

/-- The three-way ("tall or balanced") split of `hv_gilbert_d2xy_recursive`
(hilbert.c, branch `2*w ≤ 3*h`): parity-correct `b2`, then select among the
corner block `(b2, a2)`, the middle block `(a, b - b2)` and the final
reflected block by comparing `d` with the cumulative counts.  `rec` is the
recursive occurrence. -/
def hv_gilbert_split_tall
    (rec : Int → Int → Int → Int → Int → Int → Nat → Nat → Nat → Option (Int × Int))
    (x y ax ay bx by_ ax2 ay2 bx2 by2 dax day dbx dby : Int) (h2 h : Nat)
    (d depth max_depth : Nat) : Option (Int × Int) :=
  match hv_gilbert_adjust bx2 by2 dbx dby h2 h with
  | none => none
  | some (bx2, by2) =>
    match hv_gilbert_tall_counts ax ay bx by_ ax2 ay2 bx2 by2 with
    | none => none
    | some (first_count, first_two) =>
      if d < first_count then
        rec x y bx2 by2 ax2 ay2 d (depth + 1) max_depth
      else if d < first_two then
        match hv_gilbert_tall_second x y bx by_ bx2 by2 with
        | none => none
        | some (x2, y2, bx_rem, by_rem) =>
          rec x2 y2 ax ay bx_rem by_rem (d - first_count) (depth + 1) max_depth
      else
        match hv_gilbert_tall_third x y ax ay ax2 ay2 bx2 by2 dax day dbx dby with
        | none => none
        | some (x3, y3, bx2_neg, by2_neg, ax_rem_neg, ay_rem_neg) =>
          rec x3 y3 bx2_neg by2_neg ax_rem_neg ay_rem_neg (d - first_two)
            (depth + 1) max_depth

/-- Embeds `hv_gilbert_d2xy_recursive` (hilbert.c): recursive
divide-and-conquer over a rectangle anchored at `(x, y)` with basis vectors
`a = (ax, ay)`, `b = (bx, by_)`; `depth` is incremented on every recursive
call and any call with `depth > max_depth` fails.  The structural `fuel`
argument only drives termination of the Lean definition; it is consumed once
per recursive call, exactly in step with `depth`, and
`hv_gilbert_d2xy_recursive` below instantiates it with `max_depth + 1 -
depth`, which never runs out before the `depth > max_depth` guard fires. -/
def hv_gilbert_rec :
    Nat → Int → Int → Int → Int → Int → Int → Nat → Nat → Nat →
    Option (Int × Int)
  | 0, _, _, _, _, _, _, _, _, _ => none
  | fuel + 1, x, y, ax, ay, bx, by_, d, depth, max_depth =>
  if depth > max_depth then none
  else
    match hv_gilbert_dims ax ay bx by_ with
    | none => none
    | some (w, h) =>
      match hv_u64_mul w h with
      | none => none
      | some total =>
        if d ≥ total then none
        else
          let dax := hv_sign_i64 ax
          let day := hv_sign_i64 ay
          let dbx := hv_sign_i64 bx
          let dby := hv_sign_i64 by_
          if h = 1 then hv_gilbert_walk x y dax day d
          else if w = 1 then hv_gilbert_walk x y dbx dby d
          else
            let ax2 := hv_floor_div2_i64 ax
            let ay2 := hv_floor_div2_i64 ay
            let bx2 := hv_floor_div2_i64 bx
            let by2 := hv_floor_div2_i64 by_
            match hv_gilbert_dims ax2 ay2 bx2 by2 with
            | none => none
            | some (w2, h2) =>
              if 2 * w > 3 * h then
                hv_gilbert_split_wide (hv_gilbert_rec fuel)
                  x y ax ay bx by_ ax2 ay2 dax day w2 w d depth max_depth
              else
                hv_gilbert_split_tall (hv_gilbert_rec fuel)
                  x y ax ay bx by_ ax2 ay2 bx2 by2 dax day dbx dby h2 h
                  d depth max_depth

/-- `hv_gilbert_d2xy_recursive` (hilbert.c) with the C argument list: the
fuel `max_depth + 1 - depth` is an upper bound on the number of nested calls
the C function can make before its own `depth > max_depth` guard stops it. -/
def hv_gilbert_d2xy_recursive (x y ax ay bx by_ : Int) (d : Nat)
    (depth max_depth : Nat) : Option (Int × Int) :=
  hv_gilbert_rec (max_depth + 1 - depth) x y ax ay bx by_ d depth max_depth

/-- `HV_GILBERT_DEFAULT_MAX_RECURSION_DEPTH` (hilbert.c). -/
def HV_GILBERT_DEFAULT_MAX_RECURSION_DEPTH : Nat := 256

/-- Embeds `hv_gilbert_d2xy_with_limit` (hilbert.c): validates dimensions and
`d`, runs the recursion from an axis-aligned basis, and rejects any result
outside the rectangle. -/
def hv_gilbert_d2xy_with_limit (width height d max_depth : Nat) :
    Option (Nat × Nat) :=
  if width = 0 ∨ height = 0 then none
  else do
    let capacity ← hv_u64_mul width height
    if d ≥ capacity then none
    else do
      let r ←
        if width ≥ height then
          hv_gilbert_d2xy_recursive 0 0 (width : Int) 0 0 (height : Int) d 0 max_depth
        else
          hv_gilbert_d2xy_recursive 0 0 0 (height : Int) (width : Int) 0 d 0 max_depth
      if r.1 < 0 ∨ r.2 < 0 ∨ r.1 ≥ (width : Int) ∨ r.2 ≥ (height : Int) then none
      else some (r.1.toNat, r.2.toNat)

/-- Embeds `hv_gilbert_d2xy` (hilbert.c). -/
def hv_gilbert_d2xy (width height d : Nat) : Option (Nat × Nat) :=
  hv_gilbert_d2xy_with_limit width height d HV_GILBERT_DEFAULT_MAX_RECURSION_DEPTH

/-! ### The Gilbert frame abstraction

Every basis vector `hv_gilbert_d2xy_recursive` manipulates is a natural
multiple of one of the four axis unit vectors, and every rectangle it visits
is the image of an index grid under an affine frame.  The following
definitions name that structure so the bijection property can be stated and
proved by induction on the recursion. -/

/-- A unit step direction of a Gilbert frame: one of the four axis unit
vectors. -/
def hv_unit_vec (v : Int × Int) : Prop :=
  v = (1, 0) ∨ v = (-1, 0) ∨ v = (0, 1) ∨ v = (0, -1)

/-- The cell of a Gilbert frame: origin `(x, y)` advanced `i` steps along the
unit direction `ea` and `j` steps along `eb`. -/
def hv_cell (x y : Int) (ea eb : Int × Int) (i j : Nat) : Int × Int :=
  (x + (i : Int) * ea.1 + (j : Int) * eb.1,
   y + (i : Int) * ea.2 + (j : Int) * eb.2)

/-- Coordinates bounded well inside the signed 64-bit range, so that every
checked arithmetic step of the recursion stays away from overflow. -/
def hv_in_box (c : Int × Int) : Prop :=
  -(2 ^ 32) ≤ c.1 ∧ c.1 ≤ 2 ^ 32 ∧ -(2 ^ 32) ≤ c.2 ∧ c.2 ≤ 2 ^ 32

/-- The extent of the basis vector `hv_floor_div2_i64` produces from a vector
of extent `n` pointing along the unit direction `v`: the halving rounds toward
negative infinity, so it yields `n / 2` along a positive direction and
`(n + 1) / 2` along a negative one. -/
def hv_half_len (n : Nat) (v : Int × Int) : Nat :=
  if v.1 + v.2 = 1 then n / 2 else (n + 1) / 2

/-- The extent after the parity correction `hv_gilbert_adjust` applies to a
halved basis vector of extent `len2` inside a full extent `full`. -/
def hv_adj_len (len2 full : Nat) : Nat :=
  if len2 % 2 ≠ 0 ∧ full > 2 then len2 + 1 else len2

/-- The extent of the first sub-rectangle of a split: the floor half of the
full extent along the split direction, parity-corrected by
`hv_gilbert_adjust`. -/
def hv_split_len (n : Nat) (v : Int × Int) : Nat :=
  hv_adj_len (hv_half_len n v) n

/-- `HV_HILBERT_MIN_ORDER` (hilbert.h). -/
def HV_HILBERT_MIN_ORDER : Nat := 1

/-- `HV_HILBERT_MAX_ORDER` (hilbert.h). -/
def HV_HILBERT_MAX_ORDER : Nat := 16

/-- Embeds `hv_hilbert_side_for_order` (hilbert.c): `2^order` for supported
orders. -/
def hv_hilbert_side_for_order (order : Nat) : Option Nat :=
  if order < HV_HILBERT_MIN_ORDER ∨ order > HV_HILBERT_MAX_ORDER then none
  else some (2 ^ order)

/-- Embeds `hv_hilbert_capacity_for_order` (hilbert.c): `4^order` for
supported orders. -/
def hv_hilbert_capacity_for_order (order : Nat) : Option Nat :=
  if order < HV_HILBERT_MIN_ORDER ∨ order > HV_HILBERT_MAX_ORDER then none
  else some (2 ^ (2 * order))

/-- The ascending search loop of `hv_hilbert_pick_order` (hilbert.c),
starting at `order`.  The structural `fuel` only drives termination; the C
loop runs at most `HV_HILBERT_MAX_ORDER` iterations and
`hv_hilbert_pick_order` below supplies enough fuel for all of them, so fuel
never runs out before the `order > HV_HILBERT_MAX_ORDER` exit. -/
def hv_hilbert_pick_order_go (byte_count : Nat) :
    Nat → Nat → Option (Nat × Nat × Nat)
  | 0, _ => none
  | fuel + 1, order =>
    if order > HV_HILBERT_MAX_ORDER then none
    else
      match hv_hilbert_capacity_for_order order with
      | none => none
      | some capacity =>
        if byte_count ≤ capacity then
          match hv_hilbert_side_for_order order with
          | none => none
          | some side => some (order, side, capacity)
        else hv_hilbert_pick_order_go byte_count fuel (order + 1)

/-- Embeds `hv_hilbert_pick_order` (hilbert.c): the smallest supported order
whose capacity is at least `byte_count`, with its side and capacity. -/
def hv_hilbert_pick_order (byte_count : Nat) : Option (Nat × Nat × Nat) :=
  hv_hilbert_pick_order_go byte_count (HV_HILBERT_MAX_ORDER + 1) HV_HILBERT_MIN_ORDER

/-- Embeds `hv_rot` (hilbert.c): quadrant reflection and transposition of the
running coordinate.  Inside `hv_hilbert_d2xy` the arguments always satisfy
`x < n` and `y < n` (proved below), so `Nat` subtraction here agrees with the
C unsigned subtraction. -/
def hv_rot (n x y rx ry : Nat) : Nat × Nat :=
  if ry = 0 then
    let p := if rx = 1 then (n - 1 - x, n - 1 - y) else (x, y)
    (p.2, p.1)
  else (x, y)

/-- One iteration of the `hv_hilbert_d2xy` loop body (hilbert.c) at
sub-square size `s`, acting on the running state `(x, y, t)`. -/
def hv_hilbert_step (s x y t : Nat) : Nat × Nat × Nat :=
  let rx := (t / 2) % 2
  let ry := (Nat.xor t rx) % 2
  let p := hv_rot s x y rx ry
  (p.1 + s * rx, p.2 + s * ry, t / 4)

/-- The `hv_hilbert_d2xy` loop (hilbert.c) after `i` iterations: iteration
`j` (0-based) runs the body with `s = 2^j`, starting from `x = y = 0`,
`t = d`.  For a side of `2^order` the C loop executes exactly `order`
iterations. -/
def hv_hilbert_loop (d : Nat) : Nat → Nat × Nat × Nat
  | 0 => (0, 0, d)
  | i + 1 =>
    let st := hv_hilbert_loop d i
    hv_hilbert_step (2 ^ i) st.1 st.2.1 st.2.2

/-- The coordinate part of the loop state after `i` iterations. -/
def hv_pos (d i : Nat) : Nat × Nat :=
  ((hv_hilbert_loop d i).1, (hv_hilbert_loop d i).2.1)

/-- The `(rx, ry)` flag pair the `hv_hilbert_d2xy` loop body (hilbert.c)
derives from the two low bits `q` of the running `t`. -/
def hv_quad_bits (q : Nat) : Nat × Nat :=
  ((q / 2) % 2, Nat.xor q ((q / 2) % 2) % 2)

/-- One `hv_hilbert_d2xy` loop iteration (hilbert.c) as a transformation of
the position alone: rotate by the flag pair of `q` and add the quadrant
offset, at sub-square size `s`. -/
def hv_quad (s q : Nat) (p : Nat × Nat) : Nat × Nat :=
  let rx := (hv_quad_bits q).1
  let ry := (hv_quad_bits q).2
  let r := hv_rot s p.1 p.2 rx ry
  (r.1 + s * rx, r.2 + s * ry)

/-- Embeds `hv_hilbert_d2xy` (hilbert.c). -/
def hv_hilbert_d2xy (order d : Nat) : Option (Nat × Nat) := do
  let _side ← hv_hilbert_side_for_order order
  let capacity ← hv_hilbert_capacity_for_order order
  if d ≥ capacity then none
  else
    let st := hv_hilbert_loop d order
    some (st.1, st.2.1)

/-! ## render.c: byte statistics

The five counters are `uint64_t` in C and wrap on overflow, so every
increment is reduced modulo `2^64`. -/

/-- The modulus of the C `uint64_t` counters. -/
def U64mod : Nat := 2 ^ 64

/-- Embeds `struct HvByteStats` (render.c). -/
structure HvByteStats where
  total_bytes : Nat
  null_bytes : Nat
  low_bytes : Nat
  ascii_bytes : Nat
  high_bytes : Nat
deriving DecidableEq, Repr

/-- The all-zero statistics (`memset(&stats, 0, ...)` in render.c). -/
def hv_stats_zero : HvByteStats := ⟨0, 0, 0, 0, 0⟩

/-- Embeds `hv_stats_add_byte` (render.c): count the byte's class —
`0x00` null, `0x01..0x1F` low, `0x20..0x7E` ascii, otherwise high. -/
def hv_stats_add_byte (stats : HvByteStats) (value : Nat) : HvByteStats :=
  let stats := { stats with total_bytes := (stats.total_bytes + 1) % U64mod }
  if value = 0x00 then
    { stats with null_bytes := (stats.null_bytes + 1) % U64mod }
  else if value ≤ 0x1F then
    { stats with low_bytes := (stats.low_bytes + 1) % U64mod }
  else if value ≤ 0x7E then
    { stats with ascii_bytes := (stats.ascii_bytes + 1) % U64mod }
  else
    { stats with high_bytes := (stats.high_bytes + 1) % U64mod }

/-- Embeds `hv_stats_add` (render.c): accumulate `src` into `dst`. -/
def hv_stats_add (dst src : HvByteStats) : HvByteStats :=
  { total_bytes := (dst.total_bytes + src.total_bytes) % U64mod
    null_bytes := (dst.null_bytes + src.null_bytes) % U64mod
    low_bytes := (dst.low_bytes + src.low_bytes) % U64mod
    ascii_bytes := (dst.ascii_bytes + src.ascii_bytes) % U64mod
    high_bytes := (dst.high_bytes + src.high_bytes) % U64mod }

/-- The statistics values reachable from the zeroed state by the two update
operations of render.c: per-byte counting (`hv_stats_add_byte`) and
accumulation (`hv_stats_add`). -/
inductive HvStatsReachable : HvByteStats → Prop where
  | zero : HvStatsReachable hv_stats_zero
  | add_byte : ∀ {s : HvByteStats} (value : Nat),
      HvStatsReachable s → HvStatsReachable (hv_stats_add_byte s value)
  | add : ∀ {s t : HvByteStats},
      HvStatsReachable s → HvStatsReachable t → HvStatsReachable (hv_stats_add s t)

/-- Accumulating a statistics value into itself (e.g. `hv_stats_add(&x, &y)`
with `x` and `y` holding equal values), doubling every counter modulo
`2^64`. -/
def hv_stats_double (s : HvByteStats) : HvByteStats := hv_stats_add s s

/-- `n`-fold doubling. -/
def hv_stats_double_iter : Nat → HvByteStats → HvByteStats
  | 0, s => s
  | n + 1, s => hv_stats_double_iter n (hv_stats_double s)

/-- How many of the four class counters differ between two statistics
values. -/
def hv_changed_counters (s c : HvByteStats) : Nat :=
  (if c.null_bytes = s.null_bytes then 0 else 1) +
  (if c.low_bytes = s.low_bytes then 0 else 1) +
  (if c.ascii_bytes = s.ascii_bytes then 0 else 1) +
  (if c.high_bytes = s.high_bytes then 0 else 1)

/-! ## render.c: geometry selection -/

/-- `HV_DEFAULT_PAGE_ORDER` (render.c). -/
def HV_DEFAULT_PAGE_ORDER : Nat := 12

/-- `HV_DEFAULT_MAX_IMAGE_BYTES` (render.c). -/
def HV_DEFAULT_MAX_IMAGE_BYTES : Nat := 256 * 1024 * 1024

/-- The two layout modes `HV_LAYOUT_HILBERT` / `HV_LAYOUT_RECT_HILBERT`
(render.h, as used by render.c). -/
inductive HvLayout where
  | hilbert
  | rectHilbert
deriving DecidableEq, Repr

/-- Embeds `struct HvRenderOptions` (render.h, as consumed by render.c).
String pointers that can be NULL in C are `Option String`. -/
structure HvRenderOptions where
  input_path : String
  output_path : String
  layout : HvLayout
  offset : Nat
  has_length : Bool
  length : Nat
  order : Nat
  auto_order : Bool
  paginate : Bool
  dimensions_set : Bool
  width : Nat
  height : Nat
  strict_adjacency : Bool
  legend_enabled : Bool
  legend_path : Option String
deriving DecidableEq, Repr

/-- Embeds `hv_rect_has_unavoidable_diagonal` (render.c): larger dimension
odd and smaller dimension even. -/
def hv_rect_has_unavoidable_diagonal (width height : Nat) : Bool :=
  let larger := if height > width then height else width
  let smaller := if height > width then width else height
  (larger % 2 != 0) && (smaller % 2 == 0)

/-- Embeds `hv_select_geometry` (render.c): resolve the options and input
size to `(order, width, height, capacity)`; every `hv_set_error`-and-return-0
path of the C function becomes `none`. -/
def hv_select_geometry (options : HvRenderOptions) (input_bytes : Nat) :
    Option (Nat × Nat × Nat × Nat) :=
  match options.layout with
  | .rectHilbert =>
    if !options.dimensions_set then none
    else if options.width = 0 ∨ options.height = 0 then none
    else
      match hv_u64_mul options.width options.height with
      | none => none
      | some capacity =>
        if capacity = 0 then none
        else if options.strict_adjacency &&
            hv_rect_has_unavoidable_diagonal options.width options.height then none
        else some (0, options.width, options.height, capacity)
  | .hilbert =>
    if options.dimensions_set then none
    else if options.auto_order then
      if options.paginate ∧ input_bytes > 0 then
        let page_order := HV_DEFAULT_PAGE_ORDER
        let page_order :=
          if page_order < HV_HILBERT_MIN_ORDER then HV_HILBERT_MIN_ORDER else page_order
        let page_order :=
          if page_order > HV_HILBERT_MAX_ORDER then HV_HILBERT_MAX_ORDER else page_order
        match hv_hilbert_capacity_for_order page_order,
              hv_hilbert_side_for_order page_order with
        | some page_capacity, some page_side =>
          if input_bytes ≤ page_capacity then
            match hv_hilbert_pick_order input_bytes with
            | none => none
            | some (order, side, capacity) => some (order, side, side, capacity)
          else some (page_order, page_side, page_side, page_capacity)
        | _, _ => none
      else
        match hv_hilbert_pick_order input_bytes with
        | none => none
        | some (order, side, capacity) => some (order, side, side, capacity)
    else
      match hv_hilbert_side_for_order options.order,
            hv_hilbert_capacity_for_order options.order with
      | some side, some capacity => some (options.order, side, side, capacity)
      | _, _ => none

/-! ## render.c: output path construction -/

/-- The division loop of `hv_u64_digits` (render.c), with structural fuel:
a `uint64_t` has at most 20 decimal digits, so the 20 units of fuel
`hv_u64_digits` supplies cover every value the C loop can receive. -/
def hv_u64_digits_go : Nat → Nat → Nat
  | 0, _ => 1
  | fuel + 1, value => if value < 10 then 1 else 1 + hv_u64_digits_go fuel (value / 10)

/-- Embeds `hv_u64_digits` (render.c). -/
def hv_u64_digits (value : Nat) : Nat :=
  hv_u64_digits_go 20 value

/-- Index of the last occurrence of `c`, as `strrchr` (render.c) computes on
the path's characters. -/
def hv_last_index_of (c : Char) (cs : List Char) : Option Nat :=
  ((cs.enum.filter fun p => p.2 = c).getLast?).map Prod.fst

/-- Decimal digits of `value` left-padded with zeros to `width`, as the
`"%0*u"` format of `hv_build_page_output_path` (render.c) produces. -/
def hv_pad_digits (width value : Nat) : List Char :=
  let s := Nat.toDigits 10 value
  List.replicate (width - s.length) '0' ++ s

/-- Embeds `hv_build_page_output_path` (render.c): the base path unchanged
when there is at most one page, otherwise a `_pageNNNN` tag (1-based index,
zero-padded to `max 4 (digits page_count)`, capped at 32) inserted before the
extension; an extension dot before the last `/` does not count. -/
def hv_build_page_output_path (base_path : String) (page_index page_count : Nat) :
    String :=
  if page_count ≤ 1 then base_path
  else
    let cs := base_path.toList
    let slash := hv_last_index_of '/' cs
    let dot0 := hv_last_index_of '.' cs
    let dot :=
      match dot0, slash with
      | some di, some si => if di < si then none else some di
      | di, _ => di
    let pre := match dot with | some di => cs.take di | none => cs
    let ext := match dot with | some di => cs.drop di | none => []
    let width := hv_u64_digits page_count
    let width := if width < 4 then 4 else width
    let width := if width > 32 then 32 else width
    let tag := "_page".toList ++ hv_pad_digits width (page_index + 1)
    String.mk (pre ++ tag ++ ext)

/-! ## render.c: filesystem identity model and output-event traces

The render pipeline's interaction with the filesystem is embedded as
explicit state passing over a file table mapping paths to device+inode
identities (a single `Nat` id models the `(st_dev, st_ino)` pair), plus a
trace of output-side events in program order.  Model paths are canonical
(`realpath`-style normalisation in `hv_normalize_path_local` is the
identity on them) and the process is the only filesystem actor, as in
§5 of the specification. -/

/-- The filesystem identity table: `ids` maps existing paths to their
device+inode identity, `next` is a supply of identities for newly created
files (theorems assume, and concrete runs arrange, that `next` is above
every existing identity). -/
structure HvFs where
  ids : List (String × Nat)
  next : Nat
deriving DecidableEq, Repr

/-- `stat(path)`: the identity of an existing path, `none` when `stat`
fails because the path does not exist. -/
def hv_fs_lookup (fs : HvFs) (path : String) : Option Nat :=
  fs.ids.lookup path

/-- `open(path, O_WRONLY | O_CREAT)` followed by `fstat` on the obtained
descriptor: returns the identity seen by the descriptor and the filesystem
after the open (a fresh file is created if the path did not exist). -/
def hv_fs_open_create (fs : HvFs) (path : String) : Nat × HvFs :=
  match hv_fs_lookup fs path with
  | some id => (id, fs)
  | none => (fs.next, ⟨(path, fs.next) :: fs.ids, fs.next + 1⟩)

/-- The output-side events of a render run, in program order. -/
inductive HvRenderEvent where
  | openWrite (path : String)
  | ftruncate (path : String)
  | writeLegendHeader
  | writeImage (path : String)
  | writeLegendPage (line_index : Nat) (stats : HvByteStats)
  | writeLegendTotal (stats : HvByteStats)
deriving DecidableEq, Repr

/-- Whether an event writes output bytes (image data or legend text). -/
def HvRenderEvent.isWrite : HvRenderEvent → Bool
  | .writeLegendHeader => true
  | .writeImage _ => true
  | .writeLegendPage _ _ => true
  | .writeLegendTotal _ => true
  | _ => false

/-- The typed failures of `hv_render_file` (render.c reports them through
`hv_set_error` strings; the constructors keep the identifying payloads). -/
inductive HvRenderError where
  | invalidArgs
  | geometrySelection
  | capacityNeedsPaginate
  | aliasInput (role : String) (path : String)
  | aliasLegendPage (page_path legend_path : String)
  | imageSizeOverflow
  | imageCapExceeded
  | legendPathMissing
  | paintFailed
deriving DecidableEq, Repr

/-- Whether an error is the safety violation of the path-alias gate. -/
def HvRenderError.isAliasViolation : HvRenderError → Bool
  | .aliasInput _ _ => true
  | .aliasLegendPage _ _ => true
  | _ => false

/-- The destination a safety-violation error names. -/
def HvRenderError.namedDestination : HvRenderError → Option String
  | .aliasInput _ p => some p
  | .aliasLegendPage p _ => some p
  | _ => none

/-- Embeds `hv_path_aliases_input` (render.c): `stat` the path and compare
identities with the already-opened input; a failing `stat` means no alias. -/
def hv_path_aliases_input (fs : HvFs) (input_id : Nat) (path : String) : Bool :=
  match hv_fs_lookup fs path with
  | some id => id == input_id
  | none => false

/-- Embeds `hv_paths_alias` (render.c): two paths alias if they are equal as
strings or `stat` resolves both to the same identity (the `realpath`
normalisation fallback is the identity on the model's canonical paths). -/
def hv_paths_alias (fs : HvFs) (a b : String) : Bool :=
  a == b ||
    match hv_fs_lookup fs a, hv_fs_lookup fs b with
    | some i, some j => i == j
    | _, _ => false

/-- The page loop of `hv_preflight_alias_checks` (render.c) over the given
page indices: each page path is checked against the input identity and, when
the legend is enabled, against the legend path. -/
def hv_preflight_pages (options : HvRenderOptions) (fs : HvFs) (input_id : Nat)
    (page_count : Nat) : List Nat → Except HvRenderError Unit
  | [] => .ok ()
  | page_index :: rest =>
    let page_output_path :=
      hv_build_page_output_path options.output_path page_index page_count
    if hv_path_aliases_input fs input_id page_output_path then
      .error (.aliasInput "output page" page_output_path)
    else
      match options.legend_path with
      | some lp =>
        if options.legend_enabled && hv_paths_alias fs page_output_path lp then
          .error (.aliasLegendPage page_output_path lp)
        else hv_preflight_pages options fs input_id page_count rest
      | none => hv_preflight_pages options fs input_id page_count rest

/-- Embeds `hv_preflight_alias_checks` (render.c): `fstat` the opened input,
reject a legend path aliasing it, then check every page path of the run. -/
def hv_preflight_alias_checks (options : HvRenderOptions) (fs : HvFs)
    (input_id : Nat) (page_count : Nat) : Except HvRenderError Unit :=
  match options.legend_path with
  | some lp =>
    if options.legend_enabled && hv_path_aliases_input fs input_id lp then
      .error (.aliasInput "legend" lp)
    else hv_preflight_pages options fs input_id page_count (List.range page_count)
  | none => hv_preflight_pages options fs input_id page_count (List.range page_count)

/-- Embeds `hv_open_checked_output_stream` (render.c): open the destination
for writing (creating it if needed), compare the identity obtained from that
descriptor with the input's, and only truncate when they differ.  Returns
the updated filesystem and the emitted events. -/
def hv_open_checked_output_stream (fs : HvFs) (input_id : Nat)
    (path role : String) :
    Except HvRenderError Unit × HvFs × List HvRenderEvent :=
  let (id, fs') := hv_fs_open_create fs path
  if id = input_id then
    (.error (.aliasInput role path), fs', [.openWrite path])
  else
    (.ok (), fs', [.openWrite path, .ftruncate path])

/-- The destination set of a run (§3/§4.7 of the specification): the legend
path when enabled plus every page output path, exactly the paths
`hv_preflight_alias_checks` (render.c) validates. -/
def hv_destination_set (options : HvRenderOptions) (page_count : Nat) :
    List String :=
  (match options.legend_path with
   | some lp => if options.legend_enabled then [lp] else []
   | none => []) ++
  (List.range page_count).map
    (fun page_index => hv_build_page_output_path options.output_path page_index page_count)

/-! ## render.c: painting and the render pipeline -/

/-- Embeds `hv_paint_byte` (render.c): map the byte's linear index through
the active curve engine, bounds-check the coordinate and the pixel byte
index, and write the palette colour.  `hv_mul_u64`/`hv_add_u64` of render.c
are the same checked helpers as `hv_u64_mul`/`hv_u64_add` of hilbert.c.  The
palette (`hv_byte_to_rgb`, an external collaborator per §1 of the
specification) is passed in as a function. -/
def hv_paint_byte (pixels : List Nat) (pixel_bytes : Nat) (layout : HvLayout)
    (order width height d value : Nat) (palette : Nat → Nat × Nat × Nat) :
    Option (List Nat) :=
  if width = 0 ∨ height = 0 then none
  else
    let rgb := palette value
    let xy :=
      match layout with
      | .hilbert => hv_hilbert_d2xy order d
      | .rectHilbert => hv_gilbert_d2xy width height d
    match xy with
    | none => none
    | some (x, y) =>
      if x ≥ width ∨ y ≥ height then none
      else
        match hv_u64_mul y width with
        | none => none
        | some row_base =>
          match hv_u64_add row_base x with
          | none => none
          | some row_index =>
            match hv_u64_mul row_index 3 with
            | none => none
            | some byte_index =>
              if byte_index + 2 ≥ pixel_bytes then none
              else
                some (((pixels.set byte_index rgb.1).set (byte_index + 1)
                  rgb.2.1).set (byte_index + 2) rgb.2.2)

/-- The per-byte loop of one page of `hv_render_file` (render.c): paint each
byte of `data` at consecutive linear indices starting at `d` (the C code
reads in chunks of `HV_READ_CHUNK_BYTES`; chunk boundaries do not affect the
painted result). -/
def hv_paint_page (layout : HvLayout) (order width height pixel_bytes : Nat)
    (palette : Nat → Nat × Nat × Nat) :
    List Nat → Nat → List Nat → Option (List Nat)
  | pixels, _, [] => some pixels
  | pixels, d, value :: rest =>
    match hv_paint_byte pixels pixel_bytes layout order width height d value palette with
    | none => none
    | some px => hv_paint_page layout order width height pixel_bytes palette px (d + 1) rest

/-- Embeds `struct HvRenderResult` (render.h, as filled by render.c). -/
structure HvRenderResult where
  order : Nat
  side : Nat
  capacity : Nat
  input_bytes : Nat
  page_count : Nat
deriving DecidableEq, Repr

deriving instance DecidableEq for Except

/-- The page-count computation of `hv_render_file` (render.c):
`(total / capacity) + (total % capacity != 0)`, with one page for empty
input. -/
def hv_page_count (total capacity : Nat) : Nat :=
  if total = 0 then 1
  else total / capacity + (if total % capacity ≠ 0 then 1 else 0)

/-- The legend stage of `hv_render_file` (render.c): when the legend is
enabled, open-and-check the legend destination and write the header.  The
returned flag tells whether a legend stream is open (`legend_fp != 0`). -/
def hv_render_legend_stage (options : HvRenderOptions) (fs : HvFs)
    (input_id : Nat) :
    (Except HvRenderError Unit) × HvFs × List HvRenderEvent × Bool :=
  if options.legend_enabled then
    match options.legend_path with
    | none => (.error .legendPathMissing, fs, [], false)
    | some lp =>
      match hv_open_checked_output_stream fs input_id lp "legend" with
      | (.error e, fs', evs) => (.error e, fs', evs, false)
      | (.ok _, fs', evs) => (.ok (), fs', evs ++ [.writeLegendHeader], true)
  else (.ok (), fs, [], false)

/-- The page loop of `hv_render_file` (render.c) over the given page
indices: per page, take `min(remaining, capacity)` bytes off the stream,
accumulate their statistics, paint them into a zeroed buffer, then
open-and-check the page destination, write the image, and append the
legend's per-page line when a legend stream is open.  Returns the
accumulated total statistics. -/
def hv_render_page_loop (options : HvRenderOptions) (input_id : Nat)
    (order width height capacity pixel_bytes : Nat)
    (palette : Nat → Nat × Nat × Nat) (page_count : Nat) (legend_on : Bool) :
    List Nat → List Nat → HvFs → HvByteStats →
    (Except HvRenderError HvByteStats) × HvFs × List HvRenderEvent
  | [], _, fs, total_stats => (.ok total_stats, fs, [])
  | page_index :: rest, remaining, fs, total_stats =>
    let page_input_bytes := min remaining.length capacity
    let page_data := remaining.take page_input_bytes
    let page_stats := page_data.foldl hv_stats_add_byte hv_stats_zero
    match hv_paint_page options.layout order width height pixel_bytes palette
        (List.replicate pixel_bytes 0) 0 page_data with
    | none => (.error .paintFailed, fs, [])
    | some _ =>
      let total_stats' := hv_stats_add total_stats page_stats
      let page_output_path :=
        hv_build_page_output_path options.output_path page_index page_count
      match hv_open_checked_output_stream fs input_id page_output_path "output page" with
      | (.error e, fs', evs) => (.error e, fs', evs)
      | (.ok _, fs', evs) =>
        let evs := evs ++ [.writeImage page_output_path] ++
          (if legend_on then [.writeLegendPage (page_index + 1) page_stats] else [])
        match hv_render_page_loop options input_id order width height capacity
            pixel_bytes palette page_count legend_on rest
            (remaining.drop page_input_bytes) fs' total_stats' with
        | (r, fs'', evs') => (r, fs'', evs ++ evs')

/-- Embeds `hv_render_file` (render.c) at the level of its filesystem
effects: geometry selection, the pagination capacity check, the preflight
alias gate, the image-size cap, the legend stage, the page loop, and the
legend totals line.  `input` is the content of the opened slice stream
(`stream.total = input.length`), `input_id` the identity `fstat` reports for
the opened input descriptor, `max_image_bytes` the resolved
`HILBERTVIZ_MAX_IMAGE_BYTES` cap (`hv_resolve_max_image_bytes`), and
`palette` the external palette. -/
def hv_render_file (options : HvRenderOptions) (fs : HvFs) (input_id : Nat)
    (input : List Nat) (max_image_bytes : Nat)
    (palette : Nat → Nat × Nat × Nat) :
    (Except HvRenderError HvRenderResult) × HvFs × List HvRenderEvent :=
  match hv_select_geometry options input.length with
  | none => (.error .geometrySelection, fs, [])
  | some (order, width, height, capacity) =>
    if input.length > capacity ∧ ¬options.paginate then
      (.error .capacityNeedsPaginate, fs, [])
    else
      let page_count := hv_page_count input.length capacity
      match hv_preflight_alias_checks options fs input_id page_count with
      | .error e => (.error e, fs, [])
      | .ok _ =>
        match hv_u64_mul capacity 3 with
        | none => (.error .imageSizeOverflow, fs, [])
        | some pixel_bytes =>
          if pixel_bytes > U64max then (.error .imageSizeOverflow, fs, [])
          else if max_image_bytes > 0 ∧ pixel_bytes > max_image_bytes then
            (.error .imageCapExceeded, fs, [])
          else
            match hv_render_legend_stage options fs input_id with
            | (.error e, fs', evs, _) => (.error e, fs', evs)
            | (.ok _, fs', evs, legend_on) =>
              match hv_render_page_loop options input_id order width height
                  capacity pixel_bytes palette page_count legend_on
                  (List.range page_count) input fs' hv_stats_zero with
              | (.error e, fs'', evs') => (.error e, fs'', evs ++ evs')
              | (.ok total_stats, fs'', evs') =>
                let result : HvRenderResult :=
                  { order := order
                    side := match options.layout with
                      | .hilbert => width
                      | .rectHilbert => 0
                    capacity := capacity
                    input_bytes := total_stats.total_bytes
                    page_count := page_count }
                (.ok result, fs'',
                  evs ++ evs' ++
                    (if legend_on then [.writeLegendTotal total_stats] else []))

/-! ## Concrete run scenarios -/

/-- Options of the literal pagination+legend scenario of §8 of the
specification: manual order 1, pagination on, legend on. -/
def hv_opts_pagination_legend : HvRenderOptions :=
  { input_path := "in.bin", output_path := "out.ppm", layout := .hilbert,
    offset := 0, has_length := false, length := 0, order := 1,
    auto_order := false, paginate := true, dimensions_set := false,
    width := 0, height := 0, strict_adjacency := false,
    legend_enabled := true, legend_path := some "out.legend.txt" }

/-- A filesystem holding only the input file. -/
def hv_fs_input_only : HvFs := ⟨[("in.bin", 0)], 1⟩

/-- A constant palette; the render claims under study are independent of the
colours the external palette produces. -/
def hv_palette_const : Nat → Nat × Nat × Nat := fun _ => (0, 0, 0)

/-- Options in square/auto mode with pagination enabled (the geometry
shortcut of `hv_select_geometry`). -/
def hv_opts_auto_paginate : HvRenderOptions :=
  { input_path := "in.bin", output_path := "out.ppm", layout := .hilbert,
    offset := 0, has_length := false, length := 0, order := 0,
    auto_order := true, paginate := true, dimensions_set := false,
    width := 0, height := 0, strict_adjacency := false,
    legend_enabled := false, legend_path := none }

/-- Options in rectangular mode with explicit dimensions and the given
strict-adjacency flag. -/
def hv_opts_rect (strict : Bool) (w h : Nat) : HvRenderOptions :=
  { input_path := "in.bin", output_path := "out.ppm", layout := .rectHilbert,
    offset := 0, has_length := false, length := 0, order := 0,
    auto_order := false, paginate := false, dimensions_set := true,
    width := w, height := h, strict_adjacency := strict,
    legend_enabled := false, legend_path := none }

/-- The pagination+legend literal run: input bytes `0x00..0x09`, manual
order 1, pagination and legend enabled, default image cap. -/
def hv_run_pagination_legend :
    (Except HvRenderError HvRenderResult) × HvFs × List HvRenderEvent :=
  hv_render_file hv_opts_pagination_legend hv_fs_input_only 0 (List.range 10)
    HV_DEFAULT_MAX_IMAGE_BYTES hv_palette_const

/-- A filesystem in which the input file exists and the second page's
output path already exists as the same underlying file as the input (e.g. a
hard link). -/
def hv_fs_alias_page2 : HvFs := ⟨[("in.bin", 0), ("out_page0002.ppm", 0)], 7⟩

/-- The per-page legend line data an event carries: `(line index, bytes on
the page)`. -/
def hv_legend_page_line : HvRenderEvent → Option (Nat × Nat)
  | .writeLegendPage i st => some (i, st.total_bytes)
  | _ => none

/-- The totals legend line data an event carries. -/
def hv_legend_total_line : HvRenderEvent → Option HvByteStats
  | .writeLegendTotal st => some st
  | _ => none

/-! # Theorems -/

/-! ## Basic facts about the supported Hilbert orders -/

theorem hv_hilbert_side_for_order_eq {o : Nat} (h1 : 1 ≤ o) (h2 : o ≤ 16) :
    hv_hilbert_side_for_order o = some (2 ^ o) := by
  simp [hv_hilbert_side_for_order, HV_HILBERT_MIN_ORDER, HV_HILBERT_MAX_ORDER]
  omega

theorem hv_hilbert_capacity_for_order_eq {o : Nat} (h1 : 1 ≤ o) (h2 : o ≤ 16) :
    hv_hilbert_capacity_for_order o = some (2 ^ (2 * o)) := by
  simp [hv_hilbert_capacity_for_order, HV_HILBERT_MIN_ORDER, HV_HILBERT_MAX_ORDER]
  omega

/-- Full characterisation of the `hv_hilbert_pick_order` search loop from
`order` on: it fails when `byte_count` exceeds the maximum capacity `2^32`,
and otherwise returns the smallest order from `order` on whose capacity
holds `byte_count`. -/
theorem hv_hilbert_pick_order_go_spec :
    ∀ (n o bc : Nat), 17 - o ≤ n → 1 ≤ o →
    (2 ^ 32 < bc → hv_hilbert_pick_order_go bc n o = none) ∧
    (bc ≤ 2 ^ 32 → o ≤ 16 →
      ∃ j, o ≤ j ∧ j ≤ 16 ∧ bc ≤ 2 ^ (2 * j) ∧
        (∀ k, o ≤ k → k < j → 2 ^ (2 * k) < bc) ∧
        hv_hilbert_pick_order_go bc n o = some (j, 2 ^ j, 2 ^ (2 * j))) := by
  intro n
  induction n with
  | zero =>
    intro o bc hn ho1
    exact ⟨fun _ => rfl, fun _ ho16 => absurd hn (by omega)⟩
  | succ n ih =>
    intro o bc hn ho1
    by_cases ho17 : 17 ≤ o
    · have hno : (o > HV_HILBERT_MAX_ORDER) := by
        simp [HV_HILBERT_MAX_ORDER]; omega
      constructor
      · intro _
        simp only [hv_hilbert_pick_order_go, if_pos hno]
      · intro _ ho16; omega
    · have ho16 : o ≤ 16 := by omega
      have hcap : hv_hilbert_capacity_for_order o = some (2 ^ (2 * o)) :=
        hv_hilbert_capacity_for_order_eq ho1 ho16
      have hside : hv_hilbert_side_for_order o = some (2 ^ o) :=
        hv_hilbert_side_for_order_eq ho1 ho16
      have hno : ¬(o > HV_HILBERT_MAX_ORDER) := by
        simp [HV_HILBERT_MAX_ORDER]; omega
      by_cases hfit : bc ≤ 2 ^ (2 * o)
      · have hrun : hv_hilbert_pick_order_go bc (n + 1) o =
            some (o, 2 ^ o, 2 ^ (2 * o)) := by
          simp only [hv_hilbert_pick_order_go, if_neg hno, hcap, hside, if_pos hfit]
        constructor
        · intro hbig
          have h2o : 2 * o ≤ 32 := by omega
          have : (2 : Nat) ^ (2 * o) ≤ 2 ^ 32 := Nat.pow_le_pow_right (by omega) h2o
          omega
        · intro _ _
          exact ⟨o, le_refl o, ho16, hfit, fun k hk1 hk2 => by omega, hrun⟩
      · have hrun : hv_hilbert_pick_order_go bc (n + 1) o =
            hv_hilbert_pick_order_go bc n (o + 1) := by
          simp only [hv_hilbert_pick_order_go, if_neg hno, hcap, hside, if_neg hfit]
        have hrec := ih (o + 1) bc (by omega) (by omega)
        constructor
        · intro hbig
          rw [hrun]; exact hrec.1 hbig
        · intro hle _
          have ho15 : o ≤ 15 := by
            by_contra hge
            have : o = 16 := by omega
            subst this
            exact hfit (by omega)
          obtain ⟨j, hj1, hj2, hj3, hj4, hj5⟩ := hrec.2 hle (by omega)
          refine ⟨j, by omega, hj2, hj3, ?_, by rw [hrun]; exact hj5⟩
          intro k hk1 hk2
          rcases Nat.eq_or_lt_of_le hk1 with hk | hk
          · subst hk; omega
          · exact hj4 k (by omega) hk2

/-- Specification of `hv_hilbert_pick_order`: for feasible byte counts it
returns the least order whose capacity suffices; beyond `2^32` it fails. -/
theorem hv_hilbert_pick_order_spec (bc : Nat) :
    (2 ^ 32 < bc → hv_hilbert_pick_order bc = none) ∧
    (bc ≤ 2 ^ 32 →
      ∃ j, 1 ≤ j ∧ j ≤ 16 ∧ bc ≤ 2 ^ (2 * j) ∧
        (∀ k, 1 ≤ k → k < j → 2 ^ (2 * k) < bc) ∧
        hv_hilbert_pick_order bc = some (j, 2 ^ j, 2 ^ (2 * j))) := by
  have h := hv_hilbert_pick_order_go_spec 17 1 bc (by omega) (by omega)
  constructor
  · exact fun hbig => h.1 hbig
  · intro hle
    obtain ⟨j, hj1, hj2, hj3, hj4, hj5⟩ := h.2 hle (by omega)
    exact ⟨j, hj1, hj2, hj3, hj4, hj5⟩

theorem hv_u64_mul_eq_some {a b : Nat} (hle : a * b ≤ U64max) :
    hv_u64_mul a b = some (a * b) := by
  unfold hv_u64_mul
  rw [if_neg]
  push_neg
  intro ha
  rw [Nat.le_div_iff_mul_le (Nat.pos_of_ne_zero ha)]
  calc b * a = a * b := Nat.mul_comm b a
  _ ≤ U64max := hle

theorem hv_u64_mul_some_eq {a b c : Nat} (h : hv_u64_mul a b = some c) :
    c = a * b := by
  unfold hv_u64_mul at h
  split at h
  · exact absurd h (by simp)
  · exact (Option.some_inj.mp h).symm

theorem hv_pow_four_eq (m : Nat) : (4 : Nat) ^ m = 2 ^ (2 * m) := by
  rw [show (4 : Nat) = 2 ^ 2 by norm_num, ← pow_mul]

/-- C7: for every byte count within the maximum order's capacity `4^16`,
`hv_hilbert_pick_order` succeeds and returns the smallest supported order
whose capacity is at least the byte count, together with that order's side
`2^order` and capacity `4^order`. -/
theorem C7_pick_order_smallest (byte_count : Nat) (hle : byte_count ≤ 4 ^ 16) :
    ∃ order side capacity,
      hv_hilbert_pick_order byte_count = some (order, side, capacity) ∧
      1 ≤ order ∧ order ≤ 16 ∧ side = 2 ^ order ∧ capacity = 4 ^ order ∧
      byte_count ≤ capacity ∧
      ∀ o', 1 ≤ o' → byte_count ≤ 4 ^ o' → order ≤ o' := by
  have hle' : byte_count ≤ 2 ^ 32 := by
    calc byte_count ≤ 4 ^ 16 := hle
    _ = 2 ^ 32 := by norm_num
  obtain ⟨j, hj1, hj2, hj3, hj4, hj5⟩ := (hv_hilbert_pick_order_spec byte_count).2 hle'
  refine ⟨j, 2 ^ j, 2 ^ (2 * j), hj5, hj1, hj2, rfl, (hv_pow_four_eq j).symm, hj3, ?_⟩
  intro o' ho1 ho2
  by_contra hcon
  have hlt : o' < j := by omega
  have := hj4 o' ho1 hlt
  rw [hv_pow_four_eq o'] at ho2
  omega

theorem C7_pick_order_smallest_witness :
    5 ≤ 4 ^ 16 ∧
    ∃ order side capacity,
      hv_hilbert_pick_order 5 = some (order, side, capacity) ∧
      1 ≤ order ∧ order ≤ 16 ∧ side = 2 ^ order ∧ capacity = 4 ^ order ∧
      5 ≤ capacity ∧ ∀ o', 1 ≤ o' → 5 ≤ 4 ^ o' → order ≤ o' :=
  ⟨by norm_num, C7_pick_order_smallest 5 (by norm_num)⟩

/-- C5: boundary rejection — `hv_hilbert_d2xy` fails for every `d` at or
above the order's capacity `4^order`; `hv_gilbert_d2xy_with_limit` fails for
every `d ≥ width*height` and whenever a dimension is zero; and
`hv_hilbert_pick_order` fails for every byte count above the maximum
capacity `4^16`. -/
theorem C5_boundary_rejection :
    (∀ order d, HV_HILBERT_MIN_ORDER ≤ order → order ≤ HV_HILBERT_MAX_ORDER →
      4 ^ order ≤ d → hv_hilbert_d2xy order d = none) ∧
    (∀ width height d max_depth,
      width * height ≤ d ∨ width = 0 ∨ height = 0 →
      hv_gilbert_d2xy_with_limit width height d max_depth = none) ∧
    (∀ byte_count, 4 ^ 16 < byte_count → hv_hilbert_pick_order byte_count = none) := by
  refine ⟨?_, ?_, ?_⟩
  · intro o d h1 h2 h3
    rw [hv_pow_four_eq] at h3
    have hcap := hv_hilbert_capacity_for_order_eq h1 h2
    have hside := hv_hilbert_side_for_order_eq h1 h2
    simp [hv_hilbert_d2xy, hcap, hside, h3]
  · intro w h d md hyp
    unfold hv_gilbert_d2xy_with_limit
    by_cases h0 : w = 0 ∨ h = 0
    · rw [if_pos h0]
    · rw [if_neg h0]
      have hd : w * h ≤ d := by
        rcases hyp with hd | hw | hh
        · exact hd
        · exact absurd (Or.inl hw) h0
        · exact absurd (Or.inr hh) h0
      rcases hmul : hv_u64_mul w h with _ | c
      · simp [Option.bind]
      · have hc := hv_u64_mul_some_eq hmul
        subst hc
        simp [Option.bind, hd]
  · intro bc hbc
    exact (hv_hilbert_pick_order_spec bc).1 (by
      have : (4 : Nat) ^ 16 = 2 ^ 32 := by norm_num
      omega)

theorem C5_boundary_rejection_witness :
    hv_hilbert_d2xy 1 4 = none ∧
    hv_gilbert_d2xy_with_limit 3 2 6 256 = none ∧
    hv_gilbert_d2xy_with_limit 0 5 0 256 = none ∧
    hv_hilbert_pick_order (4 ^ 16 + 1) = none :=
  ⟨C5_boundary_rejection.1 1 4 (by decide) (by decide) (by decide),
   C5_boundary_rejection.2.1 3 2 6 256 (Or.inl (by decide)),
   C5_boundary_rejection.2.1 0 5 0 256 (Or.inr (Or.inl rfl)),
   C5_boundary_rejection.2.2 (4 ^ 16 + 1) (by norm_num)⟩

/-- C3 counterexample: at input size `4^12 + 1` (one byte past the default
page order's capacity), the pagination shortcut of `hv_select_geometry`
selects order 12, while the "smallest order whose capacity fits" search
`hv_hilbert_pick_order` selects order 13 — the two geometries differ, so the
shortcut is not behaviour-preserving. -/
theorem C3_counterexample_default_page_order :
    hv_select_geometry hv_opts_auto_paginate (4 ^ 12 + 1) =
      some (12, 4096, 4096, 4 ^ 12) ∧
    (hv_hilbert_pick_order (4 ^ 12 + 1)).map (fun g => (g.1, g.2.1, g.2.1, g.2.2)) =
      some (13, 8192, 8192, 4 ^ 13) ∧
    hv_select_geometry hv_opts_auto_paginate (4 ^ 12 + 1) ≠
      (hv_hilbert_pick_order (4 ^ 12 + 1)).map (fun g => (g.1, g.2.1, g.2.1, g.2.2)) := by
  refine ⟨by decide, by decide, by decide⟩

/-- C3 (amended): in square/auto mode with pagination enabled, an input
within the default page order's capacity `4^12` selects exactly the geometry
of the smallest-fitting-order search; an input exceeding `4^12` selects the
fixed default page geometry (order 12, side 4096, capacity `4^12`), which
differs from the search's choice — the search would return an order of at
least 13 whenever it succeeds — so the shortcut changes the selected
geometry for such inputs, enabling pagination at the default page size,
rather than being a pure performance shortcut. -/
theorem C3_geometry_shortcut_amended (input_bytes : Nat) :
    (0 < input_bytes → input_bytes ≤ 4 ^ 12 →
      hv_select_geometry hv_opts_auto_paginate input_bytes =
        (hv_hilbert_pick_order input_bytes).map
          (fun g => (g.1, g.2.1, g.2.1, g.2.2))) ∧
    (4 ^ 12 < input_bytes →
      hv_select_geometry hv_opts_auto_paginate input_bytes =
        some (12, 2 ^ 12, 2 ^ 12, 4 ^ 12) ∧
      ∀ g, hv_hilbert_pick_order input_bytes = some g → 13 ≤ g.1) := by
  constructor
  · intro hpos hle
    have hle' : input_bytes ≤ 16777216 := by
      have : (4 : Nat) ^ 12 = 16777216 := by norm_num
      omega
    simp [hv_select_geometry, hv_opts_auto_paginate, HV_DEFAULT_PAGE_ORDER,
      HV_HILBERT_MIN_ORDER, HV_HILBERT_MAX_ORDER,
      hv_hilbert_capacity_for_order, hv_hilbert_side_for_order, hpos, hle']
    rcases hv_hilbert_pick_order input_bytes with _ | ⟨o, s, c⟩ <;> simp
  · intro hgt
    have h412 : (4 : Nat) ^ 12 = 16777216 := by norm_num
    have hpos : 0 < input_bytes := by omega
    have hgt' : ¬input_bytes ≤ 16777216 := by omega
    constructor
    · simp [hv_select_geometry, hv_opts_auto_paginate, HV_DEFAULT_PAGE_ORDER,
        HV_HILBERT_MIN_ORDER, HV_HILBERT_MAX_ORDER,
        hv_hilbert_capacity_for_order, hv_hilbert_side_for_order, hpos, hgt']
    · intro g hg
      by_cases hle32 : input_bytes ≤ 2 ^ 32
      · obtain ⟨j, hj1, hj2, hj3, hj4, hj5⟩ :=
          (hv_hilbert_pick_order_spec input_bytes).2 hle32
        rw [hj5] at hg
        have hgj : g = (j, 2 ^ j, 2 ^ (2 * j)) := by
          exact (Option.some_inj.mp hg).symm
        subst hgj
        show 13 ≤ j
        by_contra hcon
        have hj12 : j ≤ 12 := by omega
        have : (2 : Nat) ^ (2 * j) ≤ 2 ^ 24 :=
          Nat.pow_le_pow_right (by omega) (by omega)
        have h24 : (2 : Nat) ^ 24 = 16777216 := by norm_num
        omega
      · rw [(hv_hilbert_pick_order_spec input_bytes).1 (by omega)] at hg
        exact absurd hg (by simp)

theorem C3_geometry_shortcut_amended_witness :
    4 ^ 12 < 4 ^ 12 + 1 ∧
    hv_select_geometry hv_opts_auto_paginate (4 ^ 12 + 1) =
      some (12, 2 ^ 12, 2 ^ 12, 4 ^ 12) ∧
    ∀ g, hv_hilbert_pick_order (4 ^ 12 + 1) = some g → 13 ≤ g.1 :=
  ⟨Nat.lt_succ_self _, (C3_geometry_shortcut_amended (4 ^ 12 + 1)).2 (Nat.lt_succ_self _)⟩

theorem hv_rect_diag_iff (w h : Nat) :
    hv_rect_has_unavoidable_diagonal w h = true ↔
      (max w h) % 2 = 1 ∧ (min w h) % 2 = 0 := by
  unfold hv_rect_has_unavoidable_diagonal
  by_cases hgt : h > w
  · rw [if_pos hgt, if_pos hgt, max_eq_right (le_of_lt hgt), min_eq_left (le_of_lt hgt)]
    simp only [Bool.and_eq_true, bne_iff_ne, beq_iff_eq, ne_eq]
    omega
  · rw [if_neg hgt, if_neg hgt, max_eq_left (by omega), min_eq_right (by omega)]
    simp only [Bool.and_eq_true, bne_iff_ne, beq_iff_eq, ne_eq]
    omega

/-- C8: in rectangular mode, `hv_select_geometry` with the strict-adjacency
flag set rejects a positive, representable width/height pair exactly when
the larger dimension is odd and the smaller is even; equal dimensions are
never rejected, and with the flag clear no pair is rejected. -/
theorem C8_strict_adjacency_parity (strict : Bool) (w h input_bytes : Nat)
    (hw : 0 < w) (hh : 0 < h) (hw32 : w < 2 ^ 32) (hh32 : h < 2 ^ 32) :
    (hv_select_geometry (hv_opts_rect strict w h) input_bytes = none ↔
      strict = true ∧ (max w h) % 2 = 1 ∧ (min w h) % 2 = 0) ∧
    (w = h → hv_select_geometry (hv_opts_rect strict w h) input_bytes ≠ none) ∧
    (strict = false → hv_select_geometry (hv_opts_rect strict w h) input_bytes ≠ none) := by
  have hmul : hv_u64_mul w h = some (w * h) := by
    apply hv_u64_mul_eq_some
    have h1 : w ≤ 2 ^ 32 - 1 := by omega
    have h2 : h ≤ 2 ^ 32 - 1 := by omega
    calc w * h ≤ (2 ^ 32 - 1) * (2 ^ 32 - 1) := Nat.mul_le_mul h1 h2
    _ ≤ U64max := by norm_num [U64max]
  have hcap0 : ¬(w * h = 0) := Nat.mul_ne_zero (by omega) (by omega)
  have hne : ¬(w = 0 ∨ h = 0) := by omega
  have hmain : hv_select_geometry (hv_opts_rect strict w h) input_bytes =
      if strict = true ∧ hv_rect_has_unavoidable_diagonal w h = true then none
      else some (0, w, h, w * h) := by
    simp [hv_select_geometry, hv_opts_rect, hmul, hcap0, hne]
  rw [hmain]
  refine ⟨?_, ?_, ?_⟩
  · constructor
    · intro hnone
      by_cases hcond : strict = true ∧ hv_rect_has_unavoidable_diagonal w h = true
      · exact ⟨hcond.1, (hv_rect_diag_iff w h).mp hcond.2⟩
      · rw [if_neg hcond] at hnone
        exact absurd hnone (by simp)
    · rintro ⟨hs, hpar⟩
      exact if_pos ⟨hs, (hv_rect_diag_iff w h).mpr hpar⟩
  · intro heq hnone
    by_cases hcond : strict = true ∧ hv_rect_has_unavoidable_diagonal w h = true
    · have := (hv_rect_diag_iff w h).mp hcond.2
      rw [heq] at this
      simp at this
      omega
    · rw [if_neg hcond] at hnone
      exact absurd hnone (by simp)
  · intro hs hnone
    rw [if_neg (by simp [hs])] at hnone
    exact absurd hnone (by simp)

theorem C8_strict_adjacency_parity_witness :
    (0 < 3 ∧ 0 < 2 ∧ hv_select_geometry (hv_opts_rect true 3 2) 0 = none) ∧
    hv_select_geometry (hv_opts_rect false 3 2) 0 ≠ none :=
  ⟨⟨by decide, by decide,
    (C8_strict_adjacency_parity true 3 2 0 (by decide) (by decide) (by decide)
      (by decide)).1.mpr ⟨rfl, by decide, by decide⟩⟩,
   (C8_strict_adjacency_parity false 3 2 0 (by decide) (by decide) (by decide)
      (by decide)).2.2 rfl⟩

/-- C9: the literal pagination+legend case — 10 input bytes `0x00..0x09`,
manual order 1 (capacity 4 per page), pagination enabled — renders exactly 3
pages covering 4, 4 and 2 input bytes, and the legend's final totals line
carries `total=10, null=1, low=9, ascii=0, high=0`. -/
theorem C9_pagination_legend_literal :
    hv_run_pagination_legend.1 =
      .ok { order := 1, side := 2, capacity := 4, input_bytes := 10, page_count := 3 } ∧
    hv_run_pagination_legend.2.2.filterMap hv_legend_page_line =
      [(1, 4), (2, 4), (3, 2)] ∧
    hv_run_pagination_legend.2.2.filterMap hv_legend_total_line =
      [{ total_bytes := 10, null_bytes := 1, low_bytes := 9, ascii_bytes := 0,
         high_bytes := 0 }] ∧
    (hv_run_pagination_legend.2.2.filter fun e =>
        match e with | .writeImage _ => true | _ => false).length = 3 := by
  refine ⟨by decide, by decide, by decide, by decide⟩

/-! ## The Gilbert recursion's depth accounting (C4) -/

theorem hv_gilbert_split_wide_congr
    {r₁ r₂ : Int → Int → Int → Int → Int → Int → Nat → Nat → Nat → Option (Int × Int)}
    {depth₁ maxd₁ depth₂ maxd₂ : Nat}
    (h : ∀ x y ax ay bx by_ d, r₁ x y ax ay bx by_ d (depth₁ + 1) maxd₁ =
      r₂ x y ax ay bx by_ d (depth₂ + 1) maxd₂) :
    ∀ x y ax ay bx by_ ax2 ay2 dax day w2 w d,
      hv_gilbert_split_wide r₁ x y ax ay bx by_ ax2 ay2 dax day w2 w d depth₁ maxd₁ =
      hv_gilbert_split_wide r₂ x y ax ay bx by_ ax2 ay2 dax day w2 w d depth₂ maxd₂ := by
  intro x y ax ay bx by_ ax2 ay2 dax day w2 w d
  unfold hv_gilbert_split_wide
  split
  · rfl
  · split
    · rfl
    · split
      · apply h
      · split
        · rfl
        · apply h

theorem hv_gilbert_split_tall_congr
    {r₁ r₂ : Int → Int → Int → Int → Int → Int → Nat → Nat → Nat → Option (Int × Int)}
    {depth₁ maxd₁ depth₂ maxd₂ : Nat}
    (h : ∀ x y ax ay bx by_ d, r₁ x y ax ay bx by_ d (depth₁ + 1) maxd₁ =
      r₂ x y ax ay bx by_ d (depth₂ + 1) maxd₂) :
    ∀ x y ax ay bx by_ ax2 ay2 bx2 by2 dax day dbx dby h2 hdim d,
      hv_gilbert_split_tall r₁ x y ax ay bx by_ ax2 ay2 bx2 by2 dax day dbx dby h2 hdim d depth₁ maxd₁ =
      hv_gilbert_split_tall r₂ x y ax ay bx by_ ax2 ay2 bx2 by2 dax day dbx dby h2 hdim d depth₂ maxd₂ := by
  intro x y ax ay bx by_ ax2 ay2 bx2 by2 dax day dbx dby h2 hdim d
  unfold hv_gilbert_split_tall
  split
  · rfl
  · split
    · rfl
    · split
      · apply h
      · split
        · split
          · rfl
          · apply h
        · split
          · rfl
          · apply h

/-- One unfolding step of `hv_gilbert_rec` is congruent in the fuel and in a
consistent depth shift: when neither side's `depth > max_depth` guard fires
and the recursive occurrences agree at `depth + 1`, the two bodies agree. -/
theorem hv_gilbert_rec_body_congr {n m depth₁ maxd₁ depth₂ maxd₂ : Nat}
    (hg₁ : ¬depth₁ > maxd₁) (hg₂ : ¬depth₂ > maxd₂)
    (h : ∀ x y ax ay bx by_ d, hv_gilbert_rec n x y ax ay bx by_ d (depth₁ + 1) maxd₁ =
      hv_gilbert_rec m x y ax ay bx by_ d (depth₂ + 1) maxd₂) :
    ∀ x y ax ay bx by_ d,
      hv_gilbert_rec (n + 1) x y ax ay bx by_ d depth₁ maxd₁ =
      hv_gilbert_rec (m + 1) x y ax ay bx by_ d depth₂ maxd₂ := by
  intro x y ax ay bx by_ d
  simp only [hv_gilbert_rec, if_neg hg₁, if_neg hg₂]
  split
  · rfl
  · split
    · rfl
    · split
      · rfl
      · split
        · rfl
        · split
          · rfl
          · split
            · rfl
            · split
              · apply hv_gilbert_split_wide_congr h
              · apply hv_gilbert_split_tall_congr h

/-- The structural fuel of `hv_gilbert_rec` is irrelevant once it covers the
depth budget `max_depth + 1 - depth` that the C recursion can actually
consume. -/
theorem hv_gilbert_rec_fuel_irrelevant :
    ∀ fuel₁ fuel₂ depth maxd, maxd + 1 - depth ≤ fuel₁ → maxd + 1 - depth ≤ fuel₂ →
    ∀ x y ax ay bx by_ d,
      hv_gilbert_rec fuel₁ x y ax ay bx by_ d depth maxd =
      hv_gilbert_rec fuel₂ x y ax ay bx by_ d depth maxd := by
  intro fuel₁
  induction fuel₁ with
  | zero =>
    intro fuel₂ depth maxd h₁ h₂ x y ax ay bx by_ d
    have hd : depth > maxd := by omega
    cases fuel₂ with
    | zero => rfl
    | succ m => simp only [hv_gilbert_rec, if_pos hd]
  | succ n ih =>
    intro fuel₂ depth maxd h₁ h₂ x y ax ay bx by_ d
    cases fuel₂ with
    | zero =>
      have hd : depth > maxd := by omega
      simp only [hv_gilbert_rec, if_pos hd]
    | succ m =>
      by_cases hd : depth > maxd
      · simp only [hv_gilbert_rec, if_pos hd]
      · exact hv_gilbert_rec_body_congr hd hd
          (fun x y ax ay bx by_ d =>
            ih m (depth + 1) maxd (by omega) (by omega) x y ax ay bx by_ d)
          x y ax ay bx by_ d

/-- `hv_gilbert_rec` depends on `depth` and `max_depth` only through the
remaining budget `max_depth - depth`: shifting both by `k` never changes the
result. -/
theorem hv_gilbert_rec_depth_shift :
    ∀ fuel k depth maxd x y ax ay bx by_ d,
      hv_gilbert_rec fuel x y ax ay bx by_ d (depth + k) (maxd + k) =
      hv_gilbert_rec fuel x y ax ay bx by_ d depth maxd := by
  intro fuel
  induction fuel with
  | zero => intro k depth maxd x y ax ay bx by_ d; rfl
  | succ n ih =>
    intro k depth maxd x y ax ay bx by_ d
    by_cases hd : depth > maxd
    · simp only [hv_gilbert_rec, if_pos hd, if_pos (show depth + k > maxd + k by omega)]
    · exact hv_gilbert_rec_body_congr (show ¬depth + k > maxd + k by omega) hd
        (fun x y ax ay bx by_ d => by
          have := ih k (depth + 1) maxd x y ax ay bx by_ d
          rwa [show depth + 1 + k = depth + k + 1 by omega] at this)
        x y ax ay bx by_ d

/-- C4: `hv_gilbert_d2xy_recursive` increments its depth counter by exactly
one per recursive call and fails as soon as `depth > max_depth`, so the
recursion is total with the remaining depth budget `max_depth + 1 - depth`
as fuel: any structural fuel covering that budget computes the same result,
and the result depends on `depth` and `max_depth` only through their
difference.  A mapping whose recursion would need depth beyond `max_depth`
returns failure (`none`) rather than recursing unboundedly. -/
theorem C4_depth_bounded_fuel (x y ax ay bx by_ : Int) (d depth max_depth : Nat) :
    (depth > max_depth →
      hv_gilbert_d2xy_recursive x y ax ay bx by_ d depth max_depth = none) ∧
    (∀ fuel, max_depth + 1 - depth ≤ fuel →
      hv_gilbert_rec fuel x y ax ay bx by_ d depth max_depth =
        hv_gilbert_d2xy_recursive x y ax ay bx by_ d depth max_depth) ∧
    (∀ k, hv_gilbert_d2xy_recursive x y ax ay bx by_ d (depth + k) (max_depth + k) =
      hv_gilbert_d2xy_recursive x y ax ay bx by_ d depth max_depth) := by
  refine ⟨?_, ?_, ?_⟩
  · intro hd
    have h0 : max_depth + 1 - depth = 0 := by omega
    unfold hv_gilbert_d2xy_recursive
    rw [h0]
    rfl
  · intro fuel hfuel
    exact hv_gilbert_rec_fuel_irrelevant fuel (max_depth + 1 - depth) depth max_depth
      hfuel (le_refl _) x y ax ay bx by_ d
  · intro k
    unfold hv_gilbert_d2xy_recursive
    rw [show max_depth + k + 1 - (depth + k) = max_depth + 1 - depth by omega]
    exact hv_gilbert_rec_depth_shift (max_depth + 1 - depth) k depth max_depth x y ax ay bx by_ d

theorem C4_depth_bounded_fuel_witness :
    hv_gilbert_d2xy_recursive 0 0 2 0 0 2 0 1 0 = none ∧
    hv_gilbert_d2xy_with_limit 2 2 0 0 = none ∧
    hv_gilbert_d2xy_with_limit 2 2 0 1 = some (0, 0) :=
  ⟨(C4_depth_bounded_fuel 0 0 2 0 0 2 0 1 0).1 (by decide), by decide, by decide⟩

/-! ## Byte statistics (C10) -/

theorem hv_stats_reachable_double_iter :
    ∀ (n : Nat) {s : HvByteStats}, HvStatsReachable s →
      HvStatsReachable (hv_stats_double_iter n s) := by
  intro n
  induction n with
  | zero => intro s h; exact h
  | succ n ih => intro s h; exact ih (HvStatsReachable.add h h)

/-- The inductive invariant of reachable statistics: every counter is a
reduced `uint64_t` value and the total agrees with the class-counter sum
modulo `2^64`. -/
theorem hv_stats_reachable_invariant {s : HvByteStats} (h : HvStatsReachable s) :
    s.total_bytes < U64mod ∧ s.null_bytes < U64mod ∧ s.low_bytes < U64mod ∧
    s.ascii_bytes < U64mod ∧ s.high_bytes < U64mod ∧
    s.total_bytes =
      (s.null_bytes + s.low_bytes + s.ascii_bytes + s.high_bytes) % U64mod := by
  induction h with
  | zero => simp [hv_stats_zero, U64mod]
  | add_byte value _ ih =>
    obtain ⟨h1, h2, h3, h4, h5, heq⟩ := ih
    unfold hv_stats_add_byte
    split
    · refine ⟨?_, ?_, ?_, ?_, ?_, ?_⟩ <;> simp [U64mod] at * <;> omega
    · split
      · refine ⟨?_, ?_, ?_, ?_, ?_, ?_⟩ <;> simp [U64mod] at * <;> omega
      · split
        · refine ⟨?_, ?_, ?_, ?_, ?_, ?_⟩ <;> simp [U64mod] at * <;> omega
        · refine ⟨?_, ?_, ?_, ?_, ?_, ?_⟩ <;> simp [U64mod] at * <;> omega
  | add _ _ ihs iht =>
    obtain ⟨h1, h2, h3, h4, h5, heq⟩ := ihs
    obtain ⟨g1, g2, g3, g4, g5, geq⟩ := iht
    unfold hv_stats_add
    refine ⟨?_, ?_, ?_, ?_, ?_, ?_⟩ <;> simp [U64mod] at * <;> omega

/-- C10 counterexample: a reachable statistics value violating
`total_bytes = null_bytes + low_bytes + ascii_bytes + high_bytes` as an exact
equation.  One `hv_stats_add_byte` of byte `0x00`, 63 self-accumulations,
the same with byte `0x01`, and one final `hv_stats_add` drive the `uint64_t`
total through its wrap-around: the state `(0, 2^63, 2^63, 0, 0)` is
reachable, and its total `0` differs from its class-counter sum `2^64`. -/
theorem C10_counterexample_wraparound :
    HvStatsReachable
      { total_bytes := 0, null_bytes := 2 ^ 63, low_bytes := 2 ^ 63,
        ascii_bytes := 0, high_bytes := 0 } ∧
    ¬({ total_bytes := 0, null_bytes := 2 ^ 63, low_bytes := 2 ^ 63,
        ascii_bytes := 0, high_bytes := 0 } : HvByteStats).total_bytes =
      ({ total_bytes := 0, null_bytes := 2 ^ 63, low_bytes := 2 ^ 63,
         ascii_bytes := 0, high_bytes := 0 } : HvByteStats).null_bytes +
      ({ total_bytes := 0, null_bytes := 2 ^ 63, low_bytes := 2 ^ 63,
         ascii_bytes := 0, high_bytes := 0 } : HvByteStats).low_bytes +
      ({ total_bytes := 0, null_bytes := 2 ^ 63, low_bytes := 2 ^ 63,
         ascii_bytes := 0, high_bytes := 0 } : HvByteStats).ascii_bytes +
      ({ total_bytes := 0, null_bytes := 2 ^ 63, low_bytes := 2 ^ 63,
         ascii_bytes := 0, high_bytes := 0 } : HvByteStats).high_bytes := by
  constructor
  · have ha := hv_stats_reachable_double_iter 63
      (HvStatsReachable.add_byte 0 HvStatsReachable.zero)
    have hb := hv_stats_reachable_double_iter 63
      (HvStatsReachable.add_byte 1 HvStatsReachable.zero)
    have hadd := HvStatsReachable.add ha hb
    have hval :
        hv_stats_add
          (hv_stats_double_iter 63 (hv_stats_add_byte hv_stats_zero 0))
          (hv_stats_double_iter 63 (hv_stats_add_byte hv_stats_zero 1)) =
        { total_bytes := 0, null_bytes := 2 ^ 63, low_bytes := 2 ^ 63,
          ascii_bytes := 0, high_bytes := 0 } := by decide
    rwa [hval] at hadd
  · decide

/-- C10 (amended): every reachable `HvByteStats` satisfies the invariant as
a congruence modulo `2^64` — `total_bytes` equals the class-counter sum
reduced `% 2^64` — and each processed byte bumps `total_bytes` by one modulo
`2^64` while changing exactly one of the four class counters. -/
theorem C10_stats_invariant_amended :
    (∀ s : HvByteStats, HvStatsReachable s →
      s.total_bytes =
        (s.null_bytes + s.low_bytes + s.ascii_bytes + s.high_bytes) % U64mod) ∧
    (∀ (s : HvByteStats) (value : Nat),
      (hv_stats_add_byte s value).total_bytes = (s.total_bytes + 1) % U64mod ∧
      hv_changed_counters s (hv_stats_add_byte s value) = 1) := by
  constructor
  · intro s h
    exact (hv_stats_reachable_invariant h).2.2.2.2.2
  · intro s value
    constructor
    · unfold hv_stats_add_byte
      split
      · rfl
      · split
        · rfl
        · split
          · rfl
          · rfl
    · unfold hv_stats_add_byte hv_changed_counters
      have hmod : ∀ a : Nat, ¬((a + 1) % U64mod = a) := by
        intro a hcon
        have hU : U64mod = 18446744073709551616 := by norm_num [U64mod]
        rw [hU] at hcon
        omega
      split
      · simp [hmod]
      · split
        · simp [hmod]
        · split
          · simp [hmod]
          · simp [hmod]

theorem C10_stats_invariant_amended_witness :
    HvStatsReachable (hv_stats_add_byte hv_stats_zero 5) ∧
    (hv_stats_add_byte hv_stats_zero 5).total_bytes =
      ((hv_stats_add_byte hv_stats_zero 5).null_bytes +
       (hv_stats_add_byte hv_stats_zero 5).low_bytes +
       (hv_stats_add_byte hv_stats_zero 5).ascii_bytes +
       (hv_stats_add_byte hv_stats_zero 5).high_bytes) % U64mod :=
  ⟨HvStatsReachable.add_byte 5 HvStatsReachable.zero,
   C10_stats_invariant_amended.1 _ (HvStatsReachable.add_byte 5 HvStatsReachable.zero)⟩

/-! ## Successful mappings stay inside the grid (C6) -/

theorem hv_rot_lt {n x y rx ry : Nat} (_hn : 0 < n) (hx : x < n) (hy : y < n) :
    (hv_rot n x y rx ry).1 < n ∧ (hv_rot n x y rx ry).2 < n := by
  unfold hv_rot
  split
  · split <;> constructor <;> simp <;> omega
  · exact ⟨hx, hy⟩

theorem hv_hilbert_loop_lt (d : Nat) :
    ∀ i, (hv_hilbert_loop d i).1 < 2 ^ i ∧ (hv_hilbert_loop d i).2.1 < 2 ^ i := by
  intro i
  induction i with
  | zero => simp [hv_hilbert_loop]
  | succ i ih =>
    obtain ⟨hx, hy⟩ := ih
    have hpos : 0 < 2 ^ i := Nat.pos_pow_of_pos i (by omega)
    have hrot := @hv_rot_lt _ _ _ (((hv_hilbert_loop d i).2.2 / 2) % 2)
      ((Nat.xor (hv_hilbert_loop d i).2.2 (((hv_hilbert_loop d i).2.2 / 2) % 2)) % 2)
      hpos hx hy
    have hrx : ((hv_hilbert_loop d i).2.2 / 2) % 2 ≤ 1 :=
      Nat.le_of_lt_succ (Nat.mod_lt _ (by omega))
    have hry : (Nat.xor (hv_hilbert_loop d i).2.2
        (((hv_hilbert_loop d i).2.2 / 2) % 2)) % 2 ≤ 1 :=
      Nat.le_of_lt_succ (Nat.mod_lt _ (by omega))
    have hb1 : 2 ^ i * (((hv_hilbert_loop d i).2.2 / 2) % 2) ≤ 2 ^ i * 1 :=
      Nat.mul_le_mul_left _ hrx
    have hb2 : 2 ^ i * ((Nat.xor (hv_hilbert_loop d i).2.2
        (((hv_hilbert_loop d i).2.2 / 2) % 2)) % 2) ≤ 2 ^ i * 1 :=
      Nat.mul_le_mul_left _ hry
    have hpow : 2 ^ (i + 1) = 2 ^ i + 2 ^ i := by rw [pow_succ]; omega
    unfold hv_hilbert_loop hv_hilbert_step
    constructor <;> simp only [] <;> omega

/-- C6: whenever a mapping call succeeds, the returned coordinate is inside
the grid — `hv_gilbert_d2xy_with_limit` yields `x < width`, `y < height`,
and `hv_hilbert_d2xy` yields `x < 2^order`, `y < 2^order`. -/
theorem C6_successful_mapping_in_grid :
    (∀ width height d max_depth x y,
      hv_gilbert_d2xy_with_limit width height d max_depth = some (x, y) →
      x < width ∧ y < height) ∧
    (∀ order d x y, hv_hilbert_d2xy order d = some (x, y) →
      x < 2 ^ order ∧ y < 2 ^ order) := by
  constructor
  · intro w h d md x y hs
    unfold hv_gilbert_d2xy_with_limit at hs
    split at hs
    · exact absurd hs (by simp)
    · obtain ⟨cap, hcap, hs⟩ := Option.bind_eq_some.mp hs
      split at hs
      · exact absurd hs (by simp)
      · dsimp only at hs
        split at hs
        all_goals
          obtain ⟨r, hr, hs⟩ := Option.bind_eq_some.mp hs
          split at hs
          · exact absurd hs (by simp)
          · rename_i hcond
            push_neg at hcond
            obtain ⟨hc1, hc2, hc3, hc4⟩ := hcond
            have hinj := Option.some_inj.mp hs
            have hx : r.1.toNat = x := congrArg Prod.fst hinj
            have hy : r.2.toNat = y := congrArg Prod.snd hinj
            subst hx
            subst hy
            constructor <;> omega
  · intro o d x y hs
    unfold hv_hilbert_d2xy at hs
    obtain ⟨side, hside, hs⟩ := Option.bind_eq_some.mp hs
    obtain ⟨cap, hcap, hs⟩ := Option.bind_eq_some.mp hs
    split at hs
    · exact absurd hs (by simp)
    · have hinj := Option.some_inj.mp hs
      have hx : (hv_hilbert_loop d o).1 = x := congrArg Prod.fst hinj
      have hy : (hv_hilbert_loop d o).2.1 = y := congrArg Prod.snd hinj
      subst hx
      subst hy
      exact hv_hilbert_loop_lt d o

theorem C6_successful_mapping_in_grid_witness :
    (hv_gilbert_d2xy_with_limit 3 2 4 256 = some (2, 0) ∧ 2 < 3 ∧ 0 < 2) ∧
    (hv_hilbert_d2xy 1 2 = some (1, 1) ∧ 1 < 2 ∧ 1 < 2) :=
  ⟨⟨by decide, C6_successful_mapping_in_grid.1 3 2 4 256 2 0 (by decide)⟩,
   ⟨by decide, C6_successful_mapping_in_grid.2 1 2 1 1 (by decide)⟩⟩

/-! ## The output-safety gate (C2) -/

/-- C2 counterexample: in the successful two-destination-kind run
`hv_run_pagination_legend` (legend plus three pages, no aliasing), the first
output byte — the legend header — is written strictly before the first page
destination is ever opened for writing, although that page path belongs to
the run's Destination Set; so it is not the case that every destination is
opened (with its descriptor identity checked) before the first byte of any
image or legend output is written. -/
theorem C2_counterexample_header_before_page_open :
    hv_run_pagination_legend.2.2.findIdx (fun e => e.isWrite) <
      hv_run_pagination_legend.2.2.findIdx
        (fun e => e == HvRenderEvent.openWrite "out_page0001.ppm") ∧
    "out_page0001.ppm" ∈
      hv_destination_set hv_opts_pagination_legend (hv_page_count 10 4) ∧
    hv_run_pagination_legend.1 =
      .ok { order := 1, side := 2, capacity := 4, input_bytes := 10,
            page_count := 3 } := by
  refine ⟨by decide, by decide, by decide⟩

theorem hv_destination_set_mem (options : HvRenderOptions) (page_count : Nat)
    (p : String) :
    p ∈ hv_destination_set options page_count ↔
      (options.legend_enabled = true ∧ options.legend_path = some p) ∨
      ∃ i, i < page_count ∧
        p = hv_build_page_output_path options.output_path i page_count := by
  unfold hv_destination_set
  split
  · rename_i lp hlp
    by_cases hen : options.legend_enabled = true
    · rw [if_pos hen]
      simp only [List.cons_append, List.nil_append, List.mem_cons, List.mem_map,
        List.mem_range]
      constructor
      · rintro (hp | ⟨i, hi, hip⟩)
        · exact Or.inl ⟨hen, by rw [hlp, hp]⟩
        · exact Or.inr ⟨i, hi, hip.symm⟩
      · rintro (⟨_, hsome⟩ | ⟨i, hi, hip⟩)
        · rw [hlp] at hsome
          exact Or.inl (Option.some_inj.mp hsome).symm
        · exact Or.inr ⟨i, hi, hip.symm⟩
    · rw [if_neg hen]
      simp only [List.nil_append, List.mem_map, List.mem_range]
      constructor
      · rintro ⟨i, hi, hip⟩
        exact Or.inr ⟨i, hi, hip.symm⟩
      · rintro (⟨habs, _⟩ | ⟨i, hi, hip⟩)
        · exact absurd habs hen
        · exact ⟨i, hi, hip.symm⟩
  · rename_i hlp
    simp only [List.nil_append, List.mem_map, List.mem_range]
    constructor
    · rintro ⟨i, hi, hip⟩
      exact Or.inr ⟨i, hi, hip.symm⟩
    · rintro (⟨_, habs⟩ | ⟨i, hi, hip⟩)
      · rw [hlp] at habs
        exact absurd habs (by simp)
      · exact ⟨i, hi, hip.symm⟩

theorem hv_preflight_pages_alias_err
    (options : HvRenderOptions) (fs : HvFs) (input_id page_count : Nat) :
    ∀ idxs : List Nat,
      (∃ i ∈ idxs, hv_path_aliases_input fs input_id
        (hv_build_page_output_path options.output_path i page_count) = true) →
      ∃ e, hv_preflight_pages options fs input_id page_count idxs = .error e ∧
        e.isAliasViolation = true ∧
        ∃ p, e.namedDestination = some p ∧
          (p ∈ idxs.map
              (fun i => hv_build_page_output_path options.output_path i page_count) ∨
            (options.legend_enabled = true ∧ options.legend_path = some p)) := by
  intro idxs
  induction idxs with
  | nil => rintro ⟨i, hi, _⟩; exact absurd hi (by simp)
  | cons i rest ih =>
    rintro ⟨j, hj, halias⟩
    unfold hv_preflight_pages
    by_cases hi : hv_path_aliases_input fs input_id
        (hv_build_page_output_path options.output_path i page_count) = true
    · rw [if_pos hi]
      exact ⟨_, rfl, rfl, _, rfl, Or.inl (by simp)⟩
    · rw [if_neg hi]
      have hjrest : j ∈ rest := by
        rcases List.mem_cons.mp hj with hji | hjr
        · subst hji; exact absurd halias hi
        · exact hjr
      have hex : ∃ j ∈ rest, hv_path_aliases_input fs input_id
          (hv_build_page_output_path options.output_path j page_count) = true :=
        ⟨j, hjrest, halias⟩
      split
      · split
        · exact ⟨_, rfl, rfl, _, rfl, Or.inl (by simp)⟩
        · obtain ⟨e, he, hv, p, hp, hloc⟩ := ih hex
          refine ⟨e, he, hv, p, hp, ?_⟩
          rcases hloc with hin | hleg
          · exact Or.inl (by simp [hin])
          · exact Or.inr hleg
      · obtain ⟨e, he, hv, p, hp, hloc⟩ := ih hex
        refine ⟨e, he, hv, p, hp, ?_⟩
        rcases hloc with hin | hleg
        · exact Or.inl (by simp [hin])
        · exact Or.inr hleg

theorem hv_preflight_alias_checks_alias_err
    (options : HvRenderOptions) (fs : HvFs) (input_id page_count : Nat)
    (halias : ∃ p ∈ hv_destination_set options page_count,
      hv_path_aliases_input fs input_id p = true) :
    ∃ e, hv_preflight_alias_checks options fs input_id page_count = .error e ∧
      e.isAliasViolation = true ∧
      ∃ p, e.namedDestination = some p ∧
        p ∈ hv_destination_set options page_count := by
  obtain ⟨p, hpmem, hpalias⟩ := halias
  have hdest := (hv_destination_set_mem options page_count p).mp hpmem
  have hpages : (∃ i ∈ List.range page_count,
      hv_path_aliases_input fs input_id
        (hv_build_page_output_path options.output_path i page_count) = true) →
      ∃ e, hv_preflight_pages options fs input_id page_count
          (List.range page_count) = .error e ∧
        e.isAliasViolation = true ∧
        ∃ q, e.namedDestination = some q ∧
          q ∈ hv_destination_set options page_count := by
    intro hex
    obtain ⟨e, he, hv, q, hq, hloc⟩ :=
      hv_preflight_pages_alias_err options fs input_id page_count
        (List.range page_count) hex
    refine ⟨e, he, hv, q, hq, (hv_destination_set_mem options page_count q).mpr ?_⟩
    rcases hloc with hin | hleg
    · obtain ⟨i, hi, hiq⟩ := List.mem_map.mp hin
      exact Or.inr ⟨i, List.mem_range.mp hi, hiq.symm⟩
    · exact Or.inl hleg
  unfold hv_preflight_alias_checks
  split
  · rename_i lp hlp
    by_cases hlc : (options.legend_enabled && hv_path_aliases_input fs input_id lp) = true
    · rw [if_pos hlc]
      refine ⟨_, rfl, rfl, lp, rfl,
        (hv_destination_set_mem options page_count lp).mpr ?_⟩
      exact Or.inl ⟨((Bool.and_eq_true _ _).mp hlc).1, hlp⟩
    · rw [if_neg hlc]
      apply hpages
      rcases hdest with ⟨hen, hsome⟩ | ⟨i, hi, hip⟩
      · have hplp : p = lp := by rw [hlp] at hsome; simpa using hsome.symm
        subst hplp
        exact absurd (by rw [hen, hpalias]; rfl) hlc
      · exact ⟨i, List.mem_range.mpr hi, by rw [← hip]; exact hpalias⟩
  · rename_i hlp
    apply hpages
    rcases hdest with ⟨_, hsome⟩ | ⟨i, hi, hip⟩
    · rw [hlp] at hsome; exact absurd hsome (by simp)
    · exact ⟨i, List.mem_range.mpr hi, by rw [← hip]; exact hpalias⟩

/-- C2 (amended): the safety gate of `hv_render_file`.  (1) Whenever
geometry selection succeeds and the pagination capacity check passes, any
destination of the run's Destination Set that denotes the same underlying
file as the input (by `stat` on the path, as `hv_preflight_alias_checks`
checks before anything is opened for output) makes the entire run fail with
a safety-violation error naming a destination of the set, with no output
opened, truncated, or written.  (2) Each destination is additionally
re-checked at the moment it is opened for writing: the identity obtained
from the opened descriptor is compared with the input's, a match aborts with
an error naming that destination before truncating it, and only a mismatch
truncates — destinations are *not* all opened before the first output byte;
the legend is opened and written before the page destinations are opened
(see the counterexample). -/
theorem C2_alias_gate_amended :
    (∀ (options : HvRenderOptions) (fs : HvFs) (input_id : Nat)
        (input : List Nat) (max_image_bytes : Nat)
        (palette : Nat → Nat × Nat × Nat) (order width height capacity : Nat),
      hv_select_geometry options input.length = some (order, width, height, capacity) →
      ¬(input.length > capacity ∧ ¬options.paginate) →
      (∃ p ∈ hv_destination_set options (hv_page_count input.length capacity),
        hv_path_aliases_input fs input_id p = true) →
      ∃ e, hv_render_file options fs input_id input max_image_bytes palette =
          (.error e, fs, []) ∧
        e.isAliasViolation = true ∧
        ∃ p, e.namedDestination = some p ∧
          p ∈ hv_destination_set options (hv_page_count input.length capacity)) ∧
    (∀ (fs : HvFs) (input_id : Nat) (path role : String),
      ((hv_fs_open_create fs path).1 = input_id →
        hv_open_checked_output_stream fs input_id path role =
          (.error (.aliasInput role path), (hv_fs_open_create fs path).2,
            [.openWrite path])) ∧
      ((hv_fs_open_create fs path).1 ≠ input_id →
        hv_open_checked_output_stream fs input_id path role =
          (.ok (), (hv_fs_open_create fs path).2,
            [.openWrite path, .ftruncate path]))) := by
  constructor
  · intro options fs input_id input max_image_bytes palette order width height capacity
      hsel hpag halias
    obtain ⟨e, he, hv, p, hp, hpmem⟩ :=
      hv_preflight_alias_checks_alias_err options fs input_id
        (hv_page_count input.length capacity) halias
    refine ⟨e, ?_, hv, p, hp, hpmem⟩
    unfold hv_render_file
    simp only [hsel]
    rw [if_neg hpag]
    simp only [he]
  · intro fs input_id path role
    constructor
    · intro heq
      unfold hv_open_checked_output_stream
      rw [← heq]
      simp
    · intro hne
      unfold hv_open_checked_output_stream
      rcases hoc : hv_fs_open_create fs path with ⟨id, fs'⟩
      rw [hoc] at hne
      simp only at hne ⊢
      rw [if_neg hne]

theorem C2_alias_gate_amended_witness :
    (hv_select_geometry hv_opts_pagination_legend (List.range 10).length =
      some (1, 2, 2, 4)) ∧
    (∃ e, hv_render_file hv_opts_pagination_legend hv_fs_alias_page2 0
        (List.range 10) HV_DEFAULT_MAX_IMAGE_BYTES hv_palette_const =
        (.error e, hv_fs_alias_page2, []) ∧
      e.isAliasViolation = true ∧
      ∃ p, e.namedDestination = some p ∧
        p ∈ hv_destination_set hv_opts_pagination_legend
          (hv_page_count (List.range 10).length 4)) :=
  ⟨by decide,
   C2_alias_gate_amended.1 hv_opts_pagination_legend hv_fs_alias_page2 0
     (List.range 10) HV_DEFAULT_MAX_IMAGE_BYTES hv_palette_const 1 2 2 4
     (by decide) (by decide)
     ⟨"out_page0002.ppm", by decide, by decide⟩⟩

/-! ## The Hilbert engine is a bijection (C1, square power-of-two case) -/

theorem hv_hilbert_loop_t (d : Nat) : ∀ i, (hv_hilbert_loop d i).2.2 = d / 4 ^ i := by
  intro i
  induction i with
  | zero => simp [hv_hilbert_loop]
  | succ i ih =>
    show (hv_hilbert_step (2 ^ i) _ _ _).2.2 = _
    unfold hv_hilbert_step
    simp only [ih]
    rw [Nat.div_div_eq_div_mul]
    rw [pow_succ]

theorem hv_xor_mod_two (a b : Nat) : Nat.xor a b % 2 = (a + b) % 2 :=
  Nat.xor_mod_two_eq

theorem hv_hilbert_loop_succ_pos (d i : Nat) :
    hv_pos d (i + 1) = hv_quad (2 ^ i) (d / 4 ^ i % 4) (hv_pos d i) := by
  have h1 : d / 4 ^ i / 2 % 2 = d / 4 ^ i % 4 / 2 % 2 := by omega
  have h2 : Nat.xor (d / 4 ^ i) (d / 4 ^ i % 4 / 2 % 2) % 2 =
      Nat.xor (d / 4 ^ i % 4) (d / 4 ^ i % 4 / 2 % 2) % 2 := by
    rw [hv_xor_mod_two, hv_xor_mod_two]
    omega
  unfold hv_pos hv_quad hv_quad_bits
  simp only [hv_hilbert_loop]
  unfold hv_hilbert_step
  rw [hv_hilbert_loop_t]
  simp only [h1, h2]

theorem hv_pos_mod : ∀ (i d : Nat), hv_pos d i = hv_pos (d % 4 ^ i) i := by
  intro i
  induction i with
  | zero => intro d; rfl
  | succ i ih =>
    intro d
    rw [hv_hilbert_loop_succ_pos, hv_hilbert_loop_succ_pos]
    have hq : d % 4 ^ (i + 1) / 4 ^ i % 4 = d / 4 ^ i % 4 := by
      rw [pow_succ, Nat.mod_mul_right_div_self]
      omega
    have hp : hv_pos (d % 4 ^ (i + 1)) i = hv_pos d i := by
      rw [ih (d % 4 ^ (i + 1)), Nat.mod_mod_of_dvd _ (pow_dvd_pow 4 (by omega)), ← ih d]
    rw [hq, hp]

theorem hv_rot_invol {n x y rx ry : Nat} (hx : x < n) (hy : y < n) :
    hv_rot n (hv_rot n x y rx ry).1 (hv_rot n x y rx ry).2 rx ry = (x, y) := by
  unfold hv_rot
  split
  · split <;> (simp; try omega)
  · rfl

theorem hv_quad_bits_lt (q : Nat) : (hv_quad_bits q).1 < 2 ∧ (hv_quad_bits q).2 < 2 :=
  ⟨Nat.mod_lt _ (by omega), Nat.mod_lt _ (by omega)⟩

theorem hv_quad_bits_of_bits :
    ∀ rx < 2, ∀ ry < 2, ∃ q < 4, hv_quad_bits q = (rx, ry) := by
  decide

theorem hv_quad_bits_inj :
    ∀ q < 4, ∀ q' < 4, hv_quad_bits q = hv_quad_bits q' → q = q' := by
  decide

theorem hv_quad_div {s q : Nat} (hs : 0 < s) {p : Nat × Nat}
    (h1 : p.1 < s) (h2 : p.2 < s) :
    (hv_quad s q p).1 / s = (hv_quad_bits q).1 ∧
    (hv_quad s q p).2 / s = (hv_quad_bits q).2 ∧
    (hv_quad s q p).1 < 2 * s ∧ (hv_quad s q p).2 < 2 * s := by
  obtain ⟨hr1, hr2⟩ := @hv_rot_lt _ _ _ ((hv_quad_bits q).1)
    ((hv_quad_bits q).2) hs h1 h2
  obtain ⟨hb1, hb2⟩ := hv_quad_bits_lt q
  unfold hv_quad
  refine ⟨?_, ?_, ?_, ?_⟩
  · show ((hv_rot s p.1 p.2 _ _).1 + s * (hv_quad_bits q).1) / s = _
    rw [Nat.add_mul_div_left _ _ hs, Nat.div_eq_of_lt hr1, Nat.zero_add]
  · show ((hv_rot s p.1 p.2 _ _).2 + s * (hv_quad_bits q).2) / s = _
    rw [Nat.add_mul_div_left _ _ hs, Nat.div_eq_of_lt hr2, Nat.zero_add]
  · show (hv_rot s p.1 p.2 _ _).1 + s * (hv_quad_bits q).1 < 2 * s
    have : s * (hv_quad_bits q).1 ≤ s * 1 := Nat.mul_le_mul_left _ (by omega)
    omega
  · show (hv_rot s p.1 p.2 _ _).2 + s * (hv_quad_bits q).2 < 2 * s
    have : s * (hv_quad_bits q).2 ≤ s * 1 := Nat.mul_le_mul_left _ (by omega)
    omega

theorem hv_quad_inj {s q : Nat} (_hs : 0 < s) {p p' : Nat × Nat}
    (h1 : p.1 < s) (h2 : p.2 < s) (h1' : p'.1 < s) (h2' : p'.2 < s)
    (heq : hv_quad s q p = hv_quad s q p') : p = p' := by
  obtain ⟨a, b⟩ := p
  obtain ⟨a', b'⟩ := p'
  simp only at h1 h2 h1' h2'
  unfold hv_quad at heq
  simp only at heq
  rw [Prod.mk.injEq] at heq
  obtain ⟨c1, c2⟩ := heq
  have e1 : (hv_rot s a b (hv_quad_bits q).1 (hv_quad_bits q).2).1 =
      (hv_rot s a' b' (hv_quad_bits q).1 (hv_quad_bits q).2).1 := by omega
  have e2 : (hv_rot s a b (hv_quad_bits q).1 (hv_quad_bits q).2).2 =
      (hv_rot s a' b' (hv_quad_bits q).1 (hv_quad_bits q).2).2 := by omega
  have hv1 := @hv_rot_invol _ _ _ ((hv_quad_bits q).1) ((hv_quad_bits q).2) h1 h2
  have hv2 := @hv_rot_invol _ _ _ ((hv_quad_bits q).1) ((hv_quad_bits q).2) h1' h2'
  rw [e1, e2] at hv1
  exact (hv1.symm.trans hv2)

/-- The position map of the Hilbert loop is a bijection from `[0, 4^i)` onto
the `2^i × 2^i` grid. -/
theorem hv_hilbert_pos_bij :
    ∀ (i x y : Nat), x < 2 ^ i → y < 2 ^ i →
      ∃! d, d < 4 ^ i ∧ hv_pos d i = (x, y) := by
  intro i
  induction i with
  | zero =>
    intro x y hx hy
    have hx0 : x = 0 := by omega
    have hy0 : y = 0 := by omega
    subst hx0; subst hy0
    refine ⟨0, ⟨by omega, rfl⟩, ?_⟩
    rintro d ⟨hd, _⟩
    omega
  | succ i ih =>
    intro x y hx hy
    have hs : 0 < 2 ^ i := Nat.pos_pow_of_pos i (by omega)
    have hx2 : x / 2 ^ i < 2 := by
      rw [pow_succ] at hx
      exact Nat.div_lt_of_lt_mul (by omega)
    have hy2 : y / 2 ^ i < 2 := by
      rw [pow_succ] at hy
      exact Nat.div_lt_of_lt_mul (by omega)
    obtain ⟨q, hq4, hqb⟩ := hv_quad_bits_of_bits (x / 2 ^ i) hx2 (y / 2 ^ i) hy2
    have hxr : x - 2 ^ i * (x / 2 ^ i) < 2 ^ i := by
      have := Nat.mod_lt x hs
      have := Nat.div_add_mod x (2 ^ i)
      omega
    have hyr : y - 2 ^ i * (y / 2 ^ i) < 2 ^ i := by
      have := Nat.mod_lt y hs
      have := Nat.div_add_mod y (2 ^ i)
      omega
    set p0 := hv_rot (2 ^ i) (x - 2 ^ i * (x / 2 ^ i)) (y - 2 ^ i * (y / 2 ^ i))
      (hv_quad_bits q).1 (hv_quad_bits q).2 with hp0
    obtain ⟨hp01, hp02⟩ := @hv_rot_lt _ _ _ ((hv_quad_bits q).1)
      ((hv_quad_bits q).2) hs hxr hyr
    obtain ⟨r, ⟨hr4, hrpos⟩, hruniq⟩ := ih p0.1 p0.2 hp01 hp02
    have hxm : x / 2 ^ i * 2 ^ i ≤ x := Nat.div_mul_le_self x (2 ^ i)
    have hym : y / 2 ^ i * 2 ^ i ≤ y := Nat.div_mul_le_self y (2 ^ i)
    have hquad : hv_quad (2 ^ i) q (hv_pos r i) = (x, y) := by
      rw [hrpos]
      show (_ + 2 ^ i * (hv_quad_bits q).1, _ + 2 ^ i * (hv_quad_bits q).2) = (x, y)
      rw [hp0, hv_rot_invol hxr hyr, hqb]
      have e1 : x - 2 ^ i * (x / 2 ^ i) + 2 ^ i * (x / 2 ^ i) = x := by
        have h := hxm
        rw [Nat.mul_comm (x / 2 ^ i) (2 ^ i)] at h
        omega
      have e2 : y - 2 ^ i * (y / 2 ^ i) + 2 ^ i * (y / 2 ^ i) = y := by
        have h := hym
        rw [Nat.mul_comm (y / 2 ^ i) (2 ^ i)] at h
        omega
      rw [e1, e2]
    have h4pos : 0 < 4 ^ i := Nat.pos_pow_of_pos i (by omega)
    refine ⟨4 ^ i * q + r, ⟨?_, ?_⟩, ?_⟩
    · have hq3 : q ≤ 3 := by omega
      have : 4 ^ i * q + r < 4 ^ i * 4 := by
        have : 4 ^ i * q ≤ 4 ^ i * 3 := Nat.mul_le_mul_left _ hq3
        omega
      rw [pow_succ]
      omega
    · rw [hv_hilbert_loop_succ_pos]
      have hdiv : (4 ^ i * q + r) / 4 ^ i = q := by
        rw [Nat.mul_add_div h4pos, Nat.div_eq_of_lt hr4]
        omega
      have hmod : (4 ^ i * q + r) % 4 ^ i = r := by
        rw [Nat.mul_add_mod, Nat.mod_eq_of_lt hr4]
      rw [hdiv, Nat.mod_eq_of_lt hq4, hv_pos_mod, hmod, hquad]
    · rintro d' ⟨hd', hpos'⟩
      have hq' : d' / 4 ^ i < 4 := by
        apply Nat.div_lt_of_lt_mul
        rw [← pow_succ]
        exact hd'
      rw [hv_hilbert_loop_succ_pos] at hpos'
      rw [hv_pos_mod] at hpos'
      rw [Nat.mod_eq_of_lt hq'] at hpos'
      have hplt := hv_hilbert_loop_lt (d' % 4 ^ i) i
      have hqdiv := hv_quad_div hs (q := d' / 4 ^ i)
        (p := hv_pos (d' % 4 ^ i) i) hplt.1 hplt.2
      have hbits' : hv_quad_bits (d' / 4 ^ i) = (x / 2 ^ i, y / 2 ^ i) := by
        have hx' := hqdiv.1
        have hy' := hqdiv.2.1
        rw [hpos'] at hx' hy'
        simp only at hx' hy'
        exact Prod.ext hx'.symm hy'.symm
      have hqq : d' / 4 ^ i = q :=
        hv_quad_bits_inj _ hq' _ hq4 (hbits'.trans hqb.symm)
      rw [hqq] at hpos'
      have hpeq : hv_pos (d' % 4 ^ i) i = hv_pos r i := by
        apply hv_quad_inj hs hplt.1 hplt.2 _ _ (hpos'.trans hquad.symm)
        · rw [hrpos]; exact hp01
        · rw [hrpos]; exact hp02
      have hr' : d' % 4 ^ i = r := by
        apply hruniq
        exact ⟨Nat.mod_lt _ h4pos, hpeq.trans hrpos⟩
      have := Nat.div_add_mod d' (4 ^ i)
      rw [hqq, hr'] at this
      omega

theorem hv_hilbert_d2xy_eq_some_iff {o d x y : Nat} (h1 : 1 ≤ o) (h2 : o ≤ 16) :
    hv_hilbert_d2xy o d = some (x, y) ↔ d < 4 ^ o ∧ hv_pos d o = (x, y) := by
  have hstep : hv_hilbert_d2xy o d =
      if d ≥ 4 ^ o then none
      else some ((hv_hilbert_loop d o).1, (hv_hilbert_loop d o).2.1) := by
    unfold hv_hilbert_d2xy
    rw [hv_hilbert_side_for_order_eq h1 h2, hv_hilbert_capacity_for_order_eq h1 h2]
    rw [hv_pow_four_eq]
    rfl
  rw [hstep]
  constructor
  · intro h
    by_cases hge : d ≥ 4 ^ o
    · rw [if_pos hge] at h
      exact absurd h (by simp)
    · rw [if_neg hge] at h
      refine ⟨by omega, ?_⟩
      have hsome := Option.some_inj.mp h
      unfold hv_pos
      exact hsome
  · rintro ⟨hlt, hpos⟩
    rw [if_neg (by omega)]
    unfold hv_pos at hpos
    rw [hpos]

/-- For every supported order, `hv_hilbert_d2xy` hits every cell of the
`2^order × 2^order` grid exactly once. -/
theorem hv_hilbert_d2xy_bij {o : Nat} (h1 : 1 ≤ o) (h2 : o ≤ 16)
    {x y : Nat} (hx : x < 2 ^ o) (hy : y < 2 ^ o) :
    ∃! d, hv_hilbert_d2xy o d = some (x, y) := by
  obtain ⟨d, ⟨hd, hpos⟩, huniq⟩ := hv_hilbert_pos_bij o x y hx hy
  refine ⟨d, (hv_hilbert_d2xy_eq_some_iff h1 h2).mpr ⟨hd, hpos⟩, ?_⟩
  intro d' hd'
  exact huniq d' ((hv_hilbert_d2xy_eq_some_iff h1 h2).mp hd')

/-! ## The Gilbert engine is a bijection (C1, square case): arithmetic and
frame lemmas -/

theorem hv_i64_add_small {a b : Int} (ha1 : -(2 ^ 40) ≤ a) (ha2 : a ≤ 2 ^ 40)
    (hb1 : -(2 ^ 40) ≤ b) (hb2 : b ≤ 2 ^ 40) :
    hv_i64_add a b = some (a + b) := by
  unfold hv_i64_add I64max I64min
  rw [if_neg (by omega)]

theorem hv_i64_sub_small {a b : Int} (ha1 : -(2 ^ 40) ≤ a) (ha2 : a ≤ 2 ^ 40)
    (hb1 : -(2 ^ 40) ≤ b) (hb2 : b ≤ 2 ^ 40) :
    hv_i64_sub a b = some (a - b) := by
  unfold hv_i64_sub I64max I64min
  rw [if_neg (by omega)]

theorem hv_i64_neg_small {a : Int} (ha : -(2 ^ 40) ≤ a) :
    hv_i64_neg a = some (-a) := by
  unfold hv_i64_neg I64min
  rw [if_neg (by omega)]

theorem hv_u64_to_i64_small {n : Nat} (h : n ≤ 2 ^ 33) :
    hv_u64_to_i64 n = some (n : Int) := by
  unfold hv_u64_to_i64 I64max
  rw [if_neg (by omega)]

theorem hv_u64_add_small {a b : Nat} (h : a + b ≤ 2 ^ 40) :
    hv_u64_add a b = some (a + b) := by
  unfold hv_u64_add U64max
  rw [if_neg (by omega)]

theorem hv_i64_mul_unit {c t : Int} (hc : c = 1 ∨ c = -1 ∨ c = 0)
    (ht1 : -(2 ^ 40) ≤ t) (ht2 : t ≤ 2 ^ 40) :
    hv_i64_mul c t = some (c * t) := by
  unfold hv_i64_mul I64max I64min
  rcases hc with rfl | rfl | rfl <;> rw [if_neg (by omega)]

theorem hv_unit_vec_comp {v : Int × Int} (hu : hv_unit_vec v) :
    (v.1 = 1 ∨ v.1 = -1 ∨ v.1 = 0) ∧ (v.2 = 1 ∨ v.2 = -1 ∨ v.2 = 0) := by
  rcases hu with rfl | rfl | rfl | rfl <;> norm_num

theorem hv_unit_vec_neg {v : Int × Int} (hu : hv_unit_vec v) :
    hv_unit_vec (-v.1, -v.2) := by
  rcases hu with rfl | rfl | rfl | rfl <;> simp [hv_unit_vec]

theorem hv_mul_comp_bound {n : Nat} (hn : n ≤ 2 ^ 33) {c : Int}
    (hc : c = 1 ∨ c = -1 ∨ c = 0) :
    -(2 ^ 33) ≤ (n : Int) * c ∧ (n : Int) * c ≤ 2 ^ 33 := by
  rcases hc with rfl | rfl | rfl <;> constructor <;> omega

theorem hv_i64_add_frame {v : Int × Int} (hu : hv_unit_vec v) {n : Nat}
    (hn : n ≤ 2 ^ 33) :
    hv_i64_add ((n : Int) * v.1) ((n : Int) * v.2)
      = some ((n : Int) * v.1 + (n : Int) * v.2) := by
  obtain ⟨h1, h2⟩ := hv_unit_vec_comp hu
  obtain ⟨b1, b2⟩ := hv_mul_comp_bound hn h1
  obtain ⟨b3, b4⟩ := hv_mul_comp_bound hn h2
  exact hv_i64_add_small (by omega) (by omega) (by omega) (by omega)

theorem hv_i64_abs_pm {n : Nat} {s : Int} (hs : s = 1 ∨ s = -1)
    (hn : n ≤ 2 ^ 33) :
    hv_i64_abs_to_u64 ((n : Int) * s) = some n := by
  unfold hv_i64_abs_to_u64 I64min
  rcases hs with rfl | rfl
  · rw [if_pos (by omega)]
    congr 1
    omega
  · rcases Nat.eq_zero_or_pos n with rfl | hpos
    · norm_num
    · rw [if_neg (by omega), if_neg (by omega)]
      congr 1
      omega

theorem hv_i64_abs_frame {v : Int × Int} (hu : hv_unit_vec v) {n : Nat}
    (hn : n ≤ 2 ^ 33) :
    hv_i64_abs_to_u64 ((n : Int) * v.1 + (n : Int) * v.2) = some n := by
  obtain ⟨h1, h2⟩ := hv_unit_vec_comp hu
  have hsum : (v.1 = 1 ∨ v.1 = -1) ∧ v.2 = 0 ∨ v.1 = 0 ∧ (v.2 = 1 ∨ v.2 = -1) := by
    rcases hu with rfl | rfl | rfl | rfl <;> norm_num
  rcases hsum with ⟨hs, hz⟩ | ⟨hz, hs⟩
  · rw [hz, mul_zero, add_zero]
    exact hv_i64_abs_pm hs hn
  · rw [hz, mul_zero, zero_add]
    exact hv_i64_abs_pm hs hn

theorem hv_gilbert_dims_frame {ea eb : Int × Int} {w h : Nat}
    (hua : hv_unit_vec ea) (hub : hv_unit_vec eb)
    (hw : 1 ≤ w) (hh : 1 ≤ h) (hw33 : w ≤ 2 ^ 33) (hh33 : h ≤ 2 ^ 33) :
    hv_gilbert_dims ((w : Int) * ea.1) ((w : Int) * ea.2)
        ((h : Int) * eb.1) ((h : Int) * eb.2) = some (w, h) := by
  unfold hv_gilbert_dims
  rw [hv_i64_add_frame hua hw33, hv_i64_add_frame hub hh33]
  show (do
    let wn ← hv_i64_abs_to_u64 ((w : Int) * ea.1 + (w : Int) * ea.2)
    let hn ← hv_i64_abs_to_u64 ((h : Int) * eb.1 + (h : Int) * eb.2)
    if wn > 0 ∧ hn > 0 then some (wn, hn) else none) = some (w, h)
  rw [hv_i64_abs_frame hua hw33, hv_i64_abs_frame hub hh33]
  show (if w > 0 ∧ h > 0 then some (w, h) else none) = some (w, h)
  rw [if_pos ⟨by omega, by omega⟩]

theorem hv_gilbert_cell_count_frame {ea eb : Int × Int} {w h : Nat}
    (hua : hv_unit_vec ea) (hub : hv_unit_vec eb)
    (hw : 1 ≤ w) (hh : 1 ≤ h) (hw16 : w ≤ 2 ^ 16) (hh16 : h ≤ 2 ^ 16) :
    hv_gilbert_cell_count ((w : Int) * ea.1) ((w : Int) * ea.2)
        ((h : Int) * eb.1) ((h : Int) * eb.2) = some (w * h) := by
  unfold hv_gilbert_cell_count
  rw [hv_gilbert_dims_frame hua hub hw hh (by omega) (by omega)]
  show hv_u64_mul w h = some (w * h)
  exact hv_u64_mul_eq_some
    (le_trans (Nat.mul_le_mul hw16 hh16) (by norm_num [U64max]))

theorem hv_sign_frame {v : Int × Int} (hu : hv_unit_vec v) {n : Nat}
    (hn : 1 ≤ n) :
    hv_sign_i64 ((n : Int) * v.1) = v.1 ∧ hv_sign_i64 ((n : Int) * v.2) = v.2 := by
  unfold hv_sign_i64
  rcases hu with rfl | rfl | rfl | rfl <;> dsimp only <;>
    refine ⟨?_, ?_⟩ <;> (split <;> try split) <;> omega

theorem hv_floor_div2_frame {v : Int × Int} (hu : hv_unit_vec v) (n : Nat) :
    hv_floor_div2_i64 ((n : Int) * v.1) = (hv_half_len n v : Int) * v.1 ∧
    hv_floor_div2_i64 ((n : Int) * v.2) = (hv_half_len n v : Int) * v.2 := by
  unfold hv_floor_div2_i64 hv_half_len
  rcases hu with rfl | rfl | rfl | rfl <;> dsimp only <;>
    refine ⟨?_, ?_⟩ <;> split_ifs <;> omega

theorem hv_half_len_cases (n : Nat) (v : Int × Int) :
    hv_half_len n v = n / 2 ∨ hv_half_len n v = (n + 1) / 2 := by
  unfold hv_half_len
  split
  · exact Or.inl rfl
  · exact Or.inr rfl

theorem hv_pow2_even (k : Nat) : (2 : Nat) ^ k = 1 ∨ (2 : Nat) ^ k % 2 = 0 := by
  cases k with
  | zero => exact Or.inl rfl
  | succ n =>
    right
    rw [pow_succ]
    omega

theorem hv_halving {w hl P : Nat} (hw : 2 ≤ w) (hwp : w ≤ 2 * P)
    (hP : P = 1 ∨ P % 2 = 0) (hhl : hl = w / 2 ∨ hl = (w + 1) / 2) :
    (1 ≤ hl ∧ hl ≤ P ∧ hl + 1 ≤ w ∧ 1 ≤ w - hl ∧ w - hl ≤ P) ∧
    (1 ≤ hv_adj_len hl w ∧ hv_adj_len hl w ≤ P ∧ hv_adj_len hl w + 1 ≤ w ∧
     1 ≤ w - hv_adj_len hl w ∧ w - hv_adj_len hl w ≤ P) := by
  unfold hv_adj_len
  split <;> omega

theorem hv_cell_inj {x y : Int} {ea eb : Int × Int} (hua : hv_unit_vec ea)
    (hub : hv_unit_vec eb) (hperp : ea.1 * eb.1 + ea.2 * eb.2 = 0)
    {i j i' j' : Nat} (heq : hv_cell x y ea eb i j = hv_cell x y ea eb i' j') :
    i = i' ∧ j = j' := by
  unfold hv_cell at heq
  rw [Prod.mk.injEq] at heq
  obtain ⟨e1, e2⟩ := heq
  rcases hua with rfl | rfl | rfl | rfl <;> rcases hub with rfl | rfl | rfl | rfl <;>
    dsimp only at e1 e2 hperp <;> constructor <;> omega

theorem hv_cell_swap (x y : Int) (ea eb : Int × Int) (u v : Nat) :
    hv_cell x y eb ea u v = hv_cell x y ea eb v u := by
  unfold hv_cell
  refine Prod.ext ?_ ?_ <;> dsimp only <;> ring

theorem hv_cell_shift_a {x y : Int} {ea eb : Int × Int} (k i j : Nat) :
    hv_cell (x + (k : Int) * ea.1) (y + (k : Int) * ea.2) ea eb i j
      = hv_cell x y ea eb (k + i) j := by
  unfold hv_cell
  refine Prod.ext ?_ ?_ <;> dsimp only <;> push_cast <;> ring

theorem hv_cell_shift_b {x y : Int} {ea eb : Int × Int} (k i j : Nat) :
    hv_cell (x + (k : Int) * eb.1) (y + (k : Int) * eb.2) ea eb i j
      = hv_cell x y ea eb i (k + j) := by
  unfold hv_cell
  refine Prod.ext ?_ ?_ <;> dsimp only <;> push_cast <;> ring

theorem hv_cell_reflect {x y : Int} {ea eb : Int × Int} {w hlb u v : Nat}
    (hu : u + 1 ≤ hlb) (hv : v + 1 ≤ w) :
    hv_cell (x + ((w - 1 : Nat) : Int) * ea.1 + ((hlb - 1 : Nat) : Int) * eb.1)
            (y + ((w - 1 : Nat) : Int) * ea.2 + ((hlb - 1 : Nat) : Int) * eb.2)
            (-eb.1, -eb.2) (-ea.1, -ea.2) u v
      = hv_cell x y ea eb (w - 1 - v) (hlb - 1 - u) := by
  have c1 : ((w - 1 - v : Nat) : Int) = (w : Int) - 1 - v := by omega
  have c2 : ((hlb - 1 - u : Nat) : Int) = (hlb : Int) - 1 - u := by omega
  have c3 : ((w - 1 : Nat) : Int) = (w : Int) - 1 := by omega
  have c4 : ((hlb - 1 : Nat) : Int) = (hlb : Int) - 1 := by omega
  unfold hv_cell
  refine Prod.ext ?_ ?_ <;> dsimp only <;> rw [c1, c2, c3, c4] <;> ring

theorem hv_gilbert_walk_frame {x y : Int} {v : Int × Int} (hu : hv_unit_vec v)
    {d : Nat} (hd : d ≤ 2 ^ 33)
    (hx1 : -(2 ^ 33) ≤ x) (hx2 : x ≤ 2 ^ 33)
    (hy1 : -(2 ^ 33) ≤ y) (hy2 : y ≤ 2 ^ 33) :
    hv_gilbert_walk x y v.1 v.2 d
      = some (x + (d : Int) * v.1, y + (d : Int) * v.2) := by
  obtain ⟨h1, h2⟩ := hv_unit_vec_comp hu
  have hm1 : hv_i64_mul v.1 (d : Int) = some (v.1 * (d : Int)) :=
    hv_i64_mul_unit h1 (by omega) (by omega)
  have hm2 : hv_i64_mul v.2 (d : Int) = some (v.2 * (d : Int)) :=
    hv_i64_mul_unit h2 (by omega) (by omega)
  have hb1 : -(2 ^ 40) ≤ v.1 * (d : Int) ∧ v.1 * (d : Int) ≤ 2 ^ 40 := by
    rcases h1 with h | h | h <;> rw [h] <;> constructor <;> omega
  have hb2 : -(2 ^ 40) ≤ v.2 * (d : Int) ∧ v.2 * (d : Int) ≤ 2 ^ 40 := by
    rcases h2 with h | h | h <;> rw [h] <;> constructor <;> omega
  unfold hv_gilbert_walk
  rw [hv_u64_to_i64_small hd]
  show (do
    let x_delta ← hv_i64_mul v.1 (d : Int)
    let y_delta ← hv_i64_mul v.2 (d : Int)
    let xr ← hv_i64_add x x_delta
    let yr ← hv_i64_add y y_delta
    some (xr, yr)) = some (x + (d : Int) * v.1, y + (d : Int) * v.2)
  rw [hm1, hm2]
  show (do
    let xr ← hv_i64_add x (v.1 * (d : Int))
    let yr ← hv_i64_add y (v.2 * (d : Int))
    some (xr, yr)) = some (x + (d : Int) * v.1, y + (d : Int) * v.2)
  rw [hv_i64_add_small (by omega) (by omega) hb1.1 hb1.2,
      hv_i64_add_small (by omega) (by omega) hb2.1 hb2.2]
  refine congrArg some (Prod.ext ?_ ?_) <;> dsimp only <;> ring

theorem hv_gilbert_adjust_frame {v : Int × Int} (hu : hv_unit_vec v)
    {hl full : Nat} (hhl : hl ≤ 2 ^ 33) :
    hv_gilbert_adjust ((hl : Int) * v.1) ((hl : Int) * v.2) v.1 v.2 hl full
      = some ((hv_adj_len hl full : Int) * v.1,
              (hv_adj_len hl full : Int) * v.2) := by
  obtain ⟨h1, h2⟩ := hv_unit_vec_comp hu
  obtain ⟨b1, b2⟩ := hv_mul_comp_bound hhl h1
  obtain ⟨b3, b4⟩ := hv_mul_comp_bound hhl h2
  have c1 : -(2 ^ 40) ≤ v.1 ∧ v.1 ≤ 2 ^ 40 := by
    rcases h1 with h | h | h <;> rw [h] <;> constructor <;> omega
  have c2 : -(2 ^ 40) ≤ v.2 ∧ v.2 ≤ 2 ^ 40 := by
    rcases h2 with h | h | h <;> rw [h] <;> constructor <;> omega
  have d1 : hv_i64_add ((hl : Int) * v.1) v.1 = some ((hl : Int) * v.1 + v.1) :=
    hv_i64_add_small (by omega) (by omega) c1.1 c1.2
  have d2 : hv_i64_add ((hl : Int) * v.2) v.2 = some ((hl : Int) * v.2 + v.2) :=
    hv_i64_add_small (by omega) (by omega) c2.1 c2.2
  unfold hv_gilbert_adjust hv_adj_len
  by_cases hc : hl % 2 ≠ 0 ∧ full > 2
  · simp only [if_pos hc]
    rw [d1]
    show (do
      let vy' ← hv_i64_add ((hl : Int) * v.2) v.2
      some ((hl : Int) * v.1 + v.1, vy'))
        = some (((hl + 1 : Nat) : Int) * v.1, ((hl + 1 : Nat) : Int) * v.2)
    rw [d2]
    refine congrArg some (Prod.ext ?_ ?_) <;> dsimp only <;> push_cast <;> ring
  · simp only [if_neg hc]

theorem hv_gilbert_wide_second_frame {x y : Int} {v : Int × Int}
    (hu : hv_unit_vec v) {w hl : Nat} (hw : w ≤ 2 ^ 33) (hhl : hl ≤ w)
    (hx1 : -(2 ^ 33) ≤ x) (hx2 : x ≤ 2 ^ 33)
    (hy1 : -(2 ^ 33) ≤ y) (hy2 : y ≤ 2 ^ 33) :
    hv_gilbert_wide_second x y ((w : Int) * v.1) ((w : Int) * v.2)
        ((hl : Int) * v.1) ((hl : Int) * v.2)
      = some (x + (hl : Int) * v.1, y + (hl : Int) * v.2,
              ((w - hl : Nat) : Int) * v.1, ((w - hl : Nat) : Int) * v.2) := by
  obtain ⟨h1, h2⟩ := hv_unit_vec_comp hu
  obtain ⟨a1, a2⟩ := hv_mul_comp_bound (le_trans hhl hw) h1
  obtain ⟨a3, a4⟩ := hv_mul_comp_bound (le_trans hhl hw) h2
  obtain ⟨a5, a6⟩ := hv_mul_comp_bound hw h1
  obtain ⟨a7, a8⟩ := hv_mul_comp_bound hw h2
  have s1 : hv_i64_sub ((w : Int) * v.1) ((hl : Int) * v.1)
      = some ((w : Int) * v.1 - (hl : Int) * v.1) :=
    hv_i64_sub_small (by omega) (by omega) (by omega) (by omega)
  have s2 : hv_i64_sub ((w : Int) * v.2) ((hl : Int) * v.2)
      = some ((w : Int) * v.2 - (hl : Int) * v.2) :=
    hv_i64_sub_small (by omega) (by omega) (by omega) (by omega)
  unfold hv_gilbert_wide_second
  rw [hv_i64_add_small (by omega) (by omega) (by omega : -(2 ^ 40) ≤ (hl : Int) * v.1) (by omega)]
  show (do
    let y2 ← hv_i64_add y ((hl : Int) * v.2)
    let axr ← hv_i64_sub ((w : Int) * v.1) ((hl : Int) * v.1)
    let ayr ← hv_i64_sub ((w : Int) * v.2) ((hl : Int) * v.2)
    some (x + (hl : Int) * v.1, y2, axr, ayr)) = _
  rw [hv_i64_add_small (by omega) (by omega) (by omega : -(2 ^ 40) ≤ (hl : Int) * v.2) (by omega)]
  show (do
    let axr ← hv_i64_sub ((w : Int) * v.1) ((hl : Int) * v.1)
    let ayr ← hv_i64_sub ((w : Int) * v.2) ((hl : Int) * v.2)
    some (x + (hl : Int) * v.1, y + (hl : Int) * v.2, axr, ayr)) = _
  rw [s1, s2]
  have e : ((w - hl : Nat) : Int) = (w : Int) - (hl : Int) := by omega
  refine congrArg some ?_
  rw [e]
  refine Prod.ext ?_ (Prod.ext ?_ (Prod.ext ?_ ?_)) <;> dsimp only <;> ring

theorem hv_gilbert_tall_second_frame {x y : Int} {v : Int × Int}
    (hu : hv_unit_vec v) {h hl : Nat} (hh : h ≤ 2 ^ 33) (hhl : hl ≤ h)
    (hx1 : -(2 ^ 33) ≤ x) (hx2 : x ≤ 2 ^ 33)
    (hy1 : -(2 ^ 33) ≤ y) (hy2 : y ≤ 2 ^ 33) :
    hv_gilbert_tall_second x y ((h : Int) * v.1) ((h : Int) * v.2)
        ((hl : Int) * v.1) ((hl : Int) * v.2)
      = some (x + (hl : Int) * v.1, y + (hl : Int) * v.2,
              ((h - hl : Nat) : Int) * v.1, ((h - hl : Nat) : Int) * v.2) := by
  obtain ⟨h1, h2⟩ := hv_unit_vec_comp hu
  obtain ⟨a1, a2⟩ := hv_mul_comp_bound (le_trans hhl hh) h1
  obtain ⟨a3, a4⟩ := hv_mul_comp_bound (le_trans hhl hh) h2
  obtain ⟨a5, a6⟩ := hv_mul_comp_bound hh h1
  obtain ⟨a7, a8⟩ := hv_mul_comp_bound hh h2
  have s1 : hv_i64_sub ((h : Int) * v.1) ((hl : Int) * v.1)
      = some ((h : Int) * v.1 - (hl : Int) * v.1) :=
    hv_i64_sub_small (by omega) (by omega) (by omega) (by omega)
  have s2 : hv_i64_sub ((h : Int) * v.2) ((hl : Int) * v.2)
      = some ((h : Int) * v.2 - (hl : Int) * v.2) :=
    hv_i64_sub_small (by omega) (by omega) (by omega) (by omega)
  unfold hv_gilbert_tall_second
  rw [hv_i64_add_small (by omega) (by omega) (by omega : -(2 ^ 40) ≤ (hl : Int) * v.1) (by omega)]
  show (do
    let y2 ← hv_i64_add y ((hl : Int) * v.2)
    let bxr ← hv_i64_sub ((h : Int) * v.1) ((hl : Int) * v.1)
    let byr ← hv_i64_sub ((h : Int) * v.2) ((hl : Int) * v.2)
    some (x + (hl : Int) * v.1, y2, bxr, byr)) = _
  rw [hv_i64_add_small (by omega) (by omega) (by omega : -(2 ^ 40) ≤ (hl : Int) * v.2) (by omega)]
  show (do
    let bxr ← hv_i64_sub ((h : Int) * v.1) ((hl : Int) * v.1)
    let byr ← hv_i64_sub ((h : Int) * v.2) ((hl : Int) * v.2)
    some (x + (hl : Int) * v.1, y + (hl : Int) * v.2, bxr, byr)) = _
  rw [s1, s2]
  have e : ((h - hl : Nat) : Int) = (h : Int) - (hl : Int) := by omega
  refine congrArg some ?_
  rw [e]
  refine Prod.ext ?_ (Prod.ext ?_ (Prod.ext ?_ ?_)) <;> dsimp only <;> ring

theorem hv_gilbert_tall_counts_frame {ea eb : Int × Int}
    (hua : hv_unit_vec ea) (hub : hv_unit_vec eb)
    {w h hla hlb : Nat} (hw1 : 1 ≤ w) (hw16 : w ≤ 2 ^ 16) (hh16 : h ≤ 2 ^ 16)
    (hla1 : 1 ≤ hla) (hla16 : hla ≤ 2 ^ 16)
    (hlb1 : 1 ≤ hlb) (hlbh : hlb + 1 ≤ h) :
    hv_gilbert_tall_counts ((w : Int) * ea.1) ((w : Int) * ea.2)
        ((h : Int) * eb.1) ((h : Int) * eb.2)
        ((hla : Int) * ea.1) ((hla : Int) * ea.2)
        ((hlb : Int) * eb.1) ((hlb : Int) * eb.2)
      = some (hlb * hla, hlb * hla + w * (h - hlb)) := by
  obtain ⟨h1, h2⟩ := hv_unit_vec_comp hub
  obtain ⟨c1, c2⟩ := hv_mul_comp_bound (show h ≤ 2 ^ 33 by omega) h1
  obtain ⟨c3, c4⟩ := hv_mul_comp_bound (show h ≤ 2 ^ 33 by omega) h2
  obtain ⟨c5, c6⟩ := hv_mul_comp_bound (show hlb ≤ 2 ^ 33 by omega) h1
  obtain ⟨c7, c8⟩ := hv_mul_comp_bound (show hlb ≤ 2 ^ 33 by omega) h2
  have e1 : (h : Int) * eb.1 - (hlb : Int) * eb.1 = ((h - hlb : Nat) : Int) * eb.1 := by
    have e : ((h - hlb : Nat) : Int) = (h : Int) - (hlb : Int) := by omega
    rw [e]; ring
  have e2 : (h : Int) * eb.2 - (hlb : Int) * eb.2 = ((h - hlb : Nat) : Int) * eb.2 := by
    have e : ((h - hlb : Nat) : Int) = (h : Int) - (hlb : Int) := by omega
    rw [e]; ring
  have s1 : hv_i64_sub ((h : Int) * eb.1) ((hlb : Int) * eb.1)
      = some ((h : Int) * eb.1 - (hlb : Int) * eb.1) :=
    hv_i64_sub_small (by omega) (by omega) (by omega) (by omega)
  have s2 : hv_i64_sub ((h : Int) * eb.2) ((hlb : Int) * eb.2)
      = some ((h : Int) * eb.2 - (hlb : Int) * eb.2) :=
    hv_i64_sub_small (by omega) (by omega) (by omega) (by omega)
  unfold hv_gilbert_tall_counts
  rw [s1]
  show (do
    let by_rem ← hv_i64_sub ((h : Int) * eb.2) ((hlb : Int) * eb.2)
    let first_count ← hv_gilbert_cell_count ((hlb : Int) * eb.1) ((hlb : Int) * eb.2)
      ((hla : Int) * ea.1) ((hla : Int) * ea.2)
    let second_count ← hv_gilbert_cell_count ((w : Int) * ea.1) ((w : Int) * ea.2)
      ((h : Int) * eb.1 - (hlb : Int) * eb.1) by_rem
    let first_two ← hv_u64_add first_count second_count
    some (first_count, first_two)) = _
  rw [s2]
  show (do
    let first_count ← hv_gilbert_cell_count ((hlb : Int) * eb.1) ((hlb : Int) * eb.2)
      ((hla : Int) * ea.1) ((hla : Int) * ea.2)
    let second_count ← hv_gilbert_cell_count ((w : Int) * ea.1) ((w : Int) * ea.2)
      ((h : Int) * eb.1 - (hlb : Int) * eb.1) ((h : Int) * eb.2 - (hlb : Int) * eb.2)
    let first_two ← hv_u64_add first_count second_count
    some (first_count, first_two)) = _
  rw [e1, e2]
  rw [hv_gilbert_cell_count_frame hub hua hlb1 hla1 (by omega) hla16]
  show (do
    let second_count ← hv_gilbert_cell_count ((w : Int) * ea.1) ((w : Int) * ea.2)
      (((h - hlb : Nat) : Int) * eb.1) (((h - hlb : Nat) : Int) * eb.2)
    let first_two ← hv_u64_add (hlb * hla) second_count
    some (hlb * hla, first_two)) = _
  rw [hv_gilbert_cell_count_frame hua hub hw1 (by omega) hw16 (by omega)]
  show (do
    let first_two ← hv_u64_add (hlb * hla) (w * (h - hlb))
    some (hlb * hla, first_two)) = _
  have m1 : hlb * hla ≤ 2 ^ 16 * 2 ^ 16 := Nat.mul_le_mul (by omega) hla16
  have m2 : w * (h - hlb) ≤ 2 ^ 16 * 2 ^ 16 := Nat.mul_le_mul hw16 (by omega)
  rw [hv_u64_add_small (by omega)]
  show some (hlb * hla, hlb * hla + w * (h - hlb))
      = some (hlb * hla, hlb * hla + w * (h - hlb))
  rfl

theorem hv_gilbert_tall_third_frame {x y : Int} {ea eb : Int × Int}
    (hua : hv_unit_vec ea) (hub : hv_unit_vec eb)
    {w hla hlb : Nat} (hw1 : 1 ≤ w) (hw : w ≤ 2 ^ 16) (hlaw : hla ≤ w)
    (hlb1 : 1 ≤ hlb) (hlb16 : hlb ≤ 2 ^ 16)
    (hx1 : -(2 ^ 33) ≤ x) (hx2 : x ≤ 2 ^ 33)
    (hy1 : -(2 ^ 33) ≤ y) (hy2 : y ≤ 2 ^ 33) :
    hv_gilbert_tall_third x y ((w : Int) * ea.1) ((w : Int) * ea.2)
        ((hla : Int) * ea.1) ((hla : Int) * ea.2)
        ((hlb : Int) * eb.1) ((hlb : Int) * eb.2) ea.1 ea.2 eb.1 eb.2
      = some (x + ((w - 1 : Nat) : Int) * ea.1 + ((hlb - 1 : Nat) : Int) * eb.1,
              y + ((w - 1 : Nat) : Int) * ea.2 + ((hlb - 1 : Nat) : Int) * eb.2,
              (hlb : Int) * (-eb.1), (hlb : Int) * (-eb.2),
              ((w - hla : Nat) : Int) * (-ea.1), ((w - hla : Nat) : Int) * (-ea.2)) := by
  obtain ⟨p1, p2⟩ := hv_unit_vec_comp hua
  obtain ⟨q1, q2⟩ := hv_unit_vec_comp hub
  have ba1 : -(1 : Int) ≤ ea.1 ∧ ea.1 ≤ 1 := by
    rcases p1 with h | h | h <;> rw [h] <;> constructor <;> omega
  have ba2 : -(1 : Int) ≤ ea.2 ∧ ea.2 ≤ 1 := by
    rcases p2 with h | h | h <;> rw [h] <;> constructor <;> omega
  have bb1 : -(1 : Int) ≤ eb.1 ∧ eb.1 ≤ 1 := by
    rcases q1 with h | h | h <;> rw [h] <;> constructor <;> omega
  have bb2 : -(1 : Int) ≤ eb.2 ∧ eb.2 ≤ 1 := by
    rcases q2 with h | h | h <;> rw [h] <;> constructor <;> omega
  obtain ⟨wa1, wa2⟩ := hv_mul_comp_bound (show w ≤ 2 ^ 33 by omega) p1
  obtain ⟨wa3, wa4⟩ := hv_mul_comp_bound (show w ≤ 2 ^ 33 by omega) p2
  obtain ⟨la1, la2⟩ := hv_mul_comp_bound (show hla ≤ 2 ^ 33 by omega) p1
  obtain ⟨la3, la4⟩ := hv_mul_comp_bound (show hla ≤ 2 ^ 33 by omega) p2
  obtain ⟨lb1, lb2⟩ := hv_mul_comp_bound (show hlb ≤ 2 ^ 33 by omega) q1
  obtain ⟨lb3, lb4⟩ := hv_mul_comp_bound (show hlb ≤ 2 ^ 33 by omega) q2
  have hn1 : hv_i64_neg ea.1 = some (-ea.1) := hv_i64_neg_small (by omega)
  have hn2 : hv_i64_neg ea.2 = some (-ea.2) := hv_i64_neg_small (by omega)
  have hn3 : hv_i64_neg eb.1 = some (-eb.1) := hv_i64_neg_small (by omega)
  have hn4 : hv_i64_neg eb.2 = some (-eb.2) := hv_i64_neg_small (by omega)
  have ha1 : hv_i64_add ((w : Int) * ea.1) (-ea.1)
      = some ((w : Int) * ea.1 + -ea.1) :=
    hv_i64_add_small (by omega) (by omega) (by omega) (by omega)
  have ha2 : hv_i64_add ((w : Int) * ea.2) (-ea.2)
      = some ((w : Int) * ea.2 + -ea.2) :=
    hv_i64_add_small (by omega) (by omega) (by omega) (by omega)
  have ha3 : hv_i64_add ((hlb : Int) * eb.1) (-eb.1)
      = some ((hlb : Int) * eb.1 + -eb.1) :=
    hv_i64_add_small (by omega) (by omega) (by omega) (by omega)
  have ha4 : hv_i64_add ((hlb : Int) * eb.2) (-eb.2)
      = some ((hlb : Int) * eb.2 + -eb.2) :=
    hv_i64_add_small (by omega) (by omega) (by omega) (by omega)
  have ha5 : hv_i64_add x ((w : Int) * ea.1 + -ea.1)
      = some (x + ((w : Int) * ea.1 + -ea.1)) :=
    hv_i64_add_small (by omega) (by omega) (by omega) (by omega)
  have ha6 : hv_i64_add y ((w : Int) * ea.2 + -ea.2)
      = some (y + ((w : Int) * ea.2 + -ea.2)) :=
    hv_i64_add_small (by omega) (by omega) (by omega) (by omega)
  have ha7 : hv_i64_add (x + ((w : Int) * ea.1 + -ea.1)) ((hlb : Int) * eb.1 + -eb.1)
      = some (x + ((w : Int) * ea.1 + -ea.1) + ((hlb : Int) * eb.1 + -eb.1)) :=
    hv_i64_add_small (by omega) (by omega) (by omega) (by omega)
  have ha8 : hv_i64_add (y + ((w : Int) * ea.2 + -ea.2)) ((hlb : Int) * eb.2 + -eb.2)
      = some (y + ((w : Int) * ea.2 + -ea.2) + ((hlb : Int) * eb.2 + -eb.2)) :=
    hv_i64_add_small (by omega) (by omega) (by omega) (by omega)
  have hn5 : hv_i64_neg ((hlb : Int) * eb.1) = some (-((hlb : Int) * eb.1)) :=
    hv_i64_neg_small (by omega)
  have hn6 : hv_i64_neg ((hlb : Int) * eb.2) = some (-((hlb : Int) * eb.2)) :=
    hv_i64_neg_small (by omega)
  have hs1 : hv_i64_sub ((w : Int) * ea.1) ((hla : Int) * ea.1)
      = some ((w : Int) * ea.1 - (hla : Int) * ea.1) :=
    hv_i64_sub_small (by omega) (by omega) (by omega) (by omega)
  have hs2 : hv_i64_sub ((w : Int) * ea.2) ((hla : Int) * ea.2)
      = some ((w : Int) * ea.2 - (hla : Int) * ea.2) :=
    hv_i64_sub_small (by omega) (by omega) (by omega) (by omega)
  have hn7 : hv_i64_neg ((w : Int) * ea.1 - (hla : Int) * ea.1)
      = some (-((w : Int) * ea.1 - (hla : Int) * ea.1)) :=
    hv_i64_neg_small (by omega)
  have hn8 : hv_i64_neg ((w : Int) * ea.2 - (hla : Int) * ea.2)
      = some (-((w : Int) * ea.2 - (hla : Int) * ea.2)) :=
    hv_i64_neg_small (by omega)
  unfold hv_gilbert_tall_third
  simp only [hn1, hn2, hn3, hn4, ha1, ha2, ha3, ha4, ha5, ha6, ha7, ha8,
    hn5, hn6, hs1, hs2, hn7, hn8]
  have cw : ((w - 1 : Nat) : Int) = (w : Int) - 1 := by omega
  have cb : ((hlb - 1 : Nat) : Int) = (hlb : Int) - 1 := by omega
  have ca : ((w - hla : Nat) : Int) = (w : Int) - (hla : Int) := by omega
  rw [cw, cb, ca]
  refine congrArg some ?_
  refine Prod.ext ?_ (Prod.ext ?_ (Prod.ext ?_ (Prod.ext ?_ (Prod.ext ?_ ?_)))) <;>
    dsimp only <;> ring

theorem hv_split_len_bounds {w : Nat} (e : Int × Int) (hw : 2 ≤ w) :
    1 ≤ hv_split_len w e ∧ hv_split_len w e + 1 ≤ w := by
  unfold hv_split_len hv_adj_len
  rcases hv_half_len_cases w e with h | h <;> rw [h] <;> split <;> omega

theorem hv_half_len_le {w : Nat} (e : Int × Int) (hw : 2 ≤ w) :
    1 ≤ hv_half_len w e ∧ hv_half_len w e + 1 ≤ w := by
  rcases hv_half_len_cases w e with h | h <;> omega

theorem hv_gilbert_rec_succ_frame {fuel : Nat} {x y : Int} {ea eb : Int × Int}
    {w h d depth maxd : Nat}
    (hua : hv_unit_vec ea) (hub : hv_unit_vec eb)
    (hw1 : 1 ≤ w) (hh1 : 1 ≤ h) (hw16 : w ≤ 2 ^ 16) (hh16 : h ≤ 2 ^ 16)
    (hdep : depth ≤ maxd) (hd : d < w * h)
    (hx1 : -(2 ^ 33) ≤ x) (hx2 : x ≤ 2 ^ 33)
    (hy1 : -(2 ^ 33) ≤ y) (hy2 : y ≤ 2 ^ 33) :
    hv_gilbert_rec (fuel + 1) x y ((w : Int) * ea.1) ((w : Int) * ea.2)
        ((h : Int) * eb.1) ((h : Int) * eb.2) d depth maxd
      = if h = 1 then some (x + (d : Int) * ea.1, y + (d : Int) * ea.2)
        else if w = 1 then some (x + (d : Int) * eb.1, y + (d : Int) * eb.2)
        else if 2 * w > 3 * h then
          (if d < hv_split_len w ea * h then
            hv_gilbert_rec fuel x y ((hv_split_len w ea : Int) * ea.1)
              ((hv_split_len w ea : Int) * ea.2)
              ((h : Int) * eb.1) ((h : Int) * eb.2) d (depth + 1) maxd
          else
            hv_gilbert_rec fuel (x + (hv_split_len w ea : Int) * ea.1)
              (y + (hv_split_len w ea : Int) * ea.2)
              (((w - hv_split_len w ea : Nat) : Int) * ea.1)
              (((w - hv_split_len w ea : Nat) : Int) * ea.2)
              ((h : Int) * eb.1) ((h : Int) * eb.2)
              (d - hv_split_len w ea * h) (depth + 1) maxd)
        else
          (if d < hv_split_len h eb * hv_half_len w ea then
            hv_gilbert_rec fuel x y ((hv_split_len h eb : Int) * eb.1)
              ((hv_split_len h eb : Int) * eb.2)
              ((hv_half_len w ea : Int) * ea.1) ((hv_half_len w ea : Int) * ea.2)
              d (depth + 1) maxd
          else if d < hv_split_len h eb * hv_half_len w ea
              + w * (h - hv_split_len h eb) then
            hv_gilbert_rec fuel (x + (hv_split_len h eb : Int) * eb.1)
              (y + (hv_split_len h eb : Int) * eb.2)
              ((w : Int) * ea.1) ((w : Int) * ea.2)
              (((h - hv_split_len h eb : Nat) : Int) * eb.1)
              (((h - hv_split_len h eb : Nat) : Int) * eb.2)
              (d - hv_split_len h eb * hv_half_len w ea) (depth + 1) maxd
          else
            hv_gilbert_rec fuel
              (x + ((w - 1 : Nat) : Int) * ea.1
                 + ((hv_split_len h eb - 1 : Nat) : Int) * eb.1)
              (y + ((w - 1 : Nat) : Int) * ea.2
                 + ((hv_split_len h eb - 1 : Nat) : Int) * eb.2)
              ((hv_split_len h eb : Int) * (-eb.1)) ((hv_split_len h eb : Int) * (-eb.2))
              (((w - hv_half_len w ea : Nat) : Int) * (-ea.1))
              (((w - hv_half_len w ea : Nat) : Int) * (-ea.2))
              (d - (hv_split_len h eb * hv_half_len w ea
                 + w * (h - hv_split_len h eb)))
              (depth + 1) maxd) := by
  have hwh : w * h ≤ 2 ^ 32 := by
    have := Nat.mul_le_mul hw16 hh16
    omega
  have hdims : hv_gilbert_dims ((w : Int) * ea.1) ((w : Int) * ea.2)
      ((h : Int) * eb.1) ((h : Int) * eb.2) = some (w, h) :=
    hv_gilbert_dims_frame hua hub hw1 hh1 (by omega) (by omega)
  have hmul : hv_u64_mul w h = some (w * h) :=
    hv_u64_mul_eq_some (by simp only [U64max]; omega)
  obtain ⟨hsa1, hsa2⟩ := hv_sign_frame hua hw1
  obtain ⟨hsb1, hsb2⟩ := hv_sign_frame hub hh1
  obtain ⟨hfa1, hfa2⟩ := hv_floor_div2_frame hua w
  obtain ⟨hfb1, hfb2⟩ := hv_floor_div2_frame hub h
  simp only [hv_gilbert_rec]
  rw [if_neg (by omega : ¬ depth > maxd)]
  simp only [hdims, hmul]
  rw [if_neg (by omega : ¬ d ≥ w * h)]
  by_cases hone : h = 1
  · simp only [if_pos hone, hsa1, hsa2]
    rw [hv_gilbert_walk_frame hua (by omega) hx1 hx2 hy1 hy2]
  · simp only [if_neg hone]
    by_cases wone : w = 1
    · simp only [if_pos wone, hsb1, hsb2]
      rw [hv_gilbert_walk_frame hub (by omega) hx1 hx2 hy1 hy2]
    · simp only [if_neg wone]
      have hw2 : 2 ≤ w := by omega
      have hh2 : 2 ≤ h := by omega
      obtain ⟨hla1, hlaw⟩ := hv_half_len_le ea hw2
      obtain ⟨hlb1, hlbh⟩ := hv_half_len_le eb hh2
      obtain ⟨hsla1, hslaw⟩ := hv_split_len_bounds ea hw2
      obtain ⟨hslb1, hslbh⟩ := hv_split_len_bounds eb hh2
      simp only [hsa1, hsa2, hsb1, hsb2, hfa1, hfa2, hfb1, hfb2]
      have hdims2 : hv_gilbert_dims ((hv_half_len w ea : Int) * ea.1)
          ((hv_half_len w ea : Int) * ea.2) ((hv_half_len h eb : Int) * eb.1)
          ((hv_half_len h eb : Int) * eb.2)
            = some (hv_half_len w ea, hv_half_len h eb) :=
        hv_gilbert_dims_frame hua hub hla1 hlb1 (by omega) (by omega)
      simp only [hdims2]
      by_cases hwide : 2 * w > 3 * h
      · simp only [if_pos hwide]
        unfold hv_gilbert_split_wide
        have hadj : hv_gilbert_adjust ((hv_half_len w ea : Int) * ea.1)
            ((hv_half_len w ea : Int) * ea.2) ea.1 ea.2 (hv_half_len w ea) w
              = some ((hv_split_len w ea : Int) * ea.1,
                      (hv_split_len w ea : Int) * ea.2) :=
          hv_gilbert_adjust_frame hua (by omega)
        have hcc : hv_gilbert_cell_count ((hv_split_len w ea : Int) * ea.1)
            ((hv_split_len w ea : Int) * ea.2) ((h : Int) * eb.1) ((h : Int) * eb.2)
              = some (hv_split_len w ea * h) :=
          hv_gilbert_cell_count_frame hua hub hsla1 hh1 (by omega) hh16
        simp only [hadj, hcc]
        by_cases hfirst : d < hv_split_len w ea * h
        · simp only [if_pos hfirst]
        · simp only [if_neg hfirst]
          have hws : hv_gilbert_wide_second x y ((w : Int) * ea.1) ((w : Int) * ea.2)
              ((hv_split_len w ea : Int) * ea.1) ((hv_split_len w ea : Int) * ea.2)
                = some (x + (hv_split_len w ea : Int) * ea.1,
                        y + (hv_split_len w ea : Int) * ea.2,
                        ((w - hv_split_len w ea : Nat) : Int) * ea.1,
                        ((w - hv_split_len w ea : Nat) : Int) * ea.2) :=
            hv_gilbert_wide_second_frame hua (by omega) (by omega) hx1 hx2 hy1 hy2
          simp only [hws]
      · simp only [if_neg hwide]
        unfold hv_gilbert_split_tall
        have hadj : hv_gilbert_adjust ((hv_half_len h eb : Int) * eb.1)
            ((hv_half_len h eb : Int) * eb.2) eb.1 eb.2 (hv_half_len h eb) h
              = some ((hv_split_len h eb : Int) * eb.1,
                      (hv_split_len h eb : Int) * eb.2) :=
          hv_gilbert_adjust_frame hub (by omega)
        have hcounts : hv_gilbert_tall_counts ((w : Int) * ea.1) ((w : Int) * ea.2)
            ((h : Int) * eb.1) ((h : Int) * eb.2)
            ((hv_half_len w ea : Int) * ea.1) ((hv_half_len w ea : Int) * ea.2)
            ((hv_split_len h eb : Int) * eb.1) ((hv_split_len h eb : Int) * eb.2)
              = some (hv_split_len h eb * hv_half_len w ea,
                      hv_split_len h eb * hv_half_len w ea
                        + w * (h - hv_split_len h eb)) :=
          hv_gilbert_tall_counts_frame hua hub hw1 hw16 hh16 hla1 (by omega)
            hslb1 hslbh
        simp only [hadj, hcounts]
        by_cases hfirst : d < hv_split_len h eb * hv_half_len w ea
        · simp only [if_pos hfirst]
        · simp only [if_neg hfirst]
          by_cases hsecond : d < hv_split_len h eb * hv_half_len w ea
              + w * (h - hv_split_len h eb)
          · simp only [if_pos hsecond]
            have hts : hv_gilbert_tall_second x y ((h : Int) * eb.1)
                ((h : Int) * eb.2)
                ((hv_split_len h eb : Int) * eb.1) ((hv_split_len h eb : Int) * eb.2)
                  = some (x + (hv_split_len h eb : Int) * eb.1,
                          y + (hv_split_len h eb : Int) * eb.2,
                          ((h - hv_split_len h eb : Nat) : Int) * eb.1,
                          ((h - hv_split_len h eb : Nat) : Int) * eb.2) :=
              hv_gilbert_tall_second_frame hub (by omega) (by omega) hx1 hx2 hy1 hy2
            simp only [hts]
          · simp only [if_neg hsecond]
            have htt : hv_gilbert_tall_third x y ((w : Int) * ea.1) ((w : Int) * ea.2)
                ((hv_half_len w ea : Int) * ea.1) ((hv_half_len w ea : Int) * ea.2)
                ((hv_split_len h eb : Int) * eb.1) ((hv_split_len h eb : Int) * eb.2)
                ea.1 ea.2 eb.1 eb.2
                  = some (x + ((w - 1 : Nat) : Int) * ea.1
                            + ((hv_split_len h eb - 1 : Nat) : Int) * eb.1,
                          y + ((w - 1 : Nat) : Int) * ea.2
                            + ((hv_split_len h eb - 1 : Nat) : Int) * eb.2,
                          (hv_split_len h eb : Int) * (-eb.1),
                          (hv_split_len h eb : Int) * (-eb.2),
                          ((w - hv_half_len w ea : Nat) : Int) * (-ea.1),
                          ((w - hv_half_len w ea : Nat) : Int) * (-ea.2)) :=
              hv_gilbert_tall_third_frame hua hub hw1 hw16 (by omega) hslb1
                (by omega) hx1 hx2 hy1 hy2
            simp only [htt]

theorem hv_cell_along_a (x y : Int) (ea eb : Int × Int) (d : Nat) :
    (x + (d : Int) * ea.1, y + (d : Int) * ea.2) = hv_cell x y ea eb d 0 := by
  unfold hv_cell
  refine Prod.ext ?_ ?_ <;> dsimp only <;> push_cast <;> ring

theorem hv_cell_along_b (x y : Int) (ea eb : Int × Int) (d : Nat) :
    (x + (d : Int) * eb.1, y + (d : Int) * eb.2) = hv_cell x y ea eb 0 d := by
  unfold hv_cell
  refine Prod.ext ?_ ?_ <;> dsimp only <;> push_cast <;> ring

theorem hv_pow_pos_exp {w p : Nat} (h2 : 2 ≤ w) (hle : w ≤ 2 ^ p) :
    1 ≤ p ∧ w ≤ 2 * 2 ^ (p - 1) ∧ (2 ^ (p - 1) = 1 ∨ 2 ^ (p - 1) % 2 = 0) := by
  rcases Nat.eq_zero_or_pos p with rfl | hp
  · norm_num at hle
    omega
  · refine ⟨hp, ?_, hv_pow2_even (p - 1)⟩
    have he : 2 * 2 ^ (p - 1) = 2 ^ p := by
      rw [← pow_succ']
      congr 1
      omega
    omega

theorem hv_gilbert_rec_total :
    ∀ fuel p q : Nat, ∀ x y : Int, ∀ ea eb : Int × Int,
    ∀ w h depth maxd : Nat,
      hv_unit_vec ea → hv_unit_vec eb → ea.1 * eb.1 + ea.2 * eb.2 = 0 →
      1 ≤ w → 1 ≤ h → w ≤ 2 ^ 16 → h ≤ 2 ^ 16 →
      w ≤ 2 ^ p → h ≤ 2 ^ q → p + q < fuel → depth + p + q ≤ maxd →
      (∀ i < w, ∀ j < h, hv_in_box (hv_cell x y ea eb i j)) →
      ∀ d < w * h, ∃ i j, i < w ∧ j < h ∧
        hv_gilbert_rec fuel x y ((w : Int) * ea.1) ((w : Int) * ea.2)
          ((h : Int) * eb.1) ((h : Int) * eb.2) d depth maxd
          = some (hv_cell x y ea eb i j) := by
  intro fuel
  induction fuel with
  | zero =>
    intro p q x y ea eb w h depth maxd _ _ _ _ _ _ _ _ _ hfuel _ _ d _
    omega
  | succ fuel ih =>
    intro p q x y ea eb w h depth maxd hua hub hperp hw1 hh1 hw16 hh16
      hwp hhq hfuel hdep hbox d hd
    have hb00 := hbox 0 (by omega) 0 (by omega)
    simp only [hv_in_box, hv_cell, Nat.cast_zero, zero_mul, add_zero] at hb00
    rw [hv_gilbert_rec_succ_frame hua hub hw1 hh1 hw16 hh16 (by omega) hd
      (by omega) (by omega) (by omega) (by omega)]
    by_cases hone : h = 1
    · simp only [if_pos hone]
      have hwh1 : w * h = w := by rw [hone, Nat.mul_one]
      exact ⟨d, 0, by omega, by omega, congrArg some (hv_cell_along_a x y ea eb d)⟩
    · simp only [if_neg hone]
      by_cases wone : w = 1
      · simp only [if_pos wone]
        have hwh1 : w * h = h := by rw [wone, Nat.one_mul]
        exact ⟨0, d, by omega, by omega, congrArg some (hv_cell_along_b x y ea eb d)⟩
      · simp only [if_neg wone]
        have hw2 : 2 ≤ w := by omega
        have hh2 : 2 ≤ h := by omega
        obtain ⟨hp1, hwP, hPev⟩ := hv_pow_pos_exp hw2 hwp
        obtain ⟨hq1, hhQ, hQev⟩ := hv_pow_pos_exp hh2 hhq
        have hhalfW := hv_halving hw2 hwP hPev (hv_half_len_cases w ea)
        have hhalfH := hv_halving hh2 hhQ hQev (hv_half_len_cases h eb)
        have hseW : hv_split_len w ea = hv_adj_len (hv_half_len w ea) w := rfl
        have hseH : hv_split_len h eb = hv_adj_len (hv_half_len h eb) h := rfl
        by_cases hwide : 2 * w > 3 * h
        · simp only [if_pos hwide]
          by_cases hfirst : d < hv_split_len w ea * h
          · simp only [if_pos hfirst]
            obtain ⟨i, j, hi, hj, hrec⟩ := ih (p - 1) q x y ea eb
              (hv_split_len w ea) h (depth + 1) maxd hua hub hperp
              (by omega) hh1 (by omega) hh16 (by omega) hhq (by omega) (by omega)
              (fun i hi j hj => hbox i (by omega) j hj) d hfirst
            exact ⟨i, j, by omega, hj, hrec⟩
          · simp only [if_neg hfirst]
            have hE : hv_split_len w ea * h + (w - hv_split_len w ea) * h = w * h := by
              rw [← Nat.add_mul]
              congr 1
              omega
            obtain ⟨i, j, hi, hj, hrec⟩ := ih (p - 1) q
              (x + (hv_split_len w ea : Int) * ea.1)
              (y + (hv_split_len w ea : Int) * ea.2) ea eb
              (w - hv_split_len w ea) h (depth + 1) maxd hua hub hperp
              (by omega) hh1 (by omega) hh16 (by omega) hhq (by omega) (by omega)
              (fun i hi j hj => by
                rw [hv_cell_shift_a]
                exact hbox (hv_split_len w ea + i) (by omega) j hj)
              (d - hv_split_len w ea * h) (by omega)
            rw [hv_cell_shift_a] at hrec
            exact ⟨hv_split_len w ea + i, j, by omega, hj, hrec⟩
        · simp only [if_neg hwide]
          have hperp' : eb.1 * ea.1 + eb.2 * ea.2 = 0 := by
            rw [mul_comm eb.1 ea.1, mul_comm eb.2 ea.2]
            exact hperp
          by_cases hfirst : d < hv_split_len h eb * hv_half_len w ea
          · simp only [if_pos hfirst]
            obtain ⟨u, v, hu, hv', hrec⟩ := ih (q - 1) (p - 1) x y eb ea
              (hv_split_len h eb) (hv_half_len w ea) (depth + 1) maxd hub hua hperp'
              (by omega) (by omega) (by omega) (by omega) (by omega) (by omega)
              (by omega) (by omega)
              (fun u hu v hv' => by
                rw [hv_cell_swap]
                exact hbox v (by omega) u (by omega)) d hfirst
            rw [hv_cell_swap] at hrec
            exact ⟨v, u, by omega, by omega, hrec⟩
          · simp only [if_neg hfirst]
            by_cases hsecond : d < hv_split_len h eb * hv_half_len w ea
                + w * (h - hv_split_len h eb)
            · simp only [if_pos hsecond]
              obtain ⟨i, j, hi, hj, hrec⟩ := ih p (q - 1)
                (x + (hv_split_len h eb : Int) * eb.1)
                (y + (hv_split_len h eb : Int) * eb.2) ea eb
                w (h - hv_split_len h eb) (depth + 1) maxd hua hub hperp
                hw1 (by omega) hw16 (by omega) hwp (by omega) (by omega) (by omega)
                (fun i hi j hj => by
                  rw [hv_cell_shift_b]
                  exact hbox i hi (hv_split_len h eb + j) (by omega))
                (d - hv_split_len h eb * hv_half_len w ea) (by omega)
              rw [hv_cell_shift_b] at hrec
              exact ⟨i, hv_split_len h eb + j, hi, by omega, hrec⟩
            · simp only [if_neg hsecond]
              have hm1 : hv_split_len h eb * hv_half_len w ea
                  + hv_split_len h eb * (w - hv_half_len w ea)
                    = hv_split_len h eb * w := by
                rw [← Nat.mul_add]
                congr 1
                omega
              have hm2 : w * (h - hv_split_len h eb) + w * hv_split_len h eb
                  = w * h := by
                rw [← Nat.mul_add]
                congr 1
                omega
              have hm3 : hv_split_len h eb * w = w * hv_split_len h eb :=
                Nat.mul_comm _ _
              have hperp3 : (-eb.1, -eb.2).1 * (-ea.1, -ea.2).1
                  + (-eb.1, -eb.2).2 * (-ea.1, -ea.2).2 = 0 := by
                dsimp only
                rw [neg_mul_neg, neg_mul_neg, mul_comm eb.1 ea.1, mul_comm eb.2 ea.2]
                exact hperp
              obtain ⟨u, v, hu, hv', hrec⟩ := ih (q - 1) (p - 1)
                (x + ((w - 1 : Nat) : Int) * ea.1
                  + ((hv_split_len h eb - 1 : Nat) : Int) * eb.1)
                (y + ((w - 1 : Nat) : Int) * ea.2
                  + ((hv_split_len h eb - 1 : Nat) : Int) * eb.2)
                (-eb.1, -eb.2) (-ea.1, -ea.2)
                (hv_split_len h eb) (w - hv_half_len w ea) (depth + 1) maxd
                (hv_unit_vec_neg hub) (hv_unit_vec_neg hua) hperp3
                (by omega) (by omega) (by omega) (by omega) (by omega) (by omega)
                (by omega) (by omega)
                (fun u hu v hv' => by
                  rw [hv_cell_reflect (by omega) (by omega)]
                  exact hbox (w - 1 - v) (by omega) (hv_split_len h eb - 1 - u)
                    (by omega))
                (d - (hv_split_len h eb * hv_half_len w ea
                  + w * (h - hv_split_len h eb))) (by omega)
              rw [hv_cell_reflect (by omega) (by omega)] at hrec
              exact ⟨w - 1 - v, hv_split_len h eb - 1 - u, by omega, by omega, hrec⟩

theorem hv_gilbert_rec_surj :
    ∀ fuel p q : Nat, ∀ x y : Int, ∀ ea eb : Int × Int,
    ∀ w h depth maxd : Nat,
      hv_unit_vec ea → hv_unit_vec eb → ea.1 * eb.1 + ea.2 * eb.2 = 0 →
      1 ≤ w → 1 ≤ h → w ≤ 2 ^ 16 → h ≤ 2 ^ 16 →
      w ≤ 2 ^ p → h ≤ 2 ^ q → p + q < fuel → depth + p + q ≤ maxd →
      (∀ i < w, ∀ j < h, hv_in_box (hv_cell x y ea eb i j)) →
      ∀ i < w, ∀ j < h, ∃ d < w * h,
        hv_gilbert_rec fuel x y ((w : Int) * ea.1) ((w : Int) * ea.2)
          ((h : Int) * eb.1) ((h : Int) * eb.2) d depth maxd
          = some (hv_cell x y ea eb i j) := by
  intro fuel
  induction fuel with
  | zero =>
    intro p q x y ea eb w h depth maxd _ _ _ _ _ _ _ _ _ hfuel _ _ i _ j _
    omega
  | succ fuel ih =>
    intro p q x y ea eb w h depth maxd hua hub hperp hw1 hh1 hw16 hh16
      hwp hhq hfuel hdep hbox i hi j hj
    have hb00 := hbox 0 (by omega) 0 (by omega)
    simp only [hv_in_box, hv_cell, Nat.cast_zero, zero_mul, add_zero] at hb00
    by_cases hone : h = 1
    · have hj0 : j = 0 := by omega
      subst hj0
      have hwh1 : w * h = w := by rw [hone, Nat.mul_one]
      refine ⟨i, by omega, ?_⟩
      rw [hv_gilbert_rec_succ_frame hua hub hw1 hh1 hw16 hh16 (by omega)
        (by omega) (by omega) (by omega) (by omega) (by omega)]
      simp only [if_pos hone]
      exact congrArg some (hv_cell_along_a x y ea eb i)
    · by_cases wone : w = 1
      · have hi0 : i = 0 := by omega
        subst hi0
        have hwh1 : w * h = h := by rw [wone, Nat.one_mul]
        refine ⟨j, by omega, ?_⟩
        rw [hv_gilbert_rec_succ_frame hua hub hw1 hh1 hw16 hh16 (by omega)
          (by omega) (by omega) (by omega) (by omega) (by omega)]
        simp only [if_neg hone, if_pos wone]
        exact congrArg some (hv_cell_along_b x y ea eb j)
      · have hw2 : 2 ≤ w := by omega
        have hh2 : 2 ≤ h := by omega
        obtain ⟨hp1, hwP, hPev⟩ := hv_pow_pos_exp hw2 hwp
        obtain ⟨hq1, hhQ, hQev⟩ := hv_pow_pos_exp hh2 hhq
        have hhalfW := hv_halving hw2 hwP hPev (hv_half_len_cases w ea)
        have hhalfH := hv_halving hh2 hhQ hQev (hv_half_len_cases h eb)
        have hseW : hv_split_len w ea = hv_adj_len (hv_half_len w ea) w := rfl
        have hseH : hv_split_len h eb = hv_adj_len (hv_half_len h eb) h := rfl
        by_cases hwide : 2 * w > 3 * h
        · have hE : hv_split_len w ea * h + (w - hv_split_len w ea) * h
              = w * h := by
            rw [← Nat.add_mul]
            congr 1
            omega
          by_cases hiA : i < hv_split_len w ea
          · obtain ⟨d, hd, hrec⟩ := ih (p - 1) q x y ea eb
              (hv_split_len w ea) h (depth + 1) maxd hua hub hperp
              (by omega) hh1 (by omega) hh16 (by omega) hhq (by omega) (by omega)
              (fun i hi j hj => hbox i (by omega) j hj) i hiA j hj
            refine ⟨d, by omega, ?_⟩
            rw [hv_gilbert_rec_succ_frame hua hub hw1 hh1 hw16 hh16 (by omega)
              (by omega) (by omega) (by omega) (by omega) (by omega)]
            simp only [if_neg hone, if_neg wone, if_pos hwide,
              if_pos (show d < hv_split_len w ea * h from hd)]
            exact hrec
          · obtain ⟨d, hd, hrec⟩ := ih (p - 1) q
              (x + (hv_split_len w ea : Int) * ea.1)
              (y + (hv_split_len w ea : Int) * ea.2) ea eb
              (w - hv_split_len w ea) h (depth + 1) maxd hua hub hperp
              (by omega) hh1 (by omega) hh16 (by omega) hhq (by omega) (by omega)
              (fun i hi j hj => by
                rw [hv_cell_shift_a]
                exact hbox (hv_split_len w ea + i) (by omega) j hj)
              (i - hv_split_len w ea) (by omega) j hj
            rw [hv_cell_shift_a] at hrec
            rw [show hv_split_len w ea + (i - hv_split_len w ea) = i by omega] at hrec
            refine ⟨hv_split_len w ea * h + d, by omega, ?_⟩
            rw [hv_gilbert_rec_succ_frame hua hub hw1 hh1 hw16 hh16 (by omega)
              (by omega) (by omega) (by omega) (by omega) (by omega)]
            simp only [if_neg hone, if_neg wone, if_pos hwide,
              if_neg (show ¬ hv_split_len w ea * h + d < hv_split_len w ea * h
                by omega)]
            rw [show hv_split_len w ea * h + d - hv_split_len w ea * h = d by omega]
            exact hrec
        · have hperp' : eb.1 * ea.1 + eb.2 * ea.2 = 0 := by
            rw [mul_comm eb.1 ea.1, mul_comm eb.2 ea.2]
            exact hperp
          have hm1 : hv_split_len h eb * hv_half_len w ea
              + hv_split_len h eb * (w - hv_half_len w ea)
                = hv_split_len h eb * w := by
            rw [← Nat.mul_add]
            congr 1
            omega
          have hm2 : w * (h - hv_split_len h eb) + w * hv_split_len h eb
              = w * h := by
            rw [← Nat.mul_add]
            congr 1
            omega
          have hm3 : hv_split_len h eb * w = w * hv_split_len h eb :=
            Nat.mul_comm _ _
          by_cases hjB : j < hv_split_len h eb
          · by_cases hiA : i < hv_half_len w ea
            · obtain ⟨d, hd, hrec⟩ := ih (q - 1) (p - 1) x y eb ea
                (hv_split_len h eb) (hv_half_len w ea) (depth + 1) maxd
                hub hua hperp'
                (by omega) (by omega) (by omega) (by omega) (by omega) (by omega)
                (by omega) (by omega)
                (fun u hu v hv' => by
                  rw [hv_cell_swap]
                  exact hbox v (by omega) u (by omega)) j hjB i hiA
              rw [hv_cell_swap] at hrec
              refine ⟨d, by omega, ?_⟩
              rw [hv_gilbert_rec_succ_frame hua hub hw1 hh1 hw16 hh16 (by omega)
                (by omega) (by omega) (by omega) (by omega) (by omega)]
              simp only [if_neg hone, if_neg wone, if_neg hwide,
                if_pos (show d < hv_split_len h eb * hv_half_len w ea from hd)]
              exact hrec
            · have hperp3 : (-eb.1, -eb.2).1 * (-ea.1, -ea.2).1
                  + (-eb.1, -eb.2).2 * (-ea.1, -ea.2).2 = 0 := by
                dsimp only
                rw [neg_mul_neg, neg_mul_neg, mul_comm eb.1 ea.1, mul_comm eb.2 ea.2]
                exact hperp
              obtain ⟨d, hd, hrec⟩ := ih (q - 1) (p - 1)
                (x + ((w - 1 : Nat) : Int) * ea.1
                  + ((hv_split_len h eb - 1 : Nat) : Int) * eb.1)
                (y + ((w - 1 : Nat) : Int) * ea.2
                  + ((hv_split_len h eb - 1 : Nat) : Int) * eb.2)
                (-eb.1, -eb.2) (-ea.1, -ea.2)
                (hv_split_len h eb) (w - hv_half_len w ea) (depth + 1) maxd
                (hv_unit_vec_neg hub) (hv_unit_vec_neg hua) hperp3
                (by omega) (by omega) (by omega) (by omega) (by omega) (by omega)
                (by omega) (by omega)
                (fun u hu v hv' => by
                  rw [hv_cell_reflect (by omega) (by omega)]
                  exact hbox (w - 1 - v) (by omega) (hv_split_len h eb - 1 - u)
                    (by omega))
                (hv_split_len h eb - 1 - j) (by omega) (w - 1 - i) (by omega)
              rw [hv_cell_reflect (by omega) (by omega)] at hrec
              rw [show w - 1 - (w - 1 - i) = i by omega,
                show hv_split_len h eb - 1 - (hv_split_len h eb - 1 - j) = j
                  by omega] at hrec
              refine ⟨hv_split_len h eb * hv_half_len w ea
                + w * (h - hv_split_len h eb) + d, by omega, ?_⟩
              rw [hv_gilbert_rec_succ_frame hua hub hw1 hh1 hw16 hh16 (by omega)
                (by omega) (by omega) (by omega) (by omega) (by omega)]
              simp only [if_neg hone, if_neg wone, if_neg hwide,
                if_neg (show ¬ hv_split_len h eb * hv_half_len w ea
                  + w * (h - hv_split_len h eb) + d
                    < hv_split_len h eb * hv_half_len w ea by omega),
                if_neg (show ¬ hv_split_len h eb * hv_half_len w ea
                  + w * (h - hv_split_len h eb) + d
                    < hv_split_len h eb * hv_half_len w ea
                      + w * (h - hv_split_len h eb) by omega)]
              rw [show hv_split_len h eb * hv_half_len w ea
                + w * (h - hv_split_len h eb) + d
                  - (hv_split_len h eb * hv_half_len w ea
                    + w * (h - hv_split_len h eb)) = d by omega]
              exact hrec
          · obtain ⟨d, hd, hrec⟩ := ih p (q - 1)
              (x + (hv_split_len h eb : Int) * eb.1)
              (y + (hv_split_len h eb : Int) * eb.2) ea eb
              w (h - hv_split_len h eb) (depth + 1) maxd hua hub hperp
              hw1 (by omega) hw16 (by omega) hwp (by omega) (by omega) (by omega)
              (fun i hi j hj => by
                rw [hv_cell_shift_b]
                exact hbox i hi (hv_split_len h eb + j) (by omega))
              i hi (j - hv_split_len h eb) (by omega)
            rw [hv_cell_shift_b] at hrec
            rw [show hv_split_len h eb + (j - hv_split_len h eb) = j by omega]
              at hrec
            refine ⟨hv_split_len h eb * hv_half_len w ea + d, by omega, ?_⟩
            rw [hv_gilbert_rec_succ_frame hua hub hw1 hh1 hw16 hh16 (by omega)
              (by omega) (by omega) (by omega) (by omega) (by omega)]
            simp only [if_neg hone, if_neg wone, if_neg hwide,
              if_neg (show ¬ hv_split_len h eb * hv_half_len w ea + d
                < hv_split_len h eb * hv_half_len w ea by omega),
              if_pos (show hv_split_len h eb * hv_half_len w ea + d
                < hv_split_len h eb * hv_half_len w ea
                  + w * (h - hv_split_len h eb) by omega)]
            rw [show hv_split_len h eb * hv_half_len w ea + d
              - hv_split_len h eb * hv_half_len w ea = d by omega]
            exact hrec

theorem hv_gilbert_rec_inj :
    ∀ fuel p q : Nat, ∀ x y : Int, ∀ ea eb : Int × Int,
    ∀ w h depth maxd : Nat,
      hv_unit_vec ea → hv_unit_vec eb → ea.1 * eb.1 + ea.2 * eb.2 = 0 →
      1 ≤ w → 1 ≤ h → w ≤ 2 ^ 16 → h ≤ 2 ^ 16 →
      w ≤ 2 ^ p → h ≤ 2 ^ q → p + q < fuel → depth + p + q ≤ maxd →
      (∀ i < w, ∀ j < h, hv_in_box (hv_cell x y ea eb i j)) →
      ∀ d1 d2 : Nat, d1 < w * h → d2 < w * h → d1 ≤ d2 →
        hv_gilbert_rec fuel x y ((w : Int) * ea.1) ((w : Int) * ea.2)
          ((h : Int) * eb.1) ((h : Int) * eb.2) d1 depth maxd
          = hv_gilbert_rec fuel x y ((w : Int) * ea.1) ((w : Int) * ea.2)
            ((h : Int) * eb.1) ((h : Int) * eb.2) d2 depth maxd →
        d1 = d2 := by
  intro fuel
  induction fuel with
  | zero =>
    intro p q x y ea eb w h depth maxd _ _ _ _ _ _ _ _ _ hfuel _ _ d1 d2 _ _ _ _
    omega
  | succ fuel ih =>
    intro p q x y ea eb w h depth maxd hua hub hperp hw1 hh1 hw16 hh16
      hwp hhq hfuel hdep hbox d1 d2 hd1 hd2 hle heq
    have hb00 := hbox 0 (by omega) 0 (by omega)
    simp only [hv_in_box, hv_cell, Nat.cast_zero, zero_mul, add_zero] at hb00
    rw [hv_gilbert_rec_succ_frame hua hub hw1 hh1 hw16 hh16 (by omega) hd1
        (by omega) (by omega) (by omega) (by omega),
      hv_gilbert_rec_succ_frame hua hub hw1 hh1 hw16 hh16 (by omega) hd2
        (by omega) (by omega) (by omega) (by omega)] at heq
    by_cases hone : h = 1
    · simp only [if_pos hone] at heq
      rw [hv_cell_along_a x y ea eb d1, hv_cell_along_a x y ea eb d2] at heq
      exact (hv_cell_inj hua hub hperp (Option.some_inj.mp heq)).1
    · simp only [if_neg hone] at heq
      by_cases wone : w = 1
      · simp only [if_pos wone] at heq
        rw [hv_cell_along_b x y ea eb d1, hv_cell_along_b x y ea eb d2] at heq
        exact (hv_cell_inj hua hub hperp (Option.some_inj.mp heq)).2
      · simp only [if_neg wone] at heq
        have hw2 : 2 ≤ w := by omega
        have hh2 : 2 ≤ h := by omega
        obtain ⟨hp1, hwP, hPev⟩ := hv_pow_pos_exp hw2 hwp
        obtain ⟨hq1, hhQ, hQev⟩ := hv_pow_pos_exp hh2 hhq
        have hhalfW := hv_halving hw2 hwP hPev (hv_half_len_cases w ea)
        have hhalfH := hv_halving hh2 hhQ hQev (hv_half_len_cases h eb)
        have hseW : hv_split_len w ea = hv_adj_len (hv_half_len w ea) w := rfl
        have hseH : hv_split_len h eb = hv_adj_len (hv_half_len h eb) h := rfl
        by_cases hwide : 2 * w > 3 * h
        · simp only [if_pos hwide] at heq
          have hE : hv_split_len w ea * h + (w - hv_split_len w ea) * h
              = w * h := by
            rw [← Nat.add_mul]
            congr 1
            omega
          by_cases h1A : d1 < hv_split_len w ea * h
          · by_cases h2A : d2 < hv_split_len w ea * h
            · simp only [if_pos h1A, if_pos h2A] at heq
              exact ih (p - 1) q x y ea eb (hv_split_len w ea) h (depth + 1) maxd
                hua hub hperp (by omega) hh1 (by omega) hh16 (by omega) hhq
                (by omega) (by omega)
                (fun i hi j hj => hbox i (by omega) j hj)
                d1 d2 h1A h2A hle heq
            · simp only [if_pos h1A, if_neg h2A] at heq
              obtain ⟨i1, j1, hi1, hj1, hr1⟩ := hv_gilbert_rec_total fuel
                (p - 1) q x y ea eb (hv_split_len w ea) h (depth + 1) maxd
                hua hub hperp (by omega) hh1 (by omega) hh16 (by omega) hhq
                (by omega) (by omega)
                (fun i hi j hj => hbox i (by omega) j hj) d1 h1A
              obtain ⟨i2, j2, hi2, hj2, hr2⟩ := hv_gilbert_rec_total fuel
                (p - 1) q (x + (hv_split_len w ea : Int) * ea.1)
                (y + (hv_split_len w ea : Int) * ea.2) ea eb
                (w - hv_split_len w ea) h (depth + 1) maxd
                hua hub hperp (by omega) hh1 (by omega) hh16 (by omega) hhq
                (by omega) (by omega)
                (fun i hi j hj => by
                  rw [hv_cell_shift_a]
                  exact hbox (hv_split_len w ea + i) (by omega) j hj)
                (d1 - hv_split_len w ea * h + (d2 - hv_split_len w ea * h)
                  - (d1 - hv_split_len w ea * h)) (by omega)
              rw [show d1 - hv_split_len w ea * h
                + (d2 - hv_split_len w ea * h) - (d1 - hv_split_len w ea * h)
                  = d2 - hv_split_len w ea * h by omega] at hr2
              rw [hv_cell_shift_a] at hr2
              rw [hr1, hr2] at heq
              have hcells := (hv_cell_inj hua hub hperp (Option.some_inj.mp heq)).1
              omega
          · have h2A : ¬ d2 < hv_split_len w ea * h := by omega
            simp only [if_neg h1A, if_neg h2A] at heq
            have := ih (p - 1) q (x + (hv_split_len w ea : Int) * ea.1)
              (y + (hv_split_len w ea : Int) * ea.2) ea eb
              (w - hv_split_len w ea) h (depth + 1) maxd hua hub hperp
              (by omega) hh1 (by omega) hh16 (by omega) hhq (by omega) (by omega)
              (fun i hi j hj => by
                rw [hv_cell_shift_a]
                exact hbox (hv_split_len w ea + i) (by omega) j hj)
              (d1 - hv_split_len w ea * h) (d2 - hv_split_len w ea * h)
              (by omega) (by omega) (by omega) heq
            omega
        · simp only [if_neg hwide] at heq
          have hperp' : eb.1 * ea.1 + eb.2 * ea.2 = 0 := by
            rw [mul_comm eb.1 ea.1, mul_comm eb.2 ea.2]
            exact hperp
          have hperp3 : (-eb.1, -eb.2).1 * (-ea.1, -ea.2).1
              + (-eb.1, -eb.2).2 * (-ea.1, -ea.2).2 = 0 := by
            dsimp only
            rw [neg_mul_neg, neg_mul_neg, mul_comm eb.1 ea.1, mul_comm eb.2 ea.2]
            exact hperp
          have hm1 : hv_split_len h eb * hv_half_len w ea
              + hv_split_len h eb * (w - hv_half_len w ea)
                = hv_split_len h eb * w := by
            rw [← Nat.mul_add]
            congr 1
            omega
          have hm2 : w * (h - hv_split_len h eb) + w * hv_split_len h eb
              = w * h := by
            rw [← Nat.mul_add]
            congr 1
            omega
          have hm3 : hv_split_len h eb * w = w * hv_split_len h eb :=
            Nat.mul_comm _ _
          by_cases h11 : d1 < hv_split_len h eb * hv_half_len w ea
          · by_cases h21 : d2 < hv_split_len h eb * hv_half_len w ea
            · simp only [if_pos h11, if_pos h21] at heq
              exact ih (q - 1) (p - 1) x y eb ea (hv_split_len h eb)
                (hv_half_len w ea) (depth + 1) maxd hub hua hperp'
                (by omega) (by omega) (by omega) (by omega) (by omega) (by omega)
                (by omega) (by omega)
                (fun u hu v hv' => by
                  rw [hv_cell_swap]
                  exact hbox v (by omega) u (by omega))
                d1 d2 h11 h21 hle heq
            · obtain ⟨u1, v1, hu1, hv1, hr1⟩ := hv_gilbert_rec_total fuel
                (q - 1) (p - 1) x y eb ea (hv_split_len h eb)
                (hv_half_len w ea) (depth + 1) maxd hub hua hperp'
                (by omega) (by omega) (by omega) (by omega) (by omega) (by omega)
                (by omega) (by omega)
                (fun u hu v hv' => by
                  rw [hv_cell_swap]
                  exact hbox v (by omega) u (by omega)) d1 h11
              rw [hv_cell_swap] at hr1
              by_cases h22 : d2 < hv_split_len h eb * hv_half_len w ea
                  + w * (h - hv_split_len h eb)
              · simp only [if_pos h11, if_neg h21, if_pos h22] at heq
                obtain ⟨i2, j2, hi2, hj2, hr2⟩ := hv_gilbert_rec_total fuel
                  p (q - 1) (x + (hv_split_len h eb : Int) * eb.1)
                  (y + (hv_split_len h eb : Int) * eb.2) ea eb
                  w (h - hv_split_len h eb) (depth + 1) maxd hua hub hperp
                  hw1 (by omega) hw16 (by omega) hwp (by omega) (by omega)
                  (by omega)
                  (fun i hi j hj => by
                    rw [hv_cell_shift_b]
                    exact hbox i hi (hv_split_len h eb + j) (by omega))
                  (d2 - hv_split_len h eb * hv_half_len w ea) (by omega)
                rw [hv_cell_shift_b] at hr2
                rw [hr1, hr2] at heq
                have hcells := (hv_cell_inj hua hub hperp
                  (Option.some_inj.mp heq)).2
                omega
              · simp only [if_pos h11, if_neg h21, if_neg h22] at heq
                obtain ⟨u3, v3, hu3, hv3, hr3⟩ := hv_gilbert_rec_total fuel
                  (q - 1) (p - 1)
                  (x + ((w - 1 : Nat) : Int) * ea.1
                    + ((hv_split_len h eb - 1 : Nat) : Int) * eb.1)
                  (y + ((w - 1 : Nat) : Int) * ea.2
                    + ((hv_split_len h eb - 1 : Nat) : Int) * eb.2)
                  (-eb.1, -eb.2) (-ea.1, -ea.2)
                  (hv_split_len h eb) (w - hv_half_len w ea) (depth + 1) maxd
                  (hv_unit_vec_neg hub) (hv_unit_vec_neg hua) hperp3
                  (by omega) (by omega) (by omega) (by omega) (by omega)
                  (by omega) (by omega) (by omega)
                  (fun u hu v hv' => by
                    rw [hv_cell_reflect (by omega) (by omega)]
                    exact hbox (w - 1 - v) (by omega)
                      (hv_split_len h eb - 1 - u) (by omega))
                  (d2 - (hv_split_len h eb * hv_half_len w ea
                    + w * (h - hv_split_len h eb))) (by omega)
                dsimp only at hr3
                rw [hv_cell_reflect (by omega) (by omega)] at hr3
                rw [hr1, hr3] at heq
                have hcells := (hv_cell_inj hua hub hperp
                  (Option.some_inj.mp heq)).1
                omega
          · have h21 : ¬ d2 < hv_split_len h eb * hv_half_len w ea := by omega
            by_cases h12 : d1 < hv_split_len h eb * hv_half_len w ea
                + w * (h - hv_split_len h eb)
            · by_cases h22 : d2 < hv_split_len h eb * hv_half_len w ea
                  + w * (h - hv_split_len h eb)
              · simp only [if_neg h11, if_pos h12, if_neg h21, if_pos h22] at heq
                have := ih p (q - 1) (x + (hv_split_len h eb : Int) * eb.1)
                  (y + (hv_split_len h eb : Int) * eb.2) ea eb
                  w (h - hv_split_len h eb) (depth + 1) maxd hua hub hperp
                  hw1 (by omega) hw16 (by omega) hwp (by omega) (by omega)
                  (by omega)
                  (fun i hi j hj => by
                    rw [hv_cell_shift_b]
                    exact hbox i hi (hv_split_len h eb + j) (by omega))
                  (d1 - hv_split_len h eb * hv_half_len w ea)
                  (d2 - hv_split_len h eb * hv_half_len w ea)
                  (by omega) (by omega) (by omega) heq
                omega
              · simp only [if_neg h11, if_pos h12, if_neg h21, if_neg h22] at heq
                obtain ⟨i2, j2, hi2, hj2, hr2⟩ := hv_gilbert_rec_total fuel
                  p (q - 1) (x + (hv_split_len h eb : Int) * eb.1)
                  (y + (hv_split_len h eb : Int) * eb.2) ea eb
                  w (h - hv_split_len h eb) (depth + 1) maxd hua hub hperp
                  hw1 (by omega) hw16 (by omega) hwp (by omega) (by omega)
                  (by omega)
                  (fun i hi j hj => by
                    rw [hv_cell_shift_b]
                    exact hbox i hi (hv_split_len h eb + j) (by omega))
                  (d1 - hv_split_len h eb * hv_half_len w ea) (by omega)
                rw [hv_cell_shift_b] at hr2
                obtain ⟨u3, v3, hu3, hv3, hr3⟩ := hv_gilbert_rec_total fuel
                  (q - 1) (p - 1)
                  (x + ((w - 1 : Nat) : Int) * ea.1
                    + ((hv_split_len h eb - 1 : Nat) : Int) * eb.1)
                  (y + ((w - 1 : Nat) : Int) * ea.2
                    + ((hv_split_len h eb - 1 : Nat) : Int) * eb.2)
                  (-eb.1, -eb.2) (-ea.1, -ea.2)
                  (hv_split_len h eb) (w - hv_half_len w ea) (depth + 1) maxd
                  (hv_unit_vec_neg hub) (hv_unit_vec_neg hua) hperp3
                  (by omega) (by omega) (by omega) (by omega) (by omega)
                  (by omega) (by omega) (by omega)
                  (fun u hu v hv' => by
                    rw [hv_cell_reflect (by omega) (by omega)]
                    exact hbox (w - 1 - v) (by omega)
                      (hv_split_len h eb - 1 - u) (by omega))
                  (d2 - (hv_split_len h eb * hv_half_len w ea
                    + w * (h - hv_split_len h eb))) (by omega)
                dsimp only at hr3
                rw [hv_cell_reflect (by omega) (by omega)] at hr3
                rw [hr2, hr3] at heq
                have hcells := (hv_cell_inj hua hub hperp
                  (Option.some_inj.mp heq)).2
                omega
            · have h22 : ¬ d2 < hv_split_len h eb * hv_half_len w ea
                  + w * (h - hv_split_len h eb) := by omega
              simp only [if_neg h11, if_neg h12, if_neg h21, if_neg h22] at heq
              have := ih (q - 1) (p - 1)
                (x + ((w - 1 : Nat) : Int) * ea.1
                  + ((hv_split_len h eb - 1 : Nat) : Int) * eb.1)
                (y + ((w - 1 : Nat) : Int) * ea.2
                  + ((hv_split_len h eb - 1 : Nat) : Int) * eb.2)
                (-eb.1, -eb.2) (-ea.1, -ea.2)
                (hv_split_len h eb) (w - hv_half_len w ea) (depth + 1) maxd
                (hv_unit_vec_neg hub) (hv_unit_vec_neg hua) hperp3
                (by omega) (by omega) (by omega) (by omega) (by omega)
                (by omega) (by omega) (by omega)
                (fun u hu v hv' => by
                  rw [hv_cell_reflect (by omega) (by omega)]
                  exact hbox (w - 1 - v) (by omega)
                    (hv_split_len h eb - 1 - u) (by omega))
                (d1 - (hv_split_len h eb * hv_half_len w ea
                  + w * (h - hv_split_len h eb)))
                (d2 - (hv_split_len h eb * hv_half_len w ea
                  + w * (h - hv_split_len h eb)))
                (by omega) (by omega) (by omega) heq
              omega

theorem hv_cell_square (i j : Nat) :
    hv_cell 0 0 ((1 : Int), (0 : Int)) ((0 : Int), (1 : Int)) i j
      = ((i : Int), (j : Int)) := by
  unfold hv_cell
  refine Prod.ext ?_ ?_ <;> dsimp only <;> ring

theorem hv_gilbert_square_eq {o : Nat} (_h1 : 1 ≤ o) (h2 : o ≤ 16) (d : Nat) :
    hv_gilbert_d2xy (2 ^ o) (2 ^ o) d
      = if d ≥ 2 ^ o * 2 ^ o then none
        else
          Option.bind
            (hv_gilbert_rec 257 0 0 ((2 ^ o : Nat) : Int) 0 0
              ((2 ^ o : Nat) : Int) d 0 256)
            (fun r =>
              if r.1 < 0 ∨ r.2 < 0 ∨ r.1 ≥ ((2 ^ o : Nat) : Int)
                  ∨ r.2 ≥ ((2 ^ o : Nat) : Int) then none
              else some (r.1.toNat, r.2.toNat)) := by
  have hpos : 0 < 2 ^ o := Nat.pos_pow_of_pos o (by omega)
  have hle16 : 2 ^ o ≤ 2 ^ 16 := Nat.pow_le_pow_right (by omega) h2
  have hcap : 2 ^ o * 2 ^ o ≤ U64max := by
    have := Nat.mul_le_mul hle16 hle16
    simp only [U64max]
    omega
  unfold hv_gilbert_d2xy hv_gilbert_d2xy_with_limit
    HV_GILBERT_DEFAULT_MAX_RECURSION_DEPTH
  rw [if_neg (by omega : ¬ ((2 : Nat) ^ o = 0 ∨ (2 : Nat) ^ o = 0))]
  rw [hv_u64_mul_eq_some hcap]
  show (if d ≥ 2 ^ o * 2 ^ o then none
    else do
      let r ←
        if (2 : Nat) ^ o ≥ 2 ^ o then
          hv_gilbert_d2xy_recursive 0 0 ((2 ^ o : Nat) : Int) 0 0
            ((2 ^ o : Nat) : Int) d 0 256
        else
          hv_gilbert_d2xy_recursive 0 0 0 ((2 ^ o : Nat) : Int)
            ((2 ^ o : Nat) : Int) 0 d 0 256
      if r.1 < 0 ∨ r.2 < 0 ∨ r.1 ≥ ((2 ^ o : Nat) : Int)
          ∨ r.2 ≥ ((2 ^ o : Nat) : Int) then none
      else some (r.1.toNat, r.2.toNat)) = _
  rw [if_pos (le_refl ((2 : Nat) ^ o))]
  unfold hv_gilbert_d2xy_recursive
  rfl

theorem hv_gilbert_square_rec_spec {o : Nat} (h1 : 1 ≤ o) (h2 : o ≤ 16) :
    (∀ d < 2 ^ o * 2 ^ o, ∃ i j : Nat, i < 2 ^ o ∧ j < 2 ^ o ∧
      hv_gilbert_rec 257 0 0 ((2 ^ o : Nat) : Int) 0 0 ((2 ^ o : Nat) : Int)
        d 0 256 = some ((i : Int), (j : Int))) ∧
    (∀ i : Nat, i < 2 ^ o → ∀ j : Nat, j < 2 ^ o → ∃ d < 2 ^ o * 2 ^ o,
      hv_gilbert_rec 257 0 0 ((2 ^ o : Nat) : Int) 0 0 ((2 ^ o : Nat) : Int)
        d 0 256 = some ((i : Int), (j : Int))) ∧
    (∀ d1 d2 : Nat, d1 < 2 ^ o * 2 ^ o → d2 < 2 ^ o * 2 ^ o →
      hv_gilbert_rec 257 0 0 ((2 ^ o : Nat) : Int) 0 0 ((2 ^ o : Nat) : Int)
          d1 0 256
        = hv_gilbert_rec 257 0 0 ((2 ^ o : Nat) : Int) 0 0 ((2 ^ o : Nat) : Int)
            d2 0 256 → d1 = d2) := by
  have hpos : 0 < 2 ^ o := Nat.pos_pow_of_pos o (by omega)
  have hle16 : 2 ^ o ≤ 2 ^ 16 := Nat.pow_le_pow_right (by omega) h2
  have hua : hv_unit_vec ((1 : Int), (0 : Int)) := Or.inl rfl
  have hub : hv_unit_vec ((0 : Int), (1 : Int)) := Or.inr (Or.inr (Or.inl rfl))
  have hperp : ((1 : Int), (0 : Int)).1 * ((0 : Int), (1 : Int)).1
      + ((1 : Int), (0 : Int)).2 * ((0 : Int), (1 : Int)).2 = 0 := by norm_num
  have hbox : ∀ i < 2 ^ o, ∀ j < 2 ^ o,
      hv_in_box (hv_cell 0 0 ((1 : Int), (0 : Int)) ((0 : Int), (1 : Int)) i j) := by
    intro i hi j hj
    rw [hv_cell_square]
    simp only [hv_in_box]
    refine ⟨by omega, by omega, by omega, by omega⟩
  refine ⟨?_, ?_, ?_⟩
  · intro d hd
    obtain ⟨i, j, hi, hj, hrec⟩ := hv_gilbert_rec_total 257 o o 0 0
      ((1 : Int), (0 : Int)) ((0 : Int), (1 : Int)) (2 ^ o) (2 ^ o) 0 256
      hua hub hperp (by omega) (by omega) hle16 hle16 (le_refl _) (le_refl _)
      (by omega) (by omega) hbox d hd
    refine ⟨i, j, hi, hj, ?_⟩
    rw [hv_cell_square] at hrec
    simp only [mul_one, mul_zero] at hrec
    exact hrec
  · intro i hi j hj
    obtain ⟨d, hd, hrec⟩ := hv_gilbert_rec_surj 257 o o 0 0
      ((1 : Int), (0 : Int)) ((0 : Int), (1 : Int)) (2 ^ o) (2 ^ o) 0 256
      hua hub hperp (by omega) (by omega) hle16 hle16 (le_refl _) (le_refl _)
      (by omega) (by omega) hbox i hi j hj
    refine ⟨d, hd, ?_⟩
    rw [hv_cell_square] at hrec
    simp only [mul_one, mul_zero] at hrec
    exact hrec
  · intro d1 d2 hd1 hd2 heq
    have heq' : hv_gilbert_rec 257 0 0
        (((2 ^ o : Nat) : Int) * ((1 : Int), (0 : Int)).1)
        (((2 ^ o : Nat) : Int) * ((1 : Int), (0 : Int)).2)
        (((2 ^ o : Nat) : Int) * ((0 : Int), (1 : Int)).1)
        (((2 ^ o : Nat) : Int) * ((0 : Int), (1 : Int)).2) d1 0 256
          = hv_gilbert_rec 257 0 0
            (((2 ^ o : Nat) : Int) * ((1 : Int), (0 : Int)).1)
            (((2 ^ o : Nat) : Int) * ((1 : Int), (0 : Int)).2)
            (((2 ^ o : Nat) : Int) * ((0 : Int), (1 : Int)).1)
            (((2 ^ o : Nat) : Int) * ((0 : Int), (1 : Int)).2) d2 0 256 := by
      simp only [mul_one, mul_zero]
      exact heq
    rcases le_total d1 d2 with hle | hle
    · exact hv_gilbert_rec_inj 257 o o 0 0
        ((1 : Int), (0 : Int)) ((0 : Int), (1 : Int)) (2 ^ o) (2 ^ o) 0 256
        hua hub hperp (by omega) (by omega) hle16 hle16 (le_refl _) (le_refl _)
        (by omega) (by omega) hbox d1 d2 hd1 hd2 hle heq'
    · exact (hv_gilbert_rec_inj 257 o o 0 0
        ((1 : Int), (0 : Int)) ((0 : Int), (1 : Int)) (2 ^ o) (2 ^ o) 0 256
        hua hub hperp (by omega) (by omega) hle16 hle16 (le_refl _) (le_refl _)
        (by omega) (by omega) hbox d2 d1 hd2 hd1 hle heq'.symm).symm

theorem hv_gilbert_square_bij {o : Nat} (h1 : 1 ≤ o) (h2 : o ≤ 16) :
    (∀ gx < 2 ^ o, ∀ gy < 2 ^ o,
      ∃! d, hv_gilbert_d2xy (2 ^ o) (2 ^ o) d = some (gx, gy)) ∧
    (∀ d < 4 ^ o, ∃ gx < 2 ^ o, ∃ gy < 2 ^ o,
      hv_gilbert_d2xy (2 ^ o) (2 ^ o) d = some (gx, gy)) := by
  have hle16 : 2 ^ o ≤ 2 ^ 16 := Nat.pow_le_pow_right (by omega) h2
  have h4 : (4 : Nat) ^ o = 2 ^ o * 2 ^ o := by
    rw [hv_pow_four_eq, two_mul, pow_add]
  obtain ⟨hT, hS, hI⟩ := hv_gilbert_square_rec_spec h1 h2
  have hrun : ∀ d < 2 ^ o * 2 ^ o, ∀ i : Nat, i < 2 ^ o → ∀ j : Nat,
      j < 2 ^ o →
      hv_gilbert_rec 257 0 0 ((2 ^ o : Nat) : Int) 0 0 ((2 ^ o : Nat) : Int)
          d 0 256 = some ((i : Int), (j : Int)) →
      hv_gilbert_d2xy (2 ^ o) (2 ^ o) d = some (i, j) := by
    intro d hd i hi j hj hrec
    rw [hv_gilbert_square_eq h1 h2 d, if_neg (by omega), hrec]
    show (if ((i : Int), (j : Int)).1 < 0
        ∨ ((i : Int), (j : Int)).2 < 0
        ∨ ((i : Int), (j : Int)).1 ≥ ((2 ^ o : Nat) : Int)
        ∨ ((i : Int), (j : Int)).2 ≥ ((2 ^ o : Nat) : Int) then none
      else some (((i : Int), (j : Int)).1.toNat,
        ((i : Int), (j : Int)).2.toNat)) = some (i, j)
    rw [if_neg (by dsimp only; omega)]
    refine congrArg some (Prod.ext ?_ ?_) <;> dsimp only <;> omega
  constructor
  · intro gx hgx gy hgy
    obtain ⟨d0, hd0, hrec0⟩ := hS gx hgx gy hgy
    refine ⟨d0, hrun d0 hd0 gx hgx gy hgy hrec0, ?_⟩
    intro d hd
    by_cases hdge : d ≥ 2 ^ o * 2 ^ o
    · rw [hv_gilbert_square_eq h1 h2 d, if_pos hdge] at hd
      exact absurd hd (by simp)
    · rw [hv_gilbert_square_eq h1 h2 d, if_neg hdge] at hd
      obtain ⟨i, j, hi, hj, hrec⟩ := hT d (by omega)
      rw [hrec] at hd
      have hd2 : (if ((i : Int), (j : Int)).1 < 0
          ∨ ((i : Int), (j : Int)).2 < 0
          ∨ ((i : Int), (j : Int)).1 ≥ ((2 ^ o : Nat) : Int)
          ∨ ((i : Int), (j : Int)).2 ≥ ((2 ^ o : Nat) : Int) then none
        else some (((i : Int), (j : Int)).1.toNat,
          ((i : Int), (j : Int)).2.toNat)) = some (gx, gy) := hd
      rw [if_neg (by dsimp only; omega)] at hd2
      have hpair := Option.some_inj.mp hd2
      rw [Prod.mk.injEq] at hpair
      obtain ⟨he1, he2⟩ := hpair
      dsimp only at he1 he2
      have hieq : i = gx := by omega
      have hjeq : j = gy := by omega
      rw [hieq, hjeq] at hrec
      exact hI d d0 (by omega) hd0 (hrec.trans hrec0.symm)
  · intro d hd
    rw [h4] at hd
    obtain ⟨i, j, hi, hj, hrec⟩ := hT d hd
    exact ⟨i, hi, j, hj, hrun d hd i hi j hj hrec⟩

/-- C1: for every supported order in `[1, 16]`, the maps `d ↦ (x, y)` of both
engines — `hv_hilbert_d2xy order` and the square case
`hv_gilbert_d2xy (2^order) (2^order)` — are bijections from `[0, 4^order)`
onto the full `2^order × 2^order` grid: every cell `(x, y)` of the grid is
produced by exactly one `d`, and every `d` below the capacity is mapped onto
a cell of the grid. -/
theorem C1_bijection_both_engines {order : Nat}
    (h1 : HV_HILBERT_MIN_ORDER ≤ order) (h2 : order ≤ HV_HILBERT_MAX_ORDER) :
    (∀ gx < 2 ^ order, ∀ gy < 2 ^ order,
      ∃! d, hv_hilbert_d2xy order d = some (gx, gy)) ∧
    (∀ d < 4 ^ order, ∃ gx < 2 ^ order, ∃ gy < 2 ^ order,
      hv_hilbert_d2xy order d = some (gx, gy)) ∧
    (∀ gx < 2 ^ order, ∀ gy < 2 ^ order,
      ∃! d, hv_gilbert_d2xy (2 ^ order) (2 ^ order) d = some (gx, gy)) ∧
    (∀ d < 4 ^ order, ∃ gx < 2 ^ order, ∃ gy < 2 ^ order,
      hv_gilbert_d2xy (2 ^ order) (2 ^ order) d = some (gx, gy)) := by
  have h1' : 1 ≤ order := by
    have he : HV_HILBERT_MIN_ORDER = 1 := rfl
    omega
  have h2' : order ≤ 16 := by
    have he : HV_HILBERT_MAX_ORDER = 16 := rfl
    omega
  obtain ⟨hgu, hgt⟩ := hv_gilbert_square_bij h1' h2'
  refine ⟨?_, ?_, hgu, hgt⟩
  · intro gx hgx gy hgy
    exact hv_hilbert_d2xy_bij h1' h2' hgx hgy
  · intro d hd
    obtain ⟨hx, hy⟩ := hv_hilbert_loop_lt d order
    refine ⟨(hv_hilbert_loop d order).1, hx, (hv_hilbert_loop d order).2.1, hy, ?_⟩
    exact (hv_hilbert_d2xy_eq_some_iff h1' h2').mpr ⟨hd, rfl⟩

theorem C1_bijection_both_engines_witness :
    (HV_HILBERT_MIN_ORDER ≤ 1 ∧ 1 ≤ HV_HILBERT_MAX_ORDER) ∧
    ((∀ gx < 2 ^ 1, ∀ gy < 2 ^ 1,
      ∃! d, hv_hilbert_d2xy 1 d = some (gx, gy)) ∧
    (∀ d < 4 ^ 1, ∃ gx < 2 ^ 1, ∃ gy < 2 ^ 1,
      hv_hilbert_d2xy 1 d = some (gx, gy)) ∧
    (∀ gx < 2 ^ 1, ∀ gy < 2 ^ 1,
      ∃! d, hv_gilbert_d2xy (2 ^ 1) (2 ^ 1) d = some (gx, gy)) ∧
    (∀ d < 4 ^ 1, ∃ gx < 2 ^ 1, ∃ gy < 2 ^ 1,
      hv_gilbert_d2xy (2 ^ 1) (2 ^ 1) d = some (gx, gy))) :=
  ⟨⟨by decide, by decide⟩, C1_bijection_both_engines (by decide) (by decide)⟩

end Hilbertviz
